import Mathlib

/-!
Skeleton pass: branch cataloguing, instrumentation and input-origin tracking.

A shallow embedding of `llvm-pass-skeleton/skeleton/Skeleton.cpp`.

The IR graph is modelled as data: a module is a list of functions, a function a
list of basic blocks, a basic block a list of instructions.  A successor of a
branch is the index of a block of the same function.  Line numbers and the
branch counter are natural numbers: they are taken to stay below `2^31`, where
the `unsigned` to `int` conversions and the increments of the source are exact.
Where the source dereferences a
null pointer (the successor block of a catalogued branch has no non-phi
instruction) the embedding returns `none`.
-/

namespace Skeleton

/-! ## The IR graph -/

/-- Identity of an IR value (what the source compares as `Value*`). -/
inductive ValueRef where
  | val (id : Nat)
  | func (name : String)
  | logStr (branchID : String)
  | logCall (branchID : String)
deriving DecidableEq

/-- An operand as seen by the pass: its identity, whether its type is a pointer
type, whether it is a `Constant`, its `printAsOperand(OS, false)` rendering and
its `operator<<` rendering. -/
structure Value where
  ref : ValueRef
  isPointerTy : Bool
  isConstant : Bool
  asOperand : String
  text : String
deriving DecidableEq

/-- Instruction kinds the pass distinguishes.  A `BranchInst` is `br`
(unconditional, one successor) or `condBr` (conditional, successor 0 and
successor 1); `switch` stands for a terminator with several successors that is
not a `BranchInst`; `call` carries the name of the called function when the call
is direct (`getCalledFunction()` is not null) and the callee operand, which is
the last operand of every call. -/
inductive Opcode where
  | phi
  | br (succ : Nat)
  | condBr (succ0 succ1 : Nat)
  | switch (succs : List Nat)
  | call (calledFunc : Option String) (callee : Value)
  | other
deriving DecidableEq

/-- An instruction: kind, optional debug location (its line), identity as a
value, operand list (for a call: the arguments; the callee is kept in the kind). -/
structure Instruction where
  op : Opcode
  loc : Option Nat
  ref : ValueRef
  operands : List Value
deriving DecidableEq

structure BasicBlock where
  insts : List Instruction
deriving DecidableEq

/-- A function: name, the rendering of its address, and its blocks (none for a
declaration). -/
structure Function where
  name : String
  addr : String
  blocks : List BasicBlock
deriving DecidableEq

structure Module where
  sourceFileName : String
  functions : List Function
deriving DecidableEq

/-- Source `DebugLoc::getLine()`: the line, 0 when there is no location. -/
def getLine : Option Nat → Nat
  | none => 0
  | some l => l

/-- The operand list `op_begin() .. op_end()`: for a call the arguments
followed by the callee. -/
def Instruction.getOperands (i : Instruction) : List Value :=
  match i.op with
  | .call _ callee => i.operands ++ [callee]
  | _ => i.operands

/-- Source `getNumOperands()`. -/
def Instruction.getNumOperands (i : Instruction) : Nat :=
  i.getOperands.length

/-- Source `isa<PHINode>`. -/
def Instruction.isPHI (i : Instruction) : Bool :=
  match i.op with
  | .phi => true
  | _ => false

/-- Whether `dyn_cast<BranchInst>` succeeds. -/
def Instruction.isBranchInst (i : Instruction) : Bool :=
  match i.op with
  | .br _ => true
  | .condBr _ _ => true
  | _ => false

/-- Source `BranchInst::isConditional()` on a `BranchInst`. -/
def Instruction.isConditional (i : Instruction) : Bool :=
  match i.op with
  | .condBr _ _ => true
  | _ => false

/-- Successor list of an instruction, in successor-index order. -/
def Instruction.successors (i : Instruction) : List Nat :=
  match i.op with
  | .br s => [s]
  | .condBr s0 s1 => [s0, s1]
  | .switch ss => ss
  | _ => []

/-- Source `getNumSuccessors()`. -/
def Instruction.getNumSuccessors (i : Instruction) : Nat :=
  i.successors.length

/-- Source `getOpcodeName()` of a `BranchInst`. -/
def brOpcodeName : String := "br"

/-- Source `BasicBlock::getFirstNonPHI()`: the first instruction that is not a phi. -/
def getFirstNonPHI : List Instruction → Option Instruction
  | [] => none
  | i :: rest => if i.isPHI then getFirstNonPHI rest else some i

/-- Insertion of `c` at `getFirstInsertionPt()`: right before the first
instruction that is not a phi (a successor of a `br` is never an EH pad, so the
first insertion point is the first non-phi instruction). -/
def insertAtFirstInsertionPt (c : Instruction) : List Instruction → List Instruction
  | [] => []
  | i :: rest =>
    if i.isPHI then i :: insertAtFirstInsertionPt c rest else c :: i :: rest

/-! ## Sweep 1: cataloguing and instrumentation -/

/-- The `std::tuple<std::string, int, int>` stored per id:
source file, condition line, target line. -/
abbrev BranchRecord := String × Nat × Nat

def BranchRecord.sourceFile (r : BranchRecord) : String := r.1
def BranchRecord.conditionLine (r : BranchRecord) : Nat := r.2.1
def BranchRecord.targetLine (r : BranchRecord) : Nat := r.2.2

/-- Source `std::string::operator<`: lexicographic comparison, character by character,
a proper initial segment being smaller. -/
def strLt : List Char → List Char → Bool
  | _, [] => false
  | [], _ :: _ => true
  | a :: as, b :: bs =>
    if a.toNat < b.toNat then true
    else if a.toNat = b.toNat then strLt as bs
    else false

/-- Source `m[k] = v` on a `std::map<std::string, V>` kept as the list of its entries
in iteration (ascending key) order. -/
def mapInsert {V : Type} (k : String) (v : V) : List (String × V) → List (String × V)
  | [] => [(k, v)]
  | (k1, v1) :: rest =>
    if strLt k.data k1.data then (k, v) :: (k1, v1) :: rest
    else if k = k1 then (k, v) :: rest
    else (k1, v1) :: mapInsert k v rest

/-- Source `std::set<int>::insert` on a set kept as its ascending list of elements. -/
def setInsert (x : Nat) : List Nat → List Nat
  | [] => [x]
  | y :: rest =>
    if x < y then x :: y :: rest
    else if x = y then y :: rest
    else y :: setInsert x rest

/-- Source `std::to_string(branchNumber)`: decimal rendering. -/
def to_string (n : Nat) : String := Nat.repr n

/-- The call built by `builder.CreateCall(logFunc, args)`.  The builder is
constructed on the instruction at the insertion point, so it stamps the call
with that instruction's debug location (`IRBuilder(Instruction*)` sets the
current debug location from its argument).  Operands: the string constant
made by `CreateGlobalStringPtr(branchID)`, then the callee. -/
def logPrintCall (branchID : String) (loc : Option Nat) : Instruction :=
  { op := .call (some "logPrint")
      { ref := .func "logPrint", isPointerTy := true, isConstant := true,
        asOperand := "@logPrint", text := "declare void @logPrint(ptr)" }
    loc := loc
    ref := .logCall branchID
    operands :=
      [ { ref := .logStr branchID, isPointerTy := true, isConstant := true,
          asOperand := "@.str", text := branchID } ] }

/-- State threaded through the traversal of one function. -/
structure CatalogState where
  blocks : List BasicBlock
  branchDictionary : List (String × BranchRecord)
  branchNumber : Nat
  flag : Bool
deriving DecidableEq

/-- Body of the successor loop (lines 158-169) for successor block index `succ`. -/
def catalogueEdge (fileName opcodeName : String) (startLine : Nat)
    (st : CatalogState) (succ : Nat) : Option CatalogState :=
  match st.blocks[succ]? with
  | none => none
  | some branch =>
    match getFirstNonPHI branch.insts with
    | none => none
    | some first =>
      let branchID := opcodeName ++ "_" ++ to_string st.branchNumber
      let targetLine := getLine first.loc
      some
        { blocks := st.blocks.set succ
            ⟨insertAtFirstInsertionPt (logPrintCall branchID first.loc) branch.insts⟩
          branchDictionary :=
            mapInsert branchID (fileName, startLine, targetLine) st.branchDictionary
          branchNumber := st.branchNumber + 1
          flag := true }

/-- The successor loop `for (i = 0; i < getNumSuccessors(); ++i)`. -/
def catalogueEdges (fileName opcodeName : String) (startLine : Nat) :
    CatalogState → List Nat → Option CatalogState
  | st, [] => some st
  | st, s :: rest =>
    match catalogueEdge fileName opcodeName startLine st s with
    | none => none
    | some st1 => catalogueEdges fileName opcodeName startLine st1 rest

/-- Body of the instruction loop (lines 149-173): only a conditional
`BranchInst` with a debug location is catalogued. -/
def visitInstruction (fileName : String) (st : CatalogState) (i : Instruction) :
    Option CatalogState :=
  match i.op, i.loc with
  | .condBr s0 s1, some startLine =>
    catalogueEdges fileName brOpcodeName startLine st [s0, s1]
  | _, _ => some st

/-- The instruction loop over one block.  The calls inserted while a block is
being traversed go in front of the instruction under the cursor, so the
instructions visited are those present when the traversal of the block began. -/
def visitInstructions (fileName : String) :
    CatalogState → List Instruction → Option CatalogState
  | st, [] => some st
  | st, i :: rest =>
    match visitInstruction fileName st i with
    | none => none
    | some st1 => visitInstructions fileName st1 rest

/-- One iteration of the block loop, for the block of index `b`. -/
def visitBlock (fileName : String) (st : CatalogState) (b : Nat) : Option CatalogState :=
  match st.blocks[b]? with
  | none => some st
  | some blk => visitInstructions fileName st blk.insts

/-- The block loop `for (BasicBlock &B : F)`. -/
def visitBlocks (fileName : String) : CatalogState → List Nat → Option CatalogState
  | st, [] => some st
  | st, b :: rest =>
    match visitBlock fileName st b with
    | none => none
    | some st1 => visitBlocks fileName st1 rest

/-- State threaded through the function loop of `run`: the functions already
traversed (after instrumentation), the dictionary, the counter and the
diagnostic stream. -/
structure SweepState where
  done : List Function
  branchDictionary : List (String × BranchRecord)
  branchNumber : Nat
  errs : List String
deriving DecidableEq

/-- Body of the function loop (lines 138-179) for function `F`. -/
def visitFunction (fileName : String) (sw : SweepState) (F : Function) : Option SweepState :=
  let st0 : CatalogState :=
    { blocks := F.blocks, branchDictionary := sw.branchDictionary,
      branchNumber := sw.branchNumber, flag := false }
  match visitBlocks fileName st0 (List.range F.blocks.length) with
  | none => none
  | some st =>
    some
      { done := sw.done ++ [{ F with blocks := st.blocks }]
        branchDictionary := st.branchDictionary
        branchNumber := st.branchNumber
        errs := if st.flag then sw.errs ++ [F.name ++ ": func_" ++ F.addr ++ "\n"] else sw.errs }

/-- The function loop `for (Function &F : M.functions())`. -/
def visitFunctions (fileName : String) : SweepState → List Function → Option SweepState
  | sw, [] => some sw
  | sw, F :: rest =>
    match visitFunction fileName sw F with
    | none => none
    | some sw1 => visitFunctions fileName sw1 rest

/-- Source `getOrInsertFunction("logPrint", ...)`: the declaration is appended to the
function list when the module has no function of that name. -/
def getOrInsertLogPrint (fs : List Function) : List Function :=
  if fs.any (fun F => F.name = "logPrint") then fs
  else fs ++ [{ name := "logPrint", addr := "", blocks := [] }]

/-- Sweep 1 of `run` (lines 131-180): starts from an empty dictionary and
counter 0.  The declaration of `logPrint` is made in the first iteration of the
function loop, so a module without functions gets none. -/
def catalogue (M : Module) : Option SweepState :=
  let fs := match M.functions with
    | [] => []
    | _ :: _ => getOrInsertLogPrint M.functions
  visitFunctions M.sourceFileName
    { done := [], branchDictionary := [], branchNumber := 0, errs := [] } fs

/-- Lines 182-185: every condition line of the dictionary is inserted into the
member set `keyPointLines`. -/
def collectKeyPointLines : List Nat → List (String × BranchRecord) → List Nat
  | kp, [] => kp
  | kp, (_, r) :: rest => collectKeyPointLines (setInsert r.conditionLine kp) rest

/-! ## Sweep 2: input-origin tracking and influence resolution -/

/-- The set `ioFunctions` of line 29. -/
def ioFunctions : List String :=
  ["getc", "@_fopen", "scanf", "fclose", "fread", "fwrite", "fopen", "_fopen", "\x01_fopen"]

/-- Source `instructions(F)`: the instructions of all blocks, in order. -/
def instructions : List BasicBlock → List Instruction
  | [] => []
  | b :: rest => b.insts ++ instructions rest

/-- All instructions of the module, in function order. -/
def moduleInstructions : List Function → List Instruction
  | [] => []
  | F :: rest => instructions F.blocks ++ moduleInstructions rest

/-- One entry of `i` per operand slot of `i` that holds the value `v`. -/
def usesIn (v : ValueRef) (i : Instruction) : List Value → List Instruction
  | [] => []
  | o :: rest => if o.ref = v then i :: usesIn v i rest else usesIn v i rest

/-- The users of `v` that are instructions (`dyn_cast<Instruction>(U)` succeeds),
one per use.  The order of a use list is not fixed by the IR graph; the
instructions are enumerated in program order over the instruction list given. -/
def users (v : ValueRef) : List Instruction → List Instruction
  | [] => []
  | i :: rest => usesIn v i i.getOperands ++ users v rest

/-- Source `m[k] = v` on a `std::map<Value*, int>` (never iterated by the pass). -/
def ptrMapSet (k : ValueRef) (v : Nat) : List (ValueRef × Nat) → List (ValueRef × Nat)
  | [] => [(k, v)]
  | (k1, v1) :: rest => if k = k1 then (k, v) :: rest else (k1, v1) :: ptrMapSet k v rest

/-- Lookup in a `std::map<Value*, int>`. -/
def ptrMapFind (k : ValueRef) : List (ValueRef × Nat) → Option Nat
  | [] => none
  | (k1, v1) :: rest => if k = k1 then some v1 else ptrMapFind k rest

/-- Source `std::set<Value*>::insert` (never iterated by the pass). -/
def ptrSetInsert (k : ValueRef) (s : List ValueRef) : List ValueRef :=
  if k ∈ s then s else s ++ [k]

/-- Whether `needle` is an initial segment of `hay`. -/
def startsWith : List Char → List Char → Bool
  | [], _ => true
  | _ :: _, [] => false
  | c :: cs, d :: ds => c = d && startsWith cs ds

/-- Source `hay.find(needle) != std::string::npos` on character lists. -/
def findsIn (needle : List Char) : List Char → Bool
  | [] => startsWith needle []
  | d :: ds => startsWith needle (d :: ds) || findsIn needle ds

/-- State of the instruction loop of `findInputVariables` (its locals and the
diagnostic stream). -/
structure InputState where
  inputVariables : List Value
  inputVarLines : List (ValueRef × Nat)
  filePointerInitLines : List (ValueRef × Nat)
  errs : List String
deriving DecidableEq

/-- Lines 62-66: one diagnostic per user instruction of the operand. -/
def reportUsers : List Instruction → List String
  | [] => []
  | u :: rest => ("Input variable used at line: " ++ to_string (getLine u.loc) ++ "\n")
      :: reportUsers rest

/-- Lines 56-67: body of the `scanf` operand loop for operand position `i`
(the loop keeps `i` below `getNumOperands() - 1`, so the operand exists). -/
def scanfOperand (all : List Instruction) (ioCallLine : Nat) (CI : Instruction)
    (st : InputState) (i : Nat) : InputState :=
  match CI.getOperands[i]? with
  | none => st
  | some operand =>
    if operand.isPointerTy then
      { st with
        inputVariables := st.inputVariables ++ [operand]
        inputVarLines := ptrMapSet operand.ref ioCallLine st.inputVarLines
        errs := st.errs
          ++ ["Input variable (pointer) operand found: " ++ operand.text ++ "\n"]
          ++ reportUsers (users operand.ref all) }
    else st

/-- The loop `for (i = 1; i < getNumOperands() - 1; i++)` of a `scanf` call,
over the list of its operand positions. -/
def scanfOperands (all : List Instruction) (ioCallLine : Nat) (CI : Instruction) :
    InputState → List Nat → InputState
  | st, [] => st
  | st, i :: rest => scanfOperands all ioCallLine CI (scanfOperand all ioCallLine CI st i) rest

/-- Lines 87-100: the operands of `I` that are not constants and whose rendering
contains `operandName` each give one diagnostic with the line of `I`. -/
def textualMatches (operandName : String) (I : Instruction) : List Value → List String
  | [] => []
  | o :: rest =>
    if o.isConstant then textualMatches operandName I rest
    else if operandName ≠ "" ∧ findsIn operandName.data o.asOperand.data = true then
      ("Found input variable at line: " ++ to_string (getLine I.loc) ++ "\n")
        :: textualMatches operandName I rest
    else textualMatches operandName I rest

/-- Lines 86-101: the textual scan over every instruction of the function. -/
def textualScan (operandName : String) : List Instruction → List String
  | [] => []
  | I :: rest => textualMatches operandName I I.getOperands ++ textualScan operandName rest

/-- Lines 35-107: body of the instruction loop of `findInputVariables`.
`all` is the instruction list of the module (for use lists), `F` the function
being scanned. -/
def scanInstruction (all : List Instruction) (F : Function) (st : InputState)
    (I : Instruction) : InputState :=
  match I.op with
  | .call (some name) callee =>
    if name ∈ ioFunctions then
      let ioCallLine := getLine I.loc
      let st1 : InputState :=
        { st with errs := st.errs
            ++ ["\nFound I/O call at line: " ++ to_string ioCallLine ++ "\n\n"] }
      if name = "\x01_fopen" ∨ name = "fopen" ∨ name = "_fopen" then
        { st1 with
          filePointerInitLines := ptrMapSet I.ref ioCallLine st1.filePointerInitLines
          errs := st1.errs
            ++ ["File pointer initialized at line: " ++ to_string ioCallLine ++ "\n"] }
      else if name = "scanf" then
        scanfOperands all ioCallLine I st1 (List.range' 1 (I.getNumOperands - 1 - 1))
      else if name = "getc" ∨ name = "fclose" then
        let operand := match I.operands with
          | [] => callee
          | a :: _ => a
        if operand.isPointerTy then
          { st1 with
            inputVariables := st1.inputVariables ++ [operand]
            inputVarLines := ptrMapSet operand.ref ioCallLine st1.inputVarLines
            errs := st1.errs
              ++ ["Input variable (file pointer) operand found: " ++ operand.text ++ "\n"]
              ++ textualScan operand.asOperand (instructions F.blocks) }
        else st1
      else st1
    else st
  | _ => st

/-- The loop `for (Instruction &I : instructions(F))` of lines 34-108. -/
def scanInstructions (all : List Instruction) (F : Function) :
    InputState → List Instruction → InputState
  | st, [] => st
  | st, I :: rest => scanInstructions all F (scanInstruction all F st I) rest

/-- Lines 113-122: the first user instruction whose line is a key-point line. -/
def firstKeyPointUse (keyPointLines : List Nat) : List Instruction → Option Nat
  | [] => none
  | u :: rest =>
    if getLine u.loc ∈ keyPointLines then some (getLine u.loc)
    else firstKeyPointUse keyPointLines rest

/-- Lines 112-122: `isKeyPointInfluencer` for one input variable. -/
def isKeyPointInfluencer (keyPointLines : List Nat) (all : List Instruction)
    (inputVar : Value) : Bool :=
  (firstKeyPointUse keyPointLines (users inputVar.ref all)).isSome

/-- Lines 110-126: the influence loop over `inputVariables`; returns the set
`keyPointInfluencers` and the diagnostics. -/
def resolveInfluence (keyPointLines : List Nat) (all : List Instruction) :
    List ValueRef × List String → List Value → List ValueRef × List String
  | acc, [] => acc
  | (infl, out), inputVar :: rest =>
    match firstKeyPointUse keyPointLines (users inputVar.ref all) with
    | some useLine =>
      resolveInfluence keyPointLines all
        (ptrSetInsert inputVar.ref infl,
         out ++ ["\nUsing Line " ++ to_string useLine
           ++ ", the input variable determining runtime is: " ++ inputVar.text ++ "\n"])
        rest
    | none => resolveInfluence keyPointLines all (infl, out) rest

/-- What one call of `findInputVariables` computes: its locals at the end and
the diagnostics it wrote. -/
structure InputReport where
  inputVariables : List Value
  inputVarLines : List (ValueRef × Nat)
  filePointerInitLines : List (ValueRef × Nat)
  keyPointInfluencers : List ValueRef
  errs : List String
deriving DecidableEq

/-- Source `findInputVariables(F)` (lines 28-128), reading the member `keyPointLines`.
`all` is the instruction list of the module the function lives in. -/
def findInputVariables (keyPointLines : List Nat) (all : List Instruction) (F : Function) :
    InputReport :=
  let st := scanInstructions all F
    { inputVariables := [], inputVarLines := [], filePointerInitLines := [], errs := [] }
    (instructions F.blocks)
  let r := resolveInfluence keyPointLines all ([], st.errs) st.inputVariables
  { inputVariables := st.inputVariables
    inputVarLines := st.inputVarLines
    filePointerInitLines := st.filePointerInitLines
    keyPointInfluencers := r.1
    errs := r.2 }

/-- Source `Function::isDeclaration()`: no body. -/
def Function.isDeclaration (F : Function) : Bool := F.blocks.isEmpty

/-- Lines 187-191: `findInputVariables` on every function with a body; the
reports are kept in function order. -/
def sweepInputs (keyPointLines : List Nat) (all : List Instruction) :
    List Function → List InputReport
  | [] => []
  | F :: rest =>
    if F.isDeclaration then sweepInputs keyPointLines all rest
    else findInputVariables keyPointLines all F :: sweepInputs keyPointLines all rest

/-- Lines 193-199: the branch table, one line per entry in iteration order. -/
def branchTable : List (String × BranchRecord) → List String
  | [] => []
  | (branchID, r) :: rest =>
    (branchID ++ ": " ++ r.sourceFile ++ ", " ++ to_string r.conditionLine ++ ", "
      ++ to_string r.targetLine ++ "\n") :: branchTable rest

/-- All diagnostics of the reports, in order. -/
def reportErrs : List InputReport → List String
  | [] => []
  | r :: rest => r.errs ++ reportErrs rest

/-- The pass object: its member `keyPointLines` (the member `inputVariables` is
shadowed by a local and never touched). -/
structure SkeletonPass where
  keyPointLines : List Nat
deriving DecidableEq

/-- A freshly constructed pass. -/
def SkeletonPass.fresh : SkeletonPass := { keyPointLines := [] }

/-- Everything `run` leaves behind: the pass object, the mutated module, the
dictionary and counter at the end of sweep 1, the reports of sweep 2 and the
diagnostic stream. -/
structure RunResult where
  pass : SkeletonPass
  module : Module
  branchDictionary : List (String × BranchRecord)
  branchNumber : Nat
  reports : List InputReport
  errs : List String
deriving DecidableEq

/-- Source `SkeletonPass::run` (lines 130-202). -/
def run (P : SkeletonPass) (M : Module) : Option RunResult :=
  match catalogue M with
  | none => none
  | some sw =>
    let keyPointLines := collectKeyPointLines P.keyPointLines sw.branchDictionary
    let reports := sweepInputs keyPointLines (moduleInstructions sw.done) sw.done
    some
      { pass := { keyPointLines := keyPointLines }
        module := { M with functions := sw.done }
        branchDictionary := sw.branchDictionary
        branchNumber := sw.branchNumber
        reports := reports
        errs := sw.errs ++ reportErrs reports ++ ["\nBranch Dictionary:\n"]
          ++ branchTable sw.branchDictionary }

/-! ## Specification-level functions on the input graph -/

/-- Value of a decimal digit string read most significant digit first. -/
def decodeDigits (cs : List Char) : Nat :=
  cs.foldl (fun acc c => 10 * acc + (c.toNat - 48)) 0

/-- The instruction is catalogued by sweep 1: a conditional `BranchInst` that
carries a debug location. -/
def Instruction.isCatalogued (i : Instruction) : Bool :=
  i.isBranchInst && i.isConditional && i.loc.isSome

/-- The (condition line, successor block) pairs of one instruction, in
successor-index order; empty unless the instruction is catalogued. -/
def edgesOfInst (i : Instruction) : List (Nat × Nat) :=
  if i.isCatalogued then i.successors.map (fun s => (getLine i.loc, s)) else []

/-- The edges of an instruction list, in traversal order. -/
def edgesOfInsts : List Instruction → List (Nat × Nat)
  | [] => []
  | i :: rest => edgesOfInst i ++ edgesOfInsts rest

/-- The successor loop run over a list of (condition line, successor) pairs. -/
def runEdges (fileName : String) : CatalogState → List (Nat × Nat) → Option CatalogState
  | st, [] => some st
  | st, e :: rest =>
    match catalogueEdge fileName brOpcodeName e.1 st e.2 with
    | none => none
    | some st1 => runEdges fileName st1 rest

/-- Debug location of the first non-phi instruction of a block, if there is one. -/
def firstNonPHILoc (b : BasicBlock) : Option (Option Nat) :=
  (getFirstNonPHI b.insts).map (fun i => i.loc)

/-- What sweep 1 reads of a block: its catalogued edges and the location of
its first non-phi instruction. -/
def blockSig (b : BasicBlock) : List (Nat × Nat) × Option (Option Nat) :=
  (edgesOfInsts b.insts, firstNonPHILoc b)

/-- The edges of the block of index `b`. -/
def edgesAt (blocks : List BasicBlock) (b : Nat) : List (Nat × Nat) :=
  match blocks[b]? with
  | none => []
  | some blk => edgesOfInsts blk.insts

/-- The successor index names a block that has a non-phi instruction. -/
def targetOK (blocks : List BasicBlock) (s : Nat) : Bool :=
  match blocks[s]? with
  | none => false
  | some blk => (firstNonPHILoc blk).isSome

/-- Line of the first non-phi instruction of block `s` (0 without location). -/
def targetLineOf (blocks : List BasicBlock) (s : Nat) : Nat :=
  match blocks[s]? with
  | none => 0
  | some blk =>
    match firstNonPHILoc blk with
    | none => 0
    | some loc => getLine loc

/-- The id given to the edge catalogued when the counter is `n`. -/
def branchIDOf (n : Nat) : String := brOpcodeName ++ "_" ++ to_string n

/-- The records of an edge list catalogued from counter value `n` on, in
traversal order, target lines read off `blocks`. -/
def recordsFrom (fileName : String) (blocks : List BasicBlock) :
    Nat → List (Nat × Nat) → List (String × BranchRecord)
  | _, [] => []
  | n, e :: rest =>
    (branchIDOf n, (fileName, e.1, targetLineOf blocks e.2))
      :: recordsFrom fileName blocks (n + 1) rest

/-- All records inserted into a dictionary, in order. -/
def insertAll {V : Type} : List (String × V) → List (String × V) → List (String × V)
  | d, [] => d
  | d, kv :: rest => insertAll (mapInsert kv.1 kv.2 d) rest

/-- A function all of whose catalogued edges lead to a block with a non-phi
instruction. -/
def Function.wellFormed (F : Function) : Bool :=
  (edgesOfInsts (instructions F.blocks)).all (fun e => targetOK F.blocks e.2)

/-- A module all of whose functions are well formed. -/
def Module.wellFormed (M : Module) : Bool :=
  M.functions.all (fun F => F.wellFormed)

/-- The records of a list of functions, the counter running on from `n`. -/
def moduleRecords (fileName : String) : Nat → List Function → List (String × BranchRecord)
  | _, [] => []
  | n, F :: rest =>
    recordsFrom fileName F.blocks n (edgesOfInsts (instructions F.blocks))
      ++ moduleRecords fileName (n + (edgesOfInsts (instructions F.blocks)).length) rest

/-- Sum of the successor counts of the catalogued instructions of a list. -/
def successorSum : List Instruction → Nat
  | [] => 0
  | i :: rest => (if i.isCatalogued then i.getNumSuccessors else 0) + successorSum rest

/-- The leading phi instructions of a block. -/
def phisOf (l : List Instruction) : List Instruction :=
  l.takeWhile (fun i => i.isPHI)

/-- The instructions of a block from its first non-phi instruction on. -/
def bodyOf (l : List Instruction) : List Instruction :=
  l.dropWhile (fun i => i.isPHI)

/-- The logging calls that the edges `es`, catalogued from counter value `n` on,
put into the block of index `b`; the call of the latest edge comes first. -/
def callsInto (loc : Option Nat) (b : Nat) : Nat → List (Nat × Nat) → List Instruction
  | _, [] => []
  | n, e :: rest =>
    callsInto loc b (n + 1) rest
      ++ (if e.2 = b then [logPrintCall (branchIDOf n) loc] else [])

/-- Location of the first non-phi instruction of an instruction list. -/
def headLoc (l : List Instruction) : Option Nat :=
  match getFirstNonPHI l with
  | none => none
  | some i => i.loc

/-- The block of index `b` after the edges `es` have been instrumented: its
phis, then the logging calls, then its original non-phi instructions. -/
def instrumentedBlock (n : Nat) (es : List (Nat × Nat)) (b : Nat) (blk : BasicBlock) :
    BasicBlock :=
  ⟨phisOf blk.insts ++ callsInto (headLoc blk.insts) b n es ++ bodyOf blk.insts⟩

/-- The blocks of a function after the edges `es` have been instrumented;
`b` is the index of the first block of the list. -/
def instrumentedBlocks (n : Nat) (es : List (Nat × Nat)) :
    Nat → List BasicBlock → List BasicBlock
  | _, [] => []
  | b, blk :: rest => instrumentedBlock n es b blk :: instrumentedBlocks n es (b + 1) rest

/-- The catalogued edges of a function, in traversal order. -/
def functionEdges (F : Function) : List (Nat × Nat) :=
  edgesOfInsts (instructions F.blocks)

/-- The functions after sweep 1, the counter running on from `n`. -/
def instrumentedFunctions : Nat → List Function → List Function
  | _, [] => []
  | n, F :: rest =>
    { F with blocks := instrumentedBlocks n (functionEdges F) 0 F.blocks }
      :: instrumentedFunctions (n + (functionEdges F).length) rest

/-- The per-function diagnostics of sweep 1: one line for each function that
has a catalogued edge. -/
def functionDiagnostics : List Function → List String
  | [] => []
  | F :: rest =>
    (if (functionEdges F).isEmpty then [] else [F.name ++ ": func_" ++ F.addr ++ "\n"])
      ++ functionDiagnostics rest

/-- The function list the function loop of `run` traverses. -/
def traversedFunctions (M : Module) : List Function :=
  match M.functions with
  | [] => []
  | _ :: _ => getOrInsertLogPrint M.functions

/-! ## Example modules -/

/-- An instruction of no interest to the pass, at line `l`. -/
def plainInst (l : Nat) : Instruction :=
  { op := .other, loc := some l, ref := .val l, operands := [] }

/-- Scenario A of the specification: a two-way conditional branch at line 10
whose successor blocks begin at lines 11 and 20. -/
def scenarioA : Module :=
  { sourceFileName := "a.c"
    functions :=
      [ { name := "main", addr := "0x1",
          blocks :=
            [ ⟨[plainInst 9, { op := .condBr 1 2, loc := some 10, ref := .val 1, operands := [] }]⟩,
              ⟨[plainInst 11, { op := .br 2, loc := some 12, ref := .val 2, operands := [] }]⟩,
              ⟨[plainInst 20]⟩ ] } ] }

/-- The variable `x` of scenarios B and C: a stack slot, pointer typed. -/
def varX : Value :=
  { ref := .val 7, isPointerTy := true, isConstant := false,
    asOperand := "%x", text := "  %x = alloca i32, align 4" }

/-- The format string operand of the `scanf` calls of the scenarios. -/
def fmtStr : Value :=
  { ref := .val 50, isPointerTy := true, isConstant := true,
    asOperand := "@.str", text := "@.str = constant [3 x i8]" }

/-- The function `scanf` as the callee operand. -/
def scanfCallee : Value :=
  { ref := .func "scanf", isPointerTy := true, isConstant := true,
    asOperand := "@scanf", text := "declare i32 @scanf(ptr, ...)" }

/-- The call `scanf("%d", &x)` at line 5. -/
def scanfIntoX : Instruction :=
  { op := .call (some "scanf") scanfCallee, loc := some 5, ref := .val 8,
    operands := [fmtStr, varX] }

/-- The load of `x` at line 5. -/
def loadX : Instruction :=
  { op := .other, loc := some 5, ref := .val 9, operands := [varX] }

/-- A value that does not depend on `x`. -/
def otherCond : Value :=
  { ref := .val 20, isPointerTy := false, isConstant := false,
    asOperand := "%c", text := "  %c = icmp sgt i32 %argc, 1" }

/-- The comparison `x > threshold` at line 5. -/
def cmpX : Instruction :=
  { op := .other, loc := some 5, ref := .val 10,
    operands :=
      [ { ref := .val 9, isPointerTy := false, isConstant := false,
          asOperand := "%0", text := "  %0 = load i32, ptr %x" },
        { ref := .val 11, isPointerTy := false, isConstant := false,
          asOperand := "%t", text := "  %t = load i32, ptr %threshold" } ] }

/-- The function of scenario B: `scanf` into `x` at line 5 and a conditional
branch at line 5 whose comparison reads `x`. -/
def scenarioBMain : Function :=
  { name := "main", addr := "0x1",
    blocks :=
      [ ⟨[scanfIntoX, loadX, cmpX,
          { op := .condBr 1 2, loc := some 5, ref := .val 12,
            operands :=
              [ { ref := .val 10, isPointerTy := false, isConstant := false,
                  asOperand := "%cmp", text := "  %cmp = icmp sgt i32 %0, %t" } ] }]⟩,
        ⟨[plainInst 6, { op := .br 2, loc := some 6, ref := .val 13, operands := [] }]⟩,
        ⟨[plainInst 9]⟩ ] }

/-- Scenario B of the specification. -/
def scenarioB : Module :=
  { sourceFileName := "b.c", functions := [scenarioBMain] }

/-- A function in which `x` is read by `scanf` at line 5 and never used again,
while a conditional branch on an unrelated value sits on the same line 5. -/
def scenarioCMain : Function :=
  { name := "main", addr := "0x1",
    blocks :=
      [ ⟨[scanfIntoX,
          { op := .condBr 1 2, loc := some 5, ref := .val 12, operands := [otherCond] }]⟩,
        ⟨[plainInst 6, { op := .br 2, loc := some 6, ref := .val 13, operands := [] }]⟩,
        ⟨[plainInst 9]⟩ ] }

/-- The module made of `scenarioCMain`. -/
def scenarioC : Module :=
  { sourceFileName := "c.c", functions := [scenarioCMain] }

/-- A call `scanf("%d")` at line 3: a format string and nothing to read into. -/
def scanfFormatOnly : Instruction :=
  { op := .call (some "scanf") scanfCallee, loc := some 3, ref := .val 31,
    operands := [fmtStr] }

/-- The function `getc` as the callee operand. -/
def getcCallee : Value :=
  { ref := .func "getc", isPointerTy := true, isConstant := true,
    asOperand := "@getc", text := "declare i32 @getc(...)" }

/-- A call `getc()` without argument at line 4: its only operand is the callee. -/
def getcNoArg : Instruction :=
  { op := .call (some "getc") getcCallee, loc := some 4, ref := .val 30, operands := [] }

/-- A function whose body is the call `getc()` followed by a return. -/
def getcFunction : Function :=
  { name := "main", addr := "0x1", blocks := [⟨[getcNoArg, plainInst 5]⟩] }

/-- A call at line 8 to a function called `name`, with two arguments, whose
result is the value 40. -/
def fopenCall (name : String) : Instruction :=
  { op := .call (some name)
      { ref := .func name, isPointerTy := true, isConstant := true,
        asOperand := "@fopen", text := "declare ptr @fopen(ptr, ptr)" }
    loc := some 8, ref := .val 40, operands := [fmtStr, fmtStr] }

/-- The state of the locals of `findInputVariables` on entry. -/
def InputState.empty : InputState :=
  { inputVariables := [], inputVarLines := [], filePointerInitLines := [], errs := [] }

/-- A three-way switch at line 10. -/
def switchInst : Instruction :=
  { op := .switch [1, 2, 3], loc := some 10, ref := .val 1, operands := [otherCond] }

/-- Four blocks, the first ending in `switchInst`. -/
def switchBlocks : List BasicBlock :=
  [⟨[plainInst 9, switchInst]⟩, ⟨[plainInst 11]⟩, ⟨[plainInst 12]⟩, ⟨[plainInst 13]⟩]

/-- A module whose only terminator with several successors is a three-way
switch at line 10. -/
def switchModule : Module :=
  { sourceFileName := "s.c"
    functions := [{ name := "main", addr := "0x1", blocks := switchBlocks }] }

/-- The call `scanf("%d", &x)` at line 10. -/
def scanfIntoXLine10 : Instruction :=
  { op := .call (some "scanf") scanfCallee, loc := some 10, ref := .val 8,
    operands := [fmtStr, varX] }

/-- A module without any branch: `x` is read by `scanf` at line 10. -/
def noBranchModule : Module :=
  { sourceFileName := "n.c"
    functions :=
      [ { name := "main", addr := "0x1", blocks := [⟨[scanfIntoXLine10, plainInst 11]⟩] } ] }

/-- A block whose conditional branch has the same block as both successors. -/
def sharedModule : Module :=
  { sourceFileName := "x.c"
    functions :=
      [ { name := "main", addr := "0x1",
          blocks :=
            [ ⟨[{ op := .condBr 1 1, loc := some 10, ref := .val 1, operands := [otherCond] }]⟩,
              ⟨[plainInst 11]⟩ ] } ] }

/-- A block made of a conditional branch at line `l` to the blocks 6 and 7. -/
def branchBlock (l : Nat) : BasicBlock :=
  ⟨[{ op := .condBr 6 7, loc := some l, ref := .val l, operands := [otherCond] }]⟩

/-- A module with six conditional branches, hence twelve catalogued edges. -/
def sixBranches : Module :=
  { sourceFileName := "t.c"
    functions :=
      [ { name := "main", addr := "0x1",
          blocks :=
            [ branchBlock 1, branchBlock 2, branchBlock 3, branchBlock 4, branchBlock 5,
              branchBlock 6, ⟨[plainInst 20]⟩, ⟨[plainInst 30]⟩ ] } ] }

/-- The line of the branch table for one entry of the dictionary. -/
def tableLine (e : String × BranchRecord) : String :=
  e.1 ++ ": " ++ e.2.sourceFile ++ ", " ++ to_string e.2.conditionLine ++ ", "
    ++ to_string e.2.targetLine ++ "\n"

/-- The keys of a dictionary are in strictly ascending order. -/
def keysAscending {V : Type} (d : List (String × V)) : Prop :=
  d.Pairwise (fun x y => strLt x.1.data y.1.data = true)

/-- The instruction is a direct call of the function `logPrint`. -/
def isLogPrintCall (i : Instruction) : Bool :=
  match i.op with
  | .call (some name) _ => decide (name = "logPrint")
  | _ => false

/-- Number of direct calls of `logPrint` in an instruction list. -/
def logPrintCalls : List Instruction → Nat
  | [] => 0
  | i :: rest => (if isLogPrintCall i then 1 else 0) + logPrintCalls rest

/-- A module that already calls `logPrint` once before the pass runs, and has
one conditional branch. -/
def preLoggedModule : Module :=
  { sourceFileName := "p.c"
    functions :=
      [ { name := "main", addr := "0x1",
          blocks :=
            [ ⟨[logPrintCall "start" (some 9),
                { op := .condBr 1 2, loc := some 10, ref := .val 1, operands := [otherCond] }]⟩,
              ⟨[plainInst 11]⟩, ⟨[plainInst 20]⟩ ] },
        { name := "logPrint", addr := "0x2", blocks := [] } ] }

/-- The IR of a function: its name and blocks, without the address at which
the function object happens to lie. -/
def Function.graph (F : Function) : String × List BasicBlock :=
  (F.name, F.blocks)

/-- The IR graph of a module. -/
def Module.graph (M : Module) : String × List (String × List BasicBlock) :=
  (M.sourceFileName, M.functions.map Function.graph)

/-- Scenario A with its function object at another address. -/
def scenarioAMoved : Module :=
  { sourceFileName := "a.c"
    functions :=
      [ { name := "main", addr := "0x7f00",
          blocks :=
            [ ⟨[plainInst 9, { op := .condBr 1 2, loc := some 10, ref := .val 1, operands := [] }]⟩,
              ⟨[plainInst 11, { op := .br 2, loc := some 12, ref := .val 2, operands := [] }]⟩,
              ⟨[plainInst 20]⟩ ] } ] }

/-- The value is one of those an inserted logging call has as operands: the
function `logPrint` or a string constant made for a logging call. -/
def ValueRef.isLogRef : ValueRef → Bool
  | .func name => decide (name = "logPrint")
  | .logStr _ => true
  | _ => false

/-- The values `scanInstruction` appends to `inputVariables` for one
instruction. -/
def recordedBy (I : Instruction) : List Value :=
  match I.op with
  | .call (some name) callee =>
    if name ∈ ioFunctions then
      if name = "\x01_fopen" ∨ name = "fopen" ∨ name = "_fopen" then []
      else if name = "scanf" then
        ((I.getOperands.drop 1).take (I.getNumOperands - 2)).filter (fun o => o.isPointerTy)
      else if name = "getc" ∨ name = "fclose" then
        if (match I.operands with
            | [] => callee
            | a :: _ => a).isPointerTy then
          [match I.operands with
            | [] => callee
            | a :: _ => a]
        else []
      else []
    else []
  | _ => []

/-- The function `logPrint` as an operand. -/
def logPrintFn : Value :=
  { ref := .func "logPrint", isPointerTy := true, isConstant := true,
    asOperand := "@logPrint", text := "declare void @logPrint(ptr)" }

/-- The call `scanf("%p", logPrint)` at line 3. -/
def scanfIntoLogPrint : Instruction :=
  { op := .call (some "scanf") scanfCallee, loc := some 3, ref := .val 8,
    operands := [fmtStr, logPrintFn] }

/-- A module that passes the function `logPrint` to `scanf` at line 3 and has a
conditional branch at line 4 whose successor blocks begin at lines 5 and 9. -/
def logPrintAsInput : Module :=
  { sourceFileName := "l.c"
    functions :=
      [ { name := "main", addr := "0x1",
          blocks :=
            [ ⟨[scanfIntoLogPrint,
                { op := .condBr 1 2, loc := some 4, ref := .val 12, operands := [otherCond] }]⟩,
              ⟨[plainInst 5, { op := .br 2, loc := some 6, ref := .val 13, operands := [] }]⟩,
              ⟨[plainInst 9]⟩ ] },
        { name := "logPrint", addr := "0x2", blocks := [] } ] }

/-- The string passed by an instruction that is a direct call of the declared
function `logPrint` with exactly one argument, that argument being a constant
string pointer: the contents of that string.  Any other instruction gives
`none`. -/
def logPrintArg (i : Instruction) : Option String :=
  match i.op, i.getOperands with
  | .call (some name) _, [a, callee] =>
    match a.ref with
    | .logStr s =>
      if name = "logPrint" ∧ callee.ref = .func "logPrint"
          ∧ a.isPointerTy = true ∧ a.isConstant = true
      then some s else none
    | _ => none
  | _, _ => none

/-! ## Lemmas -/

theorem digitChar_toNat (k : Nat) (h : k < 10) : (Nat.digitChar k).toNat - 48 = k := by
  interval_cases k <;> rfl

theorem foldl_toDigitsCore (fuel : Nat) : ∀ (n : Nat) (ds : List Char), n < fuel →
    (Nat.toDigitsCore 10 fuel n ds).foldl (fun acc c => 10 * acc + (c.toNat - 48)) 0
      = ds.foldl (fun acc c => 10 * acc + (c.toNat - 48)) n := by
  induction fuel with
  | zero => intro n ds h; omega
  | succ fuel ih =>
    intro n ds h
    unfold Nat.toDigitsCore
    have hd : (Nat.digitChar (n % 10)).toNat - 48 = n % 10 :=
      digitChar_toNat _ (Nat.mod_lt _ (by decide))
    by_cases h0 : n / 10 = 0
    · simp only [h0, if_true, List.foldl_cons, hd]
      have : n % 10 = n := Nat.mod_eq_of_lt (by omega)
      simp [this]
    · simp only [h0, if_false]
      rw [ih (n / 10) _ (by omega)]
      simp only [List.foldl_cons, hd]
      have : 10 * (n / 10) + n % 10 = n := Nat.div_add_mod n 10
      rw [this]

theorem decodeDigits_to_string (n : Nat) : decodeDigits (to_string n).data = n := by
  simp only [to_string, Nat.repr, Nat.toDigits, List.asString, decodeDigits]
  rw [foldl_toDigitsCore (n + 1) n [] (by omega)]
  rfl

theorem to_string_injective {a b : Nat} (h : to_string a = to_string b) : a = b := by
  have := congrArg (fun s => decodeDigits s.data) h
  simpa [decodeDigits_to_string] using this

theorem branchIDOf_injective {a b : Nat} (h : branchIDOf a = branchIDOf b) : a = b := by
  apply to_string_injective
  have := congrArg String.data h
  simp only [branchIDOf, String.data_append, List.append_assoc] at this
  have h2 := List.append_cancel_left (List.append_cancel_left this)
  exact String.ext h2

/-! ### The successor loop as a run over an edge list -/

theorem runEdges_append (fileName : String) (es1 es2 : List (Nat × Nat)) :
    ∀ st, runEdges fileName st (es1 ++ es2)
      = (runEdges fileName st es1).bind (fun st1 => runEdges fileName st1 es2) := by
  induction es1 with
  | nil => intro st; rfl
  | cons e rest ih =>
    intro st
    simp only [List.cons_append, runEdges]
    cases catalogueEdge fileName brOpcodeName e.1 st e.2 with
    | none => rfl
    | some st1 => exact ih st1

theorem catalogueEdges_eq_runEdges (fileName : String) (l : Nat) (ss : List Nat) :
    ∀ st, catalogueEdges fileName brOpcodeName l st ss
      = runEdges fileName st (ss.map (fun s => (l, s))) := by
  induction ss with
  | nil => intro st; rfl
  | cons s rest ih =>
    intro st
    simp only [catalogueEdges, List.map_cons, runEdges]
    cases catalogueEdge fileName brOpcodeName l st s with
    | none => rfl
    | some st1 => exact ih st1

theorem visitInstruction_eq_runEdges (fileName : String) (st : CatalogState)
    (i : Instruction) :
    visitInstruction fileName st i = runEdges fileName st (edgesOfInst i) := by
  obtain ⟨op, loc, ref, ops⟩ := i
  cases op <;> cases loc <;>
    simp [visitInstruction, edgesOfInst, Instruction.isCatalogued, Instruction.isBranchInst,
      Instruction.isConditional, Instruction.successors, runEdges, catalogueEdges, getLine]

theorem visitInstructions_eq_runEdges (fileName : String) (insts : List Instruction) :
    ∀ st, visitInstructions fileName st insts
      = runEdges fileName st (edgesOfInsts insts) := by
  induction insts with
  | nil => intro st; rfl
  | cons i rest ih =>
    intro st
    simp only [visitInstructions, edgesOfInsts, runEdges_append,
      visitInstruction_eq_runEdges]
    cases runEdges fileName st (edgesOfInst i) with
    | none => rfl
    | some st1 => exact ih st1

/-! ### Insertion at the first insertion point -/

theorem logPrintCall_isPHI (id : String) (loc : Option Nat) :
    (logPrintCall id loc).isPHI = false := rfl

theorem logPrintCall_edges (id : String) (loc : Option Nat) :
    edgesOfInst (logPrintCall id loc) = [] := rfl

theorem getFirstNonPHI_eq_head_bodyOf (l : List Instruction) :
    getFirstNonPHI l = (bodyOf l).head? := by
  induction l with
  | nil => rfl
  | cons i rest ih =>
    by_cases h : i.isPHI = true
    · simp [getFirstNonPHI, bodyOf, List.dropWhile, h] at ih ⊢
      exact ih
    · simp [getFirstNonPHI, bodyOf, List.dropWhile, h]

theorem phisOf_append_bodyOf (l : List Instruction) : phisOf l ++ bodyOf l = l := by
  simp [phisOf, bodyOf, List.takeWhile_append_dropWhile]

theorem getFirstNonPHI_insert (c : Instruction) (hc : c.isPHI = false) :
    ∀ (l : List Instruction) (first : Instruction), getFirstNonPHI l = some first →
      getFirstNonPHI (insertAtFirstInsertionPt c l) = some c := by
  intro l
  induction l with
  | nil => intro first h; simp [getFirstNonPHI] at h
  | cons i rest ih =>
    intro first h
    by_cases hi : i.isPHI = true
    · simp only [getFirstNonPHI, hi, if_true] at h
      simp only [insertAtFirstInsertionPt, hi, if_true, getFirstNonPHI]
      exact ih first h
    · simp [insertAtFirstInsertionPt, hi, getFirstNonPHI, hc]

theorem phisOf_insert (c : Instruction) (hc : c.isPHI = false) :
    ∀ (l : List Instruction) (first : Instruction), getFirstNonPHI l = some first →
      phisOf (insertAtFirstInsertionPt c l) = phisOf l := by
  intro l
  induction l with
  | nil => intro first h; simp [getFirstNonPHI] at h
  | cons i rest ih =>
    intro first h
    by_cases hi : i.isPHI = true
    · simp only [getFirstNonPHI, hi, if_true] at h
      simp only [insertAtFirstInsertionPt, hi, if_true, phisOf, List.takeWhile_cons]
      have := ih first h
      simp only [phisOf] at this
      rw [this]
    · simp [insertAtFirstInsertionPt, hi, phisOf, List.takeWhile_cons, hc]

theorem bodyOf_insert (c : Instruction) (hc : c.isPHI = false) :
    ∀ (l : List Instruction) (first : Instruction), getFirstNonPHI l = some first →
      bodyOf (insertAtFirstInsertionPt c l) = c :: bodyOf l := by
  intro l
  induction l with
  | nil => intro first h; simp [getFirstNonPHI] at h
  | cons i rest ih =>
    intro first h
    by_cases hi : i.isPHI = true
    · simp only [getFirstNonPHI, hi, if_true] at h
      simp only [insertAtFirstInsertionPt, hi, if_true, bodyOf, List.dropWhile_cons]
      have := ih first h
      simp only [bodyOf] at this
      rw [this]
    · simp [insertAtFirstInsertionPt, hi, bodyOf, List.dropWhile_cons, hc]

theorem edgesOfInsts_append (l1 l2 : List Instruction) :
    edgesOfInsts (l1 ++ l2) = edgesOfInsts l1 ++ edgesOfInsts l2 := by
  induction l1 with
  | nil => rfl
  | cons i rest ih => simp [edgesOfInsts, ih]

theorem edgesOfInsts_insert (c : Instruction) (hc : edgesOfInst c = []) :
    ∀ (l : List Instruction) (first : Instruction), getFirstNonPHI l = some first →
      edgesOfInsts (insertAtFirstInsertionPt c l) = edgesOfInsts l := by
  intro l
  induction l with
  | nil => intro first h; simp [getFirstNonPHI] at h
  | cons i rest ih =>
    intro first h
    by_cases hi : i.isPHI = true
    · simp only [getFirstNonPHI, hi, if_true] at h
      simp only [insertAtFirstInsertionPt, hi, if_true, edgesOfInsts]
      rw [ih first h]
    · simp [insertAtFirstInsertionPt, hi, edgesOfInsts, hc]

theorem headLoc_insert (id : String) (l : List Instruction) (first : Instruction)
    (h : getFirstNonPHI l = some first) :
    headLoc (insertAtFirstInsertionPt (logPrintCall id first.loc) l) = headLoc l := by
  unfold headLoc
  rw [getFirstNonPHI_insert _ (logPrintCall_isPHI _ _) l first h, h]
  rfl

theorem blockSig_insert (id : String) (blk : BasicBlock) (first : Instruction)
    (h : getFirstNonPHI blk.insts = some first) :
    blockSig ⟨insertAtFirstInsertionPt (logPrintCall id first.loc) blk.insts⟩
      = blockSig blk := by
  unfold blockSig firstNonPHILoc
  simp only []
  rw [edgesOfInsts_insert _ (logPrintCall_edges _ _) blk.insts first h,
    getFirstNonPHI_insert _ (logPrintCall_isPHI _ _) blk.insts first h, h]
  rfl

/-! ### What depends only on the block signatures -/

theorem getElem?_sig_eq {bs1 bs2 : List BasicBlock}
    (h : bs1.map blockSig = bs2.map blockSig) (b : Nat) :
    (bs1[b]?).map blockSig = (bs2[b]?).map blockSig := by
  have := congrArg (fun l => l[b]?) h
  simpa [List.getElem?_map] using this

theorem edgesAt_congr {bs1 bs2 : List BasicBlock}
    (h : bs1.map blockSig = bs2.map blockSig) (b : Nat) :
    edgesAt bs1 b = edgesAt bs2 b := by
  have := getElem?_sig_eq h b
  unfold edgesAt
  cases h1 : bs1[b]? <;> cases h2 : bs2[b]? <;> simp_all [blockSig]

theorem targetOK_congr {bs1 bs2 : List BasicBlock}
    (h : bs1.map blockSig = bs2.map blockSig) (s : Nat) :
    targetOK bs1 s = targetOK bs2 s := by
  have := getElem?_sig_eq h s
  unfold targetOK
  cases h1 : bs1[s]? <;> cases h2 : bs2[s]? <;> simp_all [blockSig]

theorem targetLineOf_congr {bs1 bs2 : List BasicBlock}
    (h : bs1.map blockSig = bs2.map blockSig) (s : Nat) :
    targetLineOf bs1 s = targetLineOf bs2 s := by
  have := getElem?_sig_eq h s
  unfold targetLineOf
  cases h1 : bs1[s]? <;> cases h2 : bs2[s]? <;> simp_all [blockSig]

theorem recordsFrom_congr (fileName : String) {bs1 bs2 : List BasicBlock}
    (h : bs1.map blockSig = bs2.map blockSig) (es : List (Nat × Nat)) :
    ∀ n, recordsFrom fileName bs1 n es = recordsFrom fileName bs2 n es := by
  induction es with
  | nil => intro n; rfl
  | cons e rest ih =>
    intro n
    simp [recordsFrom, ih, targetLineOf_congr h]

/-! ### Closed form of the successor loop -/

theorem getElem?_instrumentedBlocks (n : Nat) (es : List (Nat × Nat)) :
    ∀ (l : List BasicBlock) (k i : Nat),
      (instrumentedBlocks n es k l)[i]? = (l[i]?).map (instrumentedBlock n es (k + i)) := by
  intro l
  induction l with
  | nil => intro k i; simp [instrumentedBlocks]
  | cons blk rest ih =>
    intro k i
    cases i with
    | zero => simp [instrumentedBlocks]
    | succ i =>
      simp only [instrumentedBlocks, List.getElem?_cons_succ]
      rw [ih (k + 1) i]
      have : k + 1 + i = k + (i + 1) := by omega
      rw [this]

theorem length_instrumentedBlocks (n : Nat) (es : List (Nat × Nat)) :
    ∀ (l : List BasicBlock) (k : Nat), (instrumentedBlocks n es k l).length = l.length := by
  intro l
  induction l with
  | nil => intro k; rfl
  | cons blk rest ih => intro k; simp [instrumentedBlocks, ih]

theorem instrumentedBlock_nil (n b : Nat) (blk : BasicBlock) :
    instrumentedBlock n [] b blk = blk := by
  simp [instrumentedBlock, callsInto, phisOf_append_bodyOf]

theorem instrumentedBlocks_nil (n : Nat) :
    ∀ (l : List BasicBlock) (k : Nat), instrumentedBlocks n [] k l = l := by
  intro l
  induction l with
  | nil => intro k; rfl
  | cons blk rest ih => intro k; simp [instrumentedBlocks, ih, instrumentedBlock_nil]

theorem instrumentedBlock_step_eq (n : Nat) (e : Nat × Nat) (rest : List (Nat × Nat))
    (blk : BasicBlock) (first : Instruction) (h : getFirstNonPHI blk.insts = some first) :
    instrumentedBlock (n + 1) rest e.2
        ⟨insertAtFirstInsertionPt (logPrintCall (branchIDOf n) first.loc) blk.insts⟩
      = instrumentedBlock n (e :: rest) e.2 blk := by
  have hl : headLoc blk.insts = first.loc := by simp [headLoc, h]
  simp only [instrumentedBlock, callsInto, if_true,
    phisOf_insert _ (logPrintCall_isPHI _ _) blk.insts first h,
    bodyOf_insert _ (logPrintCall_isPHI _ _) blk.insts first h,
    headLoc_insert _ blk.insts first h, hl]
  simp

theorem instrumentedBlock_step_ne (n : Nat) (e : Nat × Nat) (rest : List (Nat × Nat))
    (b : Nat) (blk : BasicBlock) (h : e.2 ≠ b) :
    instrumentedBlock (n + 1) rest b blk = instrumentedBlock n (e :: rest) b blk := by
  simp [instrumentedBlock, callsInto, h]

theorem instrumentedBlocks_step (n : Nat) (e : Nat × Nat) (rest : List (Nat × Nat))
    (blocks : List BasicBlock) (blk : BasicBlock) (first : Instruction)
    (hb : blocks[e.2]? = some blk) (h : getFirstNonPHI blk.insts = some first) :
    instrumentedBlocks (n + 1) rest 0
        (blocks.set e.2
          ⟨insertAtFirstInsertionPt (logPrintCall (branchIDOf n) first.loc) blk.insts⟩)
      = instrumentedBlocks n (e :: rest) 0 blocks := by
  apply List.ext_getElem?
  intro i
  rw [getElem?_instrumentedBlocks, getElem?_instrumentedBlocks]
  simp only [Nat.zero_add]
  by_cases hi : e.2 = i
  · subst hi
    have hlt : e.2 < blocks.length := by
      rcases Nat.lt_or_ge e.2 blocks.length with h1 | h1
      · exact h1
      · rw [List.getElem?_eq_none h1] at hb; cases hb
    rw [List.getElem?_set_self hlt, hb]
    simp only [Option.map_some']
    rw [instrumentedBlock_step_eq n e rest blk first h]
  · rw [List.getElem?_set_ne hi]
    cases blocks[i]? with
    | none => rfl
    | some b0 =>
      simp only [Option.map_some']
      rw [instrumentedBlock_step_ne n e rest i b0 hi]

theorem catalogueEdge_eq (fileName : String) (l s : Nat) (st : CatalogState)
    (blk : BasicBlock) (first : Instruction)
    (hb : st.blocks[s]? = some blk) (h : getFirstNonPHI blk.insts = some first) :
    catalogueEdge fileName brOpcodeName l st s = some
      { blocks := st.blocks.set s
          ⟨insertAtFirstInsertionPt (logPrintCall (branchIDOf st.branchNumber) first.loc)
            blk.insts⟩
        branchDictionary :=
          mapInsert (branchIDOf st.branchNumber) (fileName, l, getLine first.loc)
            st.branchDictionary
        branchNumber := st.branchNumber + 1
        flag := true } := by
  simp [catalogueEdge, hb, h, branchIDOf]

theorem targetOK_iff (blocks : List BasicBlock) (s : Nat) :
    targetOK blocks s = true ↔
      ∃ blk first, blocks[s]? = some blk ∧ getFirstNonPHI blk.insts = some first := by
  unfold targetOK
  cases hb : blocks[s]? with
  | none => simp
  | some blk =>
    cases hf : getFirstNonPHI blk.insts with
    | none => simp [firstNonPHILoc, hf]
    | some first => simp [firstNonPHILoc, hf]

theorem sig_set_insert (blocks : List BasicBlock) (s : Nat) (id : String)
    (blk : BasicBlock) (first : Instruction)
    (hb : blocks[s]? = some blk) (h : getFirstNonPHI blk.insts = some first) :
    (blocks.set s ⟨insertAtFirstInsertionPt (logPrintCall id first.loc) blk.insts⟩).map
        blockSig = blocks.map blockSig := by
  rw [List.map_set, blockSig_insert id blk first h]
  apply List.ext_getElem?
  intro i
  by_cases hi : s = i
  · subst hi
    have hlt : s < blocks.length := by
      rcases Nat.lt_or_ge s blocks.length with h1 | h1
      · exact h1
      · rw [List.getElem?_eq_none h1] at hb; cases hb
    rw [List.getElem?_set_self (by simpa using hlt)]
    simp [List.getElem?_map, hb]
  · rw [List.getElem?_set_ne hi]

theorem runEdges_spec (fileName : String) : ∀ (es : List (Nat × Nat)) (st : CatalogState),
    es.all (fun e => targetOK st.blocks e.2) = true →
    runEdges fileName st es = some
      { blocks := instrumentedBlocks st.branchNumber es 0 st.blocks
        branchDictionary :=
          insertAll st.branchDictionary
            (recordsFrom fileName st.blocks st.branchNumber es)
        branchNumber := st.branchNumber + es.length
        flag := st.flag || !es.isEmpty } := by
  intro es
  induction es with
  | nil =>
    intro st _
    simp [runEdges, instrumentedBlocks_nil, recordsFrom, insertAll]
  | cons e rest ih =>
    intro st hok
    simp only [List.all_cons, Bool.and_eq_true] at hok
    obtain ⟨blk, first, hb, hf⟩ := (targetOK_iff _ _).1 hok.1
    have hsig := sig_set_insert st.blocks e.2 (branchIDOf st.branchNumber) blk first hb hf
    simp only [runEdges, catalogueEdge_eq fileName e.1 e.2 st blk first hb hf]
    rw [ih]
    · simp only [instrumentedBlocks_step st.branchNumber e rest st.blocks blk first hb hf,
        recordsFrom_congr fileName hsig, recordsFrom, insertAll]
      have htl : targetLineOf st.blocks e.2 = getLine first.loc := by
        simp [targetLineOf, hb, firstNonPHILoc, hf]
      simp [htl, Nat.add_assoc, Nat.add_comm 1]
    · simp only [List.all_eq_true] at hok ⊢
      intro x hx
      rw [targetOK_congr hsig]
      exact hok.2 x hx

theorem runEdges_none (fileName : String) : ∀ (es : List (Nat × Nat)) (st : CatalogState),
    es.all (fun e => targetOK st.blocks e.2) = false → runEdges fileName st es = none := by
  intro es
  induction es with
  | nil => intro st h; simp at h
  | cons e rest ih =>
    intro st hok
    by_cases h1 : targetOK st.blocks e.2 = true
    · obtain ⟨blk, first, hb, hf⟩ := (targetOK_iff _ _).1 h1
      have hsig := sig_set_insert st.blocks e.2 (branchIDOf st.branchNumber) blk first hb hf
      simp only [runEdges, catalogueEdge_eq fileName e.1 e.2 st blk first hb hf]
      apply ih
      simp only [List.all_cons, h1, Bool.true_and] at hok
      rw [← hok]
      congr 1
      funext x
      exact targetOK_congr hsig x.2
    · have h2 : ¬ ∃ blk first, st.blocks[e.2]? = some blk ∧
          getFirstNonPHI blk.insts = some first := fun h => h1 ((targetOK_iff _ _).2 h)
      have hnone : catalogueEdge fileName brOpcodeName e.1 st e.2 = none := by
        unfold catalogueEdge
        cases hb : st.blocks[e.2]? with
        | none => rfl
        | some blk =>
          cases hf : getFirstNonPHI blk.insts with
          | none => simp [hf]
          | some first => exact absurd ⟨blk, first, hb, hf⟩ h2
      simp only [runEdges, hnone]

/-! ### The block loop and the function loop -/

theorem catalogueEdge_some_inv (fileName : String) (l s : Nat) (st st1 : CatalogState)
    (h : catalogueEdge fileName brOpcodeName l st s = some st1) :
    ∃ blk first, st.blocks[s]? = some blk ∧ getFirstNonPHI blk.insts = some first := by
  unfold catalogueEdge at h
  cases hb : st.blocks[s]? with
  | none => simp [hb] at h
  | some blk =>
    cases hf : getFirstNonPHI blk.insts with
    | none => simp [hb, hf] at h
    | some first => exact ⟨blk, first, rfl, hf⟩

theorem runEdges_sig (fileName : String) : ∀ (es : List (Nat × Nat)) (st st1 : CatalogState),
    runEdges fileName st es = some st1 →
    st1.blocks.map blockSig = st.blocks.map blockSig := by
  intro es
  induction es with
  | nil => intro st st1 h; simp [runEdges] at h; rw [h]
  | cons e rest ih =>
    intro st st1 h
    simp only [runEdges] at h
    cases hc : catalogueEdge fileName brOpcodeName e.1 st e.2 with
    | none => simp [hc] at h
    | some st2 =>
      obtain ⟨blk, first, hb, hf⟩ := catalogueEdge_some_inv _ _ _ _ _ hc
      rw [hc] at h
      rw [catalogueEdge_eq fileName e.1 e.2 st blk first hb hf] at hc
      have h2 := ih st2 st1 h
      rw [h2, ← Option.some.inj hc]
      exact sig_set_insert st.blocks e.2 _ blk first hb hf

theorem visitBlock_eq_runEdges (fileName : String) (st : CatalogState) (b : Nat) :
    visitBlock fileName st b = runEdges fileName st (edgesAt st.blocks b) := by
  unfold visitBlock edgesAt
  cases st.blocks[b]? with
  | none => rfl
  | some blk => exact visitInstructions_eq_runEdges fileName blk.insts st

theorem flatMap_edgesAt_congr {bs1 bs2 : List BasicBlock}
    (h : bs1.map blockSig = bs2.map blockSig) (idx : List Nat) :
    idx.flatMap (edgesAt bs1) = idx.flatMap (edgesAt bs2) := by
  have : edgesAt bs1 = edgesAt bs2 := funext (edgesAt_congr h)
  rw [this]

theorem visitBlocks_eq_runEdges (fileName : String) : ∀ (idx : List Nat) (st : CatalogState),
    visitBlocks fileName st idx
      = runEdges fileName st (idx.flatMap (edgesAt st.blocks)) := by
  intro idx
  induction idx with
  | nil => intro st; rfl
  | cons b rest ih =>
    intro st
    simp only [visitBlocks, List.flatMap_cons, runEdges_append, visitBlock_eq_runEdges]
    cases h : runEdges fileName st (edgesAt st.blocks b) with
    | none => rfl
    | some st1 =>
      simp only [Option.some_bind]
      rw [ih st1, flatMap_edgesAt_congr (runEdges_sig fileName _ _ _ h)]

theorem flatMap_range_edgesAt : ∀ (l pre : List BasicBlock),
    (List.range' pre.length l.length).flatMap (edgesAt (pre ++ l))
      = edgesOfInsts (instructions l) := by
  intro l
  induction l with
  | nil => intro pre; rfl
  | cons blk rest ih =>
    intro pre
    simp only [List.length_cons, List.range'_succ, List.flatMap_cons, instructions,
      edgesOfInsts_append]
    have h0 : (pre ++ blk :: rest)[pre.length]? = some blk := by
      rw [List.getElem?_append_right (Nat.le_refl _)]
      simp
    have h1 : edgesAt (pre ++ blk :: rest) pre.length = edgesOfInsts blk.insts := by
      simp only [edgesAt, h0]
    have h2 := ih (pre ++ [blk])
    simp only [List.length_append, List.length_singleton, List.append_assoc,
      List.singleton_append] at h2
    rw [h1, h2]

theorem visitBlocks_range (fileName : String) (st : CatalogState) :
    visitBlocks fileName st (List.range st.blocks.length)
      = runEdges fileName st (edgesOfInsts (instructions st.blocks)) := by
  rw [visitBlocks_eq_runEdges, List.range_eq_range']
  have := flatMap_range_edgesAt st.blocks []
  simp only [List.length_nil, List.nil_append] at this
  rw [this]

theorem insertAll_append {V : Type} (r1 r2 : List (String × V)) :
    ∀ d, insertAll d (r1 ++ r2) = insertAll (insertAll d r1) r2 := by
  induction r1 with
  | nil => intro d; rfl
  | cons kv rest ih => intro d; simp [insertAll, ih]

theorem length_recordsFrom (fileName : String) (blocks : List BasicBlock)
    (es : List (Nat × Nat)) : ∀ n, (recordsFrom fileName blocks n es).length = es.length := by
  induction es with
  | nil => intro n; rfl
  | cons e rest ih => intro n; simp [recordsFrom, ih]

theorem visitFunction_spec (fileName : String) (sw : SweepState) (F : Function)
    (hwf : F.wellFormed = true) :
    visitFunction fileName sw F = some
      { done := sw.done ++
          [{ F with blocks := instrumentedBlocks sw.branchNumber (functionEdges F) 0 F.blocks }]
        branchDictionary := insertAll sw.branchDictionary
          (recordsFrom fileName F.blocks sw.branchNumber (functionEdges F))
        branchNumber := sw.branchNumber + (functionEdges F).length
        errs := sw.errs ++
          (if (functionEdges F).isEmpty then [] else [F.name ++ ": func_" ++ F.addr ++ "\n"]) } := by
  unfold visitFunction
  simp only []
  have h := visitBlocks_range fileName
    { blocks := F.blocks, branchDictionary := sw.branchDictionary,
      branchNumber := sw.branchNumber, flag := false }
  simp only [] at h
  have hwf2 : (edgesOfInsts (instructions F.blocks)).all
      (fun e => targetOK F.blocks e.2) = true := hwf
  rw [h, runEdges_spec fileName _ _ hwf2]
  simp only [functionEdges]
  by_cases hE : (edgesOfInsts (instructions F.blocks)).isEmpty = true <;> simp [hE]

theorem visitFunction_none (fileName : String) (sw : SweepState) (F : Function)
    (hwf : F.wellFormed = false) : visitFunction fileName sw F = none := by
  unfold visitFunction
  simp only []
  have h := visitBlocks_range fileName
    { blocks := F.blocks, branchDictionary := sw.branchDictionary,
      branchNumber := sw.branchNumber, flag := false }
  simp only [] at h
  have hwf2 : (edgesOfInsts (instructions F.blocks)).all
      (fun e => targetOK F.blocks e.2) = false := hwf
  rw [h, runEdges_none fileName _ _ hwf2]

theorem visitFunctions_spec (fileName : String) : ∀ (fs : List Function) (sw : SweepState),
    fs.all (fun F => F.wellFormed) = true →
    visitFunctions fileName sw fs = some
      { done := sw.done ++ instrumentedFunctions sw.branchNumber fs
        branchDictionary := insertAll sw.branchDictionary
          (moduleRecords fileName sw.branchNumber fs)
        branchNumber := sw.branchNumber + (moduleRecords fileName sw.branchNumber fs).length
        errs := sw.errs ++ functionDiagnostics fs } := by
  intro fs
  induction fs with
  | nil => intro sw _; simp [visitFunctions, instrumentedFunctions, moduleRecords, insertAll,
      functionDiagnostics]
  | cons F rest ih =>
    intro sw hwf
    simp only [List.all_cons, Bool.and_eq_true] at hwf
    simp only [visitFunctions, visitFunction_spec fileName sw F hwf.1]
    rw [ih _ hwf.2]
    simp [instrumentedFunctions, moduleRecords, insertAll_append, functionDiagnostics,
      length_recordsFrom, functionEdges, Nat.add_assoc]

theorem visitFunctions_none (fileName : String) : ∀ (fs : List Function) (sw : SweepState),
    fs.all (fun F => F.wellFormed) = false → visitFunctions fileName sw fs = none := by
  intro fs
  induction fs with
  | nil => intro sw h; simp at h
  | cons F rest ih =>
    intro sw hwf
    by_cases h1 : F.wellFormed = true
    · simp only [visitFunctions, visitFunction_spec fileName sw F h1]
      apply ih
      simpa [h1] using hwf
    · simp only [Bool.not_eq_true] at h1
      simp only [visitFunctions, visitFunction_none fileName sw F h1]

/-! ### The dictionary -/

theorem mem_mapInsert {V : Type} (k : String) (v : V) (x : String × V) :
    ∀ d : List (String × V), x ∈ mapInsert k v d → x = (k, v) ∨ x ∈ d := by
  intro d
  induction d with
  | nil => intro h; simp [mapInsert] at h; exact Or.inl h
  | cons kv rest ih =>
    obtain ⟨k1, v1⟩ := kv
    intro h
    unfold mapInsert at h
    by_cases h1 : strLt k.data k1.data = true
    · rw [if_pos h1] at h
      simp only [List.mem_cons] at h
      rcases h with h | h | h
      · exact Or.inl h
      · exact Or.inr (by simp [h])
      · exact Or.inr (by simp [h])
    · by_cases h2 : k = k1
      · rw [if_neg h1, if_pos h2] at h
        simp only [List.mem_cons] at h
        rcases h with h | h
        · exact Or.inl h
        · exact Or.inr (by simp [h])
      · rw [if_neg h1, if_neg h2] at h
        simp only [List.mem_cons] at h
        rcases h with h | h
        · exact Or.inr (by simp [h])
        · rcases ih h with h3 | h3
          · exact Or.inl h3
          · exact Or.inr (by simp [h3])

theorem mapInsert_perm {V : Type} (k : String) (v : V) :
    ∀ d : List (String × V), k ∉ d.map Prod.fst → List.Perm (mapInsert k v d) ((k, v) :: d) := by
  intro d
  induction d with
  | nil => intro _; exact List.Perm.refl _
  | cons kv rest ih =>
    obtain ⟨k1, v1⟩ := kv
    intro hk
    simp only [List.map_cons, List.mem_cons, not_or] at hk
    unfold mapInsert
    by_cases h1 : strLt k.data k1.data = true
    · simp only [h1, if_true]
      exact List.Perm.refl _
    · simp only [h1, hk.1, if_false]
      exact (List.Perm.cons _ (ih hk.2)).trans (List.Perm.swap _ _ _)

theorem insertAll_perm {V : Type} : ∀ (recs d : List (String × V)),
    (d.map Prod.fst ++ recs.map Prod.fst).Nodup → List.Perm (insertAll d recs) (d ++ recs) := by
  intro recs
  induction recs with
  | nil => intro d _; simp [insertAll]
  | cons kv rest ih =>
    intro d hnd
    have hk : kv.1 ∉ d.map Prod.fst := by
      intro hmem
      rw [List.nodup_append] at hnd
      exact hnd.2.2 hmem (by simp)
    have hp := mapInsert_perm kv.1 kv.2 d hk
    have hnd2 : ((mapInsert kv.1 kv.2 d).map Prod.fst ++ rest.map Prod.fst).Nodup := by
      have hp2 : List.Perm ((mapInsert kv.1 kv.2 d).map Prod.fst ++ rest.map Prod.fst)
          (d.map Prod.fst ++ (kv :: rest).map Prod.fst) := by
        refine ((hp.map Prod.fst).append_right _).trans ?_
        simp only [List.map_cons, List.cons_append]
        exact List.perm_middle.symm
      exact hp2.nodup_iff.2 hnd
    simp only [insertAll]
    refine (ih _ hnd2).trans ?_
    refine (hp.append_right _).trans ?_
    simp only [List.cons_append]
    exact List.perm_middle.symm

theorem recordsFrom_keys (fileName : String) (blocks : List BasicBlock)
    (es : List (Nat × Nat)) : ∀ n,
    (recordsFrom fileName blocks n es).map Prod.fst
      = (List.range' n es.length).map branchIDOf := by
  induction es with
  | nil => intro n; rfl
  | cons e rest ih => intro n; simp [recordsFrom, ih, List.range'_succ]

theorem moduleRecords_keys (fileName : String) : ∀ (fs : List Function) (n : Nat),
    (moduleRecords fileName n fs).map Prod.fst
      = (List.range' n (moduleRecords fileName n fs).length).map branchIDOf := by
  intro fs
  induction fs with
  | nil => intro n; rfl
  | cons F rest ih =>
    intro n
    simp only [moduleRecords, List.map_append, List.length_append, recordsFrom_keys,
      length_recordsFrom]
    rw [ih, ← List.map_append, List.range'_append_1, Nat.add_comm]

theorem branchIDOf_inj : Function.Injective branchIDOf :=
  fun _ _ h => branchIDOf_injective h

theorem moduleRecords_keys_nodup (fileName : String) (fs : List Function) (n : Nat) :
    ((moduleRecords fileName n fs).map Prod.fst).Nodup := by
  rw [moduleRecords_keys]
  exact (List.nodup_range' n _).map branchIDOf_inj

theorem length_edgesOfInsts (l : List Instruction) :
    (edgesOfInsts l).length = successorSum l := by
  induction l with
  | nil => rfl
  | cons i rest ih =>
    simp only [edgesOfInsts, List.length_append, successorSum, ih, edgesOfInst,
      Instruction.getNumSuccessors]
    by_cases h : i.isCatalogued = true <;> simp [h]

theorem successorSum_append (l1 l2 : List Instruction) :
    successorSum (l1 ++ l2) = successorSum l1 + successorSum l2 := by
  induction l1 with
  | nil => simp [successorSum]
  | cons i rest ih => simp [successorSum, ih, Nat.add_assoc]

theorem length_moduleRecords (fileName : String) : ∀ (fs : List Function) (n : Nat),
    (moduleRecords fileName n fs).length = successorSum (moduleInstructions fs) := by
  intro fs
  induction fs with
  | nil => intro n; rfl
  | cons F rest ih =>
    intro n
    simp [moduleRecords, moduleInstructions, successorSum_append, length_recordsFrom,
      length_edgesOfInsts, ih]

/-! ### The whole of sweep 1 -/

theorem moduleRecords_append (fileName : String) (fs2 : List Function) :
    ∀ (fs1 : List Function) (n : Nat),
    moduleRecords fileName n (fs1 ++ fs2)
      = moduleRecords fileName n fs1
        ++ moduleRecords fileName (n + (moduleRecords fileName n fs1).length) fs2 := by
  intro fs1
  induction fs1 with
  | nil => intro n; simp [moduleRecords]
  | cons F rest ih =>
    intro n
    simp [moduleRecords, ih, length_recordsFrom, Nat.add_assoc]

theorem functionDiagnostics_append (fs1 fs2 : List Function) :
    functionDiagnostics (fs1 ++ fs2) = functionDiagnostics fs1 ++ functionDiagnostics fs2 := by
  induction fs1 with
  | nil => rfl
  | cons F rest ih => simp [functionDiagnostics, ih]

theorem moduleRecords_traversed (M : Module) (n : Nat) :
    moduleRecords M.sourceFileName n (traversedFunctions M)
      = moduleRecords M.sourceFileName n M.functions := by
  unfold traversedFunctions
  cases hfs : M.functions with
  | nil => rfl
  | cons F rest =>
    simp only [getOrInsertLogPrint]
    split
    · rfl
    · rw [moduleRecords_append]
      simp [moduleRecords, instructions, edgesOfInsts, recordsFrom]

theorem functionDiagnostics_traversed (M : Module) :
    functionDiagnostics (traversedFunctions M) = functionDiagnostics M.functions := by
  unfold traversedFunctions
  cases hfs : M.functions with
  | nil => rfl
  | cons F rest =>
    simp only [getOrInsertLogPrint]
    split
    · rfl
    · rw [functionDiagnostics_append]
      simp [functionDiagnostics, functionEdges, instructions, edgesOfInsts]

theorem wellFormed_traversed (M : Module) :
    (traversedFunctions M).all (fun F => F.wellFormed) = M.wellFormed := by
  unfold traversedFunctions Module.wellFormed
  cases hfs : M.functions with
  | nil => rfl
  | cons F rest =>
    simp only [getOrInsertLogPrint]
    split
    · rfl
    · simp [Function.wellFormed, instructions, edgesOfInsts]

theorem catalogue_spec (M : Module) (hwf : M.wellFormed = true) :
    catalogue M = some
      { done := instrumentedFunctions 0 (traversedFunctions M)
        branchDictionary := insertAll [] (moduleRecords M.sourceFileName 0 M.functions)
        branchNumber := (moduleRecords M.sourceFileName 0 M.functions).length
        errs := functionDiagnostics M.functions } := by
  have h := visitFunctions_spec M.sourceFileName (traversedFunctions M)
    { done := [], branchDictionary := [], branchNumber := 0, errs := [] }
    (by rw [wellFormed_traversed]; exact hwf)
  simp only [moduleRecords_traversed, functionDiagnostics_traversed, List.nil_append,
    Nat.zero_add] at h
  exact h

theorem catalogue_none (M : Module) (hwf : M.wellFormed = false) : catalogue M = none :=
  visitFunctions_none M.sourceFileName (traversedFunctions M) _
    (by rw [wellFormed_traversed]; exact hwf)

theorem catalogue_dict_perm (M : Module) :
    List.Perm (insertAll [] (moduleRecords M.sourceFileName 0 M.functions))
      (moduleRecords M.sourceFileName 0 M.functions) := by
  have := insertAll_perm (moduleRecords M.sourceFileName 0 M.functions) []
    (by simpa using moduleRecords_keys_nodup M.sourceFileName M.functions 0)
  simpa using this

theorem run_of_catalogue (P : SkeletonPass) (M : Module) (sw : SweepState)
    (h : catalogue M = some sw) :
    ∃ r, run P M = some r ∧ r.branchDictionary = sw.branchDictionary
      ∧ r.branchNumber = sw.branchNumber
      ∧ r.module.functions = sw.done
      ∧ r.module.sourceFileName = M.sourceFileName
      ∧ r.pass.keyPointLines = collectKeyPointLines P.keyPointLines sw.branchDictionary
      ∧ r.reports = sweepInputs r.pass.keyPointLines (moduleInstructions sw.done) sw.done := by
  simp only [run, h]
  exact ⟨_, rfl, rfl, rfl, rfl, rfl, rfl, rfl⟩

theorem run_none (P : SkeletonPass) (M : Module) (hwf : M.wellFormed = false) :
    run P M = none := by
  simp only [run, catalogue_none M hwf]

theorem recordsFrom_append (fileName : String) (blocks : List BasicBlock)
    (es2 : List (Nat × Nat)) : ∀ (es1 : List (Nat × Nat)) (n : Nat),
    recordsFrom fileName blocks n (es1 ++ es2)
      = recordsFrom fileName blocks n es1
        ++ recordsFrom fileName blocks (n + es1.length) es2 := by
  intro es1
  induction es1 with
  | nil => intro n; simp [recordsFrom]
  | cons e rest ih =>
    intro n
    simp [recordsFrom, ih, Nat.add_assoc, Nat.add_comm 1]

theorem moduleRecords_split (fileName : String) (Fpre Fpost : List Function) (F : Function)
    (ipre ipost : List Instruction) (i : Instruction)
    (hi : instructions F.blocks = ipre ++ i :: ipost) :
    ∃ A B, moduleRecords fileName 0 (Fpre ++ F :: Fpost)
        = A ++ recordsFrom fileName F.blocks A.length (edgesOfInst i) ++ B
      ∧ A.length = successorSum (moduleInstructions Fpre) + successorSum ipre := by
  refine ⟨moduleRecords fileName 0 Fpre
      ++ recordsFrom fileName F.blocks (moduleRecords fileName 0 Fpre).length
          (edgesOfInsts ipre),
    recordsFrom fileName F.blocks
        ((moduleRecords fileName 0 Fpre).length + (edgesOfInsts ipre).length
          + (edgesOfInst i).length) (edgesOfInsts ipost)
      ++ moduleRecords fileName
          ((moduleRecords fileName 0 Fpre).length
            + (edgesOfInsts (instructions F.blocks)).length) Fpost, ?_, ?_⟩
  · rw [moduleRecords_append]
    simp only [moduleRecords, Nat.zero_add, hi, edgesOfInsts_append, edgesOfInsts,
      recordsFrom_append, List.length_append, length_recordsFrom, List.append_assoc,
      Nat.add_assoc]
  · simp [length_recordsFrom, length_moduleRecords, length_edgesOfInsts]

theorem mem_setInsert (a x : Nat) : ∀ s : List Nat, a ∈ setInsert x s ↔ a = x ∨ a ∈ s := by
  intro s
  induction s with
  | nil => simp [setInsert]
  | cons y rest ih =>
    unfold setInsert
    by_cases h1 : x < y
    · rw [if_pos h1]; simp
    · by_cases h2 : x = y
      · rw [if_neg h1, if_pos h2]
        subst h2
        simp
      · rw [if_neg h1, if_neg h2]
        simp only [List.mem_cons, ih]
        tauto

theorem mem_collectKeyPointLines (a : Nat) : ∀ (d : List (String × BranchRecord))
    (kp : List Nat),
    a ∈ collectKeyPointLines kp d ↔ a ∈ kp ∨ ∃ e ∈ d, e.2.conditionLine = a := by
  intro d
  induction d with
  | nil => intro kp; simp [collectKeyPointLines]
  | cons e rest ih =>
    intro kp
    obtain ⟨k, r⟩ := e
    simp only [collectKeyPointLines, ih, mem_setInsert, List.mem_cons, exists_eq_or_imp]
    constructor
    · rintro ((h | h) | h)
      · exact Or.inr (Or.inl h.symm)
      · exact Or.inl h
      · exact Or.inr (Or.inr h)
    · rintro (h | h | h)
      · exact Or.inl (Or.inr h)
      · exact Or.inl (Or.inl h.symm)
      · exact Or.inr h

theorem branchIDOf_eq (k : Nat) : branchIDOf k = "br_" ++ to_string k := rfl

theorem eq_of_nodup_keys {V : Type} : ∀ (d : List (String × V)) (k : String) (a b : V),
    (d.map Prod.fst).Nodup → (k, a) ∈ d → (k, b) ∈ d → a = b := by
  intro d
  induction d with
  | nil => intro k a b _ h; cases h
  | cons kv rest ih =>
    intro k a b hnd ha hb
    simp only [List.map_cons, List.nodup_cons, List.mem_map, not_exists, not_and] at hnd
    simp only [List.mem_cons] at ha hb
    rcases ha with ha | ha <;> rcases hb with hb | hb
    · rw [← ha] at hb
      exact (Prod.mk.inj hb).2.symm
    · exact absurd (by rw [← ha]) (hnd.1 (k, b) hb)
    · exact absurd (by rw [← hb]) (hnd.1 (k, a) ha)
    · exact ih k a b hnd.2 ha hb

theorem dict_keys_nodup (M : Module) :
    ((insertAll [] (moduleRecords M.sourceFileName 0 M.functions)).map Prod.fst).Nodup :=
  ((catalogue_dict_perm M).map Prod.fst).nodup_iff.2
    (moduleRecords_keys_nodup M.sourceFileName M.functions 0)

/-! ## Properties of the pass -/

/-- C1: after the cataloguing sweep of `run` (empty dictionary, counter 0 at the
start) the number of entries of `branchDictionary` is the sum, over the
conditional branch instructions of the module that carry a source location, of
their successor counts: no record is lost by a key collision. -/
theorem C1_dictionary_size (P : SkeletonPass) (M : Module) (hwf : M.wellFormed = true) :
    ∃ r, run P M = some r ∧
      r.branchDictionary.length = successorSum (moduleInstructions M.functions) := by
  obtain ⟨r, hr, hd, _⟩ := run_of_catalogue P M _ (catalogue_spec M hwf)
  refine ⟨r, hr, ?_⟩
  rw [hd, (catalogue_dict_perm M).length_eq, length_moduleRecords]

theorem C1_dictionary_size_witness :
    scenarioA.wellFormed = true ∧
    ∃ r, run SkeletonPass.fresh scenarioA = some r ∧
      r.branchDictionary.length = successorSum (moduleInstructions scenarioA.functions) :=
  ⟨rfl, C1_dictionary_size SkeletonPass.fresh scenarioA rfl⟩

/-- C2: the dictionary holds exactly the records of the catalogued edges taken
in traversal order (`moduleRecords`: functions, then blocks, then instructions,
then successor index); the k-th of them has the id `br_k`, the counter running
on across functions; hence the ids of the dictionary are pairwise distinct, the
records of one instruction are numbered consecutively from the number of edges
catalogued before it, and the final counter is the number of records. -/
theorem C2_ids_follow_traversal (P : SkeletonPass) (M : Module)
    (hwf : M.wellFormed = true) :
    ∃ r, run P M = some r ∧
      List.Perm r.branchDictionary (moduleRecords M.sourceFileName 0 M.functions) ∧
      (moduleRecords M.sourceFileName 0 M.functions).map Prod.fst
        = (List.range (successorSum (moduleInstructions M.functions))).map
            (fun k => "br_" ++ to_string k) ∧
      (r.branchDictionary.map Prod.fst).Nodup ∧
      r.branchNumber = r.branchDictionary.length ∧
      ∀ (Fpre Fpost : List Function) (F : Function) (ipre ipost : List Instruction)
        (i : Instruction),
        M.functions = Fpre ++ F :: Fpost → instructions F.blocks = ipre ++ i :: ipost →
        ∃ A B, moduleRecords M.sourceFileName 0 M.functions
            = A ++ recordsFrom M.sourceFileName F.blocks A.length (edgesOfInst i) ++ B
          ∧ A.length = successorSum (moduleInstructions Fpre) + successorSum ipre := by
  obtain ⟨r, hr, hd, hn, _⟩ := run_of_catalogue P M _ (catalogue_spec M hwf)
  refine ⟨r, hr, ?_, ?_, ?_, ?_, ?_⟩
  · rw [hd]; exact catalogue_dict_perm M
  · rw [moduleRecords_keys, length_moduleRecords, List.range_eq_range']
    rfl
  · rw [hd]; exact dict_keys_nodup M
  · rw [hd, hn, (catalogue_dict_perm M).length_eq]
  · intro Fpre Fpost F ipre ipost i hF hi
    rw [hF]
    exact moduleRecords_split M.sourceFileName Fpre Fpost F ipre ipost i hi

theorem C2_ids_follow_traversal_witness :
    scenarioA.wellFormed = true ∧
    ∃ r, run SkeletonPass.fresh scenarioA = some r ∧
      List.Perm r.branchDictionary
        (moduleRecords scenarioA.sourceFileName 0 scenarioA.functions) ∧
      (moduleRecords scenarioA.sourceFileName 0 scenarioA.functions).map Prod.fst
        = (List.range (successorSum (moduleInstructions scenarioA.functions))).map
            (fun k => "br_" ++ to_string k) ∧
      (r.branchDictionary.map Prod.fst).Nodup ∧
      r.branchNumber = r.branchDictionary.length ∧
      ∀ (Fpre Fpost : List Function) (F : Function) (ipre ipost : List Instruction)
        (i : Instruction),
        scenarioA.functions = Fpre ++ F :: Fpost →
        instructions F.blocks = ipre ++ i :: ipost →
        ∃ A B, moduleRecords scenarioA.sourceFileName 0 scenarioA.functions
            = A ++ recordsFrom scenarioA.sourceFileName F.blocks A.length (edgesOfInst i) ++ B
          ∧ A.length = successorSum (moduleInstructions Fpre) + successorSum ipre :=
  ⟨rfl, C2_ids_follow_traversal SkeletonPass.fresh scenarioA rfl⟩

theorem visitInstruction_condBr (fileName : String) (st : CatalogState) (i : Instruction)
    (s0 s1 L : Nat) (hop : i.op = .condBr s0 s1) (hloc : i.loc = some L)
    (h0 : targetOK st.blocks s0 = true) (h1 : targetOK st.blocks s1 = true) :
    ∃ st1, visitInstruction fileName st i = some st1 ∧
      st1.branchNumber = st.branchNumber + 2 ∧
      st1.branchDictionary
        = mapInsert ("br_" ++ to_string (st.branchNumber + 1))
            (fileName, L, targetLineOf st.blocks s1)
            (mapInsert ("br_" ++ to_string st.branchNumber)
              (fileName, L, targetLineOf st.blocks s0) st.branchDictionary) := by
  have hedges : edgesOfInst i = [(L, s0), (L, s1)] := by
    simp [edgesOfInst, Instruction.isCatalogued, Instruction.isBranchInst,
      Instruction.isConditional, Instruction.successors, hop, hloc, getLine]
  rw [visitInstruction_eq_runEdges, hedges,
    runEdges_spec fileName [(L, s0), (L, s1)] st (by simp [h0, h1])]
  exact ⟨_, rfl, rfl, rfl⟩

/-- C3: a two-way conditional branch with source line `L` and successor blocks
`s0`, `s1` yields exactly two records, `br_n` with target line that of the
first non-phi instruction of block `s0` and `br_(n+1)` with that of block `s1`
(0 when that instruction has no location), both with the source file name of
the module and condition line `L`, where `n` is the number of edges catalogued
before the branch; and whenever the loop body reaches the branch with counter
value `n`, these are the ids it stores, leaving the counter at `n + 2`. -/
theorem C3_two_way_branch (P : SkeletonPass) (M : Module) (hwf : M.wellFormed = true)
    (Fpre Fpost : List Function) (F : Function) (ipre ipost : List Instruction)
    (i : Instruction) (s0 s1 L : Nat)
    (hF : M.functions = Fpre ++ F :: Fpost)
    (hi : instructions F.blocks = ipre ++ i :: ipost)
    (hop : i.op = .condBr s0 s1) (hloc : i.loc = some L) :
    (∃ r, run P M = some r ∧
      ∀ (id : String) (rec : BranchRecord),
        ((id, rec) ∈ r.branchDictionary ∧
          (id = "br_" ++ to_string (successorSum (moduleInstructions Fpre) + successorSum ipre)
            ∨ id = "br_" ++ to_string
                (successorSum (moduleInstructions Fpre) + successorSum ipre + 1)))
        ↔ ((id, rec) = ("br_" ++ to_string
                (successorSum (moduleInstructions Fpre) + successorSum ipre),
              (M.sourceFileName, L, targetLineOf F.blocks s0))
            ∨ (id, rec) = ("br_" ++ to_string
                (successorSum (moduleInstructions Fpre) + successorSum ipre + 1),
              (M.sourceFileName, L, targetLineOf F.blocks s1)))) ∧
    (∀ st : CatalogState, targetOK st.blocks s0 = true → targetOK st.blocks s1 = true →
      ∃ st1, visitInstruction M.sourceFileName st i = some st1 ∧
        st1.branchNumber = st.branchNumber + 2 ∧
        st1.branchDictionary
          = mapInsert ("br_" ++ to_string (st.branchNumber + 1))
              (M.sourceFileName, L, targetLineOf st.blocks s1)
              (mapInsert ("br_" ++ to_string st.branchNumber)
                (M.sourceFileName, L, targetLineOf st.blocks s0) st.branchDictionary)) := by
  refine ⟨?_, fun st h0 h1 =>
    visitInstruction_condBr M.sourceFileName st i s0 s1 L hop hloc h0 h1⟩
  obtain ⟨r, hr, hd, _⟩ := run_of_catalogue P M _ (catalogue_spec M hwf)
  refine ⟨r, hr, ?_⟩
  obtain ⟨A, B, hsplit, hA⟩ := moduleRecords_split M.sourceFileName Fpre Fpost F ipre ipost i hi
  rw [← hF] at hsplit
  have hedges : edgesOfInst i = [(L, s0), (L, s1)] := by
    simp [edgesOfInst, Instruction.isCatalogued, Instruction.isBranchInst,
      Instruction.isConditional, Instruction.successors, hop, hloc, getLine]
  rw [hedges, hA] at hsplit
  simp only [recordsFrom, branchIDOf_eq] at hsplit
  have hd2 : r.branchDictionary
      = insertAll [] (moduleRecords M.sourceFileName 0 M.functions) := hd
  have hperm := catalogue_dict_perm M
  have hnd := dict_keys_nodup M
  rw [← hd2] at hperm hnd
  have hm0 : ("br_" ++ to_string (successorSum (moduleInstructions Fpre) + successorSum ipre),
      ((M.sourceFileName, L, targetLineOf F.blocks s0) : BranchRecord))
      ∈ r.branchDictionary := by
    rw [hperm.mem_iff, hsplit]; simp
  have hm1 : ("br_" ++ to_string (successorSum (moduleInstructions Fpre) + successorSum ipre + 1),
      ((M.sourceFileName, L, targetLineOf F.blocks s1) : BranchRecord))
      ∈ r.branchDictionary := by
    rw [hperm.mem_iff, hsplit]; simp
  intro id rec
  constructor
  · rintro ⟨hmem, hid | hid⟩
    · subst hid
      exact Or.inl (by rw [eq_of_nodup_keys _ _ _ _ hnd hmem hm0])
    · subst hid
      exact Or.inr (by rw [eq_of_nodup_keys _ _ _ _ hnd hmem hm1])
  · rintro (h | h)
    · obtain ⟨h1, h2⟩ := Prod.mk.inj h
      subst h1; subst h2
      exact ⟨hm0, Or.inl rfl⟩
    · obtain ⟨h1, h2⟩ := Prod.mk.inj h
      subst h1; subst h2
      exact ⟨hm1, Or.inr rfl⟩

theorem C3_two_way_branch_witness :
    scenarioA.wellFormed = true ∧
    ∃ r, run SkeletonPass.fresh scenarioA = some r ∧
      ∀ (id : String) (rec : BranchRecord),
        ((id, rec) ∈ r.branchDictionary ∧ (id = "br_0" ∨ id = "br_1"))
        ↔ ((id, rec) = ("br_0", ("a.c", 10, 11)) ∨ (id, rec) = ("br_1", ("a.c", 10, 20))) :=
  ⟨rfl, (C3_two_way_branch SkeletonPass.fresh scenarioA rfl [] []
    { name := "main", addr := "0x1",
      blocks :=
        [ ⟨[plainInst 9, { op := .condBr 1 2, loc := some 10, ref := .val 1, operands := [] }]⟩,
          ⟨[plainInst 11, { op := .br 2, loc := some 12, ref := .val 2, operands := [] }]⟩,
          ⟨[plainInst 20]⟩ ] }
    [plainInst 9]
    [plainInst 11, { op := .br 2, loc := some 12, ref := .val 2, operands := [] }, plainInst 20]
    { op := .condBr 1 2, loc := some 10, ref := .val 1, operands := [] }
    1 2 10 rfl rfl rfl rfl).1⟩

/-- C4: on a freshly constructed pass, the member `keyPointLines` after sweep 1
holds exactly the condition lines of the records of `branchDictionary`, and it
is this set that the second sweep (`findInputVariables` on every function with
a body of the instrumented module) is run with. -/
theorem C4_keyPointLines_exact (M : Module) (hwf : M.wellFormed = true) :
    ∃ r, run SkeletonPass.fresh M = some r ∧
      (∀ l, l ∈ r.pass.keyPointLines ↔ ∃ e ∈ r.branchDictionary, e.2.conditionLine = l) ∧
      r.reports = sweepInputs r.pass.keyPointLines
        (moduleInstructions r.module.functions) r.module.functions := by
  obtain ⟨r, hr, hd, _, hm, _, hk, hrep⟩ :=
    run_of_catalogue SkeletonPass.fresh M _ (catalogue_spec M hwf)
  refine ⟨r, hr, ?_, ?_⟩
  · intro l
    rw [hk, mem_collectKeyPointLines, hd]
    simp [SkeletonPass.fresh]
  · rw [hrep, hm]

theorem C4_keyPointLines_exact_witness :
    scenarioA.wellFormed = true ∧
    ∃ r, run SkeletonPass.fresh scenarioA = some r ∧
      (∀ l, l ∈ r.pass.keyPointLines ↔ ∃ e ∈ r.branchDictionary, e.2.conditionLine = l) ∧
      r.reports = sweepInputs r.pass.keyPointLines
        (moduleInstructions r.module.functions) r.module.functions :=
  ⟨rfl, C4_keyPointLines_exact scenarioA rfl⟩

/-- C5: for a `BranchInst` that is unconditional, or conditional without a debug
location, the body of the instruction loop leaves the whole state as it was: no
record is stored, no block is changed (no logging call inserted), the counter
and the flag keep their values; and the instruction contributes no edge to the
catalogue. -/
theorem C5_skipped_branches (fileName : String) (st : CatalogState) (i : Instruction)
    (hbr : i.isBranchInst = true) (h : i.isConditional = false ∨ i.loc = none) :
    visitInstruction fileName st i = some st ∧ edgesOfInst i = [] := by
  obtain ⟨op, loc, ref, ops⟩ := i
  cases op <;> cases loc <;>
    simp_all [visitInstruction, edgesOfInst, Instruction.isCatalogued,
      Instruction.isBranchInst, Instruction.isConditional]

theorem C5_skipped_branches_witness :
    (({ op := .condBr 1 2, loc := none, ref := .val 1, operands := [] } : Instruction).isBranchInst
        = true) ∧
    (visitInstruction "a.c"
        { blocks := [⟨[plainInst 1]⟩, ⟨[plainInst 2]⟩, ⟨[plainInst 3]⟩],
          branchDictionary := [], branchNumber := 0, flag := false }
        { op := .condBr 1 2, loc := none, ref := .val 1, operands := [] }
      = some
        { blocks := [⟨[plainInst 1]⟩, ⟨[plainInst 2]⟩, ⟨[plainInst 3]⟩],
          branchDictionary := [], branchNumber := 0, flag := false }
      ∧ edgesOfInst { op := .condBr 1 2, loc := none, ref := .val 1, operands := [] } = []) :=
  ⟨rfl, C5_skipped_branches "a.c" _ _ rfl (Or.inr rfl)⟩

/-! ### Counting the inserted calls -/

theorem length_callsInto (loc : Option Nat) (b : Nat) : ∀ (es : List (Nat × Nat)) (n : Nat),
    (callsInto loc b n es).length = es.countP (fun e => decide (e.2 = b)) := by
  intro es
  induction es with
  | nil => intro n; rfl
  | cons e rest ih =>
    intro n
    simp only [callsInto, List.length_append, ih, List.countP_cons]
    by_cases h : e.2 = b <;> simp [h]

theorem countP_window_succ (k m : Nat) : ∀ es : List (Nat × Nat),
    es.countP (fun e => decide (k ≤ e.2 ∧ e.2 < k + (m + 1)))
      = es.countP (fun e => decide (e.2 = k))
        + es.countP (fun e => decide (k + 1 ≤ e.2 ∧ e.2 < k + 1 + m)) := by
  intro es
  induction es with
  | nil => rfl
  | cons e rest ih =>
    simp only [List.countP_cons, ih]
    by_cases h1 : e.2 = k
    · have h2 : k ≤ e.2 ∧ e.2 < k + (m + 1) := by omega
      have h3 : ¬ (k + 1 ≤ e.2 ∧ e.2 < k + 1 + m) := by omega
      simp [h1, h2, h3]
      omega
    · by_cases h2 : k ≤ e.2 ∧ e.2 < k + (m + 1)
      · have h3 : k + 1 ≤ e.2 ∧ e.2 < k + 1 + m := by omega
        simp [h1, h2, h3]
        omega
      · have h3 : ¬ (k + 1 ≤ e.2 ∧ e.2 < k + 1 + m) := by omega
        simp [h1, h2, h3]

theorem length_instrumentedBlock (n : Nat) (es : List (Nat × Nat)) (b : Nat)
    (blk : BasicBlock) :
    (instrumentedBlock n es b blk).insts.length
      = blk.insts.length + es.countP (fun e => decide (e.2 = b)) := by
  have h := congrArg List.length (phisOf_append_bodyOf blk.insts)
  simp only [List.length_append] at h
  simp only [instrumentedBlock, List.length_append, length_callsInto]
  omega

theorem length_instructions_instrumentedBlocks (n : Nat) (es : List (Nat × Nat)) :
    ∀ (l : List BasicBlock) (k : Nat),
    (instructions (instrumentedBlocks n es k l)).length
      = (instructions l).length
        + es.countP (fun e => decide (k ≤ e.2 ∧ e.2 < k + l.length)) := by
  intro l
  induction l with
  | nil =>
    intro k
    have : es.countP (fun e => decide (k ≤ e.2 ∧ e.2 < k + 0)) = 0 := by
      rw [List.countP_eq_zero]
      intro e _
      simp
    show 0 = 0 + es.countP (fun e => decide (k ≤ e.2 ∧ e.2 < k + 0))
    rw [this]
  | cons blk rest ih =>
    intro k
    simp only [instrumentedBlocks, instructions, List.length_append, List.length_cons,
      length_instrumentedBlock, ih, countP_window_succ]
    omega

theorem targetOK_lt (blocks : List BasicBlock) (s : Nat) (h : targetOK blocks s = true) :
    s < blocks.length := by
  obtain ⟨blk, first, hb, _⟩ := (targetOK_iff blocks s).1 h
  rcases Nat.lt_or_ge s blocks.length with h1 | h1
  · exact h1
  · rw [List.getElem?_eq_none h1] at hb; cases hb

theorem length_instructions_instrumented (n : Nat) (F : Function)
    (hwf : F.wellFormed = true) :
    (instructions (instrumentedBlocks n (functionEdges F) 0 F.blocks)).length
      = (instructions F.blocks).length + (functionEdges F).length := by
  rw [length_instructions_instrumentedBlocks]
  congr 1
  rw [List.countP_eq_length]
  intro e he
  have hall : (functionEdges F).all (fun e => targetOK F.blocks e.2) = true := hwf
  rw [List.all_eq_true] at hall
  have := targetOK_lt F.blocks e.2 (hall e he)
  simp
  omega

theorem length_moduleInstructions_instrumented : ∀ (fs : List Function) (n : Nat),
    fs.all (fun F => F.wellFormed) = true →
    (moduleInstructions (instrumentedFunctions n fs)).length
      = (moduleInstructions fs).length + successorSum (moduleInstructions fs) := by
  intro fs
  induction fs with
  | nil => intro n _; rfl
  | cons F rest ih =>
    intro n hwf
    simp only [List.all_cons, Bool.and_eq_true] at hwf
    have h1 := length_instructions_instrumented n F hwf.1
    simp only [functionEdges, length_edgesOfInsts] at h1
    simp only [instrumentedFunctions, moduleInstructions, List.length_append,
      ih _ hwf.2, successorSum_append, functionEdges]
    omega

theorem moduleInstructions_append (fs1 fs2 : List Function) :
    moduleInstructions (fs1 ++ fs2) = moduleInstructions fs1 ++ moduleInstructions fs2 := by
  induction fs1 with
  | nil => rfl
  | cons F rest ih => simp [moduleInstructions, ih]

theorem moduleInstructions_traversed (M : Module) :
    moduleInstructions (traversedFunctions M) = moduleInstructions M.functions := by
  unfold traversedFunctions
  cases hfs : M.functions with
  | nil => rfl
  | cons F rest =>
    simp only [getOrInsertLogPrint]
    split
    · rfl
    · rw [moduleInstructions_append]
      simp [moduleInstructions, instructions]

/-! ### Sweep 2 -/

theorem firstKeyPointUse_isSome (kp : List Nat) : ∀ us : List Instruction,
    (firstKeyPointUse kp us).isSome = true ↔ ∃ u ∈ us, getLine u.loc ∈ kp := by
  intro us
  induction us with
  | nil => simp [firstKeyPointUse]
  | cons u rest ih =>
    unfold firstKeyPointUse
    by_cases h : getLine u.loc ∈ kp
    · simp [h]
    · simp [h, ih]

theorem mem_ptrSetInsert (x k : ValueRef) (s : List ValueRef) :
    x ∈ ptrSetInsert k s ↔ x = k ∨ x ∈ s := by
  unfold ptrSetInsert
  by_cases h : k ∈ s
  · simp only [h, if_true]
    constructor
    · exact Or.inr
    · rintro (h1 | h1)
      · rw [h1]; exact h
      · exact h1
  · simp only [h, if_false, List.mem_append, List.mem_singleton]
    tauto

theorem mem_resolveInfluence (kp : List Nat) (all : List Instruction) (x : ValueRef) :
    ∀ (vs : List Value) (infl : List ValueRef) (out : List String),
    x ∈ (resolveInfluence kp all (infl, out) vs).1 ↔
      x ∈ infl ∨ ∃ v ∈ vs, v.ref = x ∧ (firstKeyPointUse kp (users v.ref all)).isSome = true := by
  intro vs
  induction vs with
  | nil => intro infl out; simp [resolveInfluence]
  | cons v rest ih =>
    intro infl out
    unfold resolveInfluence
    cases h : firstKeyPointUse kp (users v.ref all) with
    | none =>
      simp only [ih, List.mem_cons, exists_eq_or_imp, h, Option.isSome_none]
      simp
    | some l =>
      simp only [ih, mem_ptrSetInsert, List.mem_cons, exists_eq_or_imp, h, Option.isSome_some]
      constructor
      · rintro ((h1 | h1) | h1)
        · exact Or.inr (Or.inl ⟨h1.symm, trivial⟩)
        · exact Or.inl h1
        · exact Or.inr (Or.inr h1)
      · rintro (h1 | ⟨h1, _⟩ | h1)
        · exact Or.inl (Or.inr h1)
        · exact Or.inl (Or.inl h1.symm)
        · exact Or.inr h1

theorem influencer_iff (kp : List Nat) (all : List Instruction) (F : Function) (v : Value)
    (hv : v ∈ (findInputVariables kp all F).inputVariables) :
    v.ref ∈ (findInputVariables kp all F).keyPointInfluencers ↔
      ∃ u ∈ users v.ref all, getLine u.loc ∈ kp := by
  unfold findInputVariables at hv ⊢
  simp only [] at hv ⊢
  rw [mem_resolveInfluence]
  constructor
  · rintro (h | ⟨w, _, hw, hs⟩)
    · cases h
    · rw [hw] at hs
      exact (firstKeyPointUse_isSome kp _).1 hs
  · intro h
    exact Or.inr ⟨v, hv, rfl, (firstKeyPointUse_isSome kp _).2 h⟩

/-- C7: an input variable recorded by `findInputVariables` is in
`keyPointInfluencers` exactly when one of its direct users (the instructions
that have it as an operand) has its source line among `keyPointLines`; the
instructions found by the textual scan play no part. -/
theorem C7_influencer_iff_direct_use (keyPointLines : List Nat) (all : List Instruction)
    (F : Function) (v : Value)
    (hv : v ∈ (findInputVariables keyPointLines all F).inputVariables) :
    v.ref ∈ (findInputVariables keyPointLines all F).keyPointInfluencers ↔
      ∃ u ∈ users v.ref all, getLine u.loc ∈ keyPointLines := by
  unfold findInputVariables at hv ⊢
  simp only [] at hv ⊢
  rw [mem_resolveInfluence]
  constructor
  · rintro (h | ⟨w, _, hw, hs⟩)
    · cases h
    · rw [hw] at hs
      exact (firstKeyPointUse_isSome keyPointLines _).1 hs
  · intro h
    exact Or.inr ⟨v, hv, rfl, (firstKeyPointUse_isSome keyPointLines _).2 h⟩

theorem C7_influencer_iff_direct_use_witness :
    (varX ∈ (findInputVariables [5] (moduleInstructions scenarioB.functions)
        scenarioBMain).inputVariables) ∧
    (varX.ref ∈ (findInputVariables [5] (moduleInstructions scenarioB.functions)
        scenarioBMain).keyPointInfluencers ↔
      ∃ u ∈ users varX.ref (moduleInstructions scenarioB.functions), getLine u.loc ∈ [5]) :=
  ⟨by decide, C7_influencer_iff_direct_use [5] (moduleInstructions scenarioB.functions)
    scenarioBMain varX (by decide)⟩

/-! ### The `scanf` operand loop -/

theorem filterMap_range'_getElem? (p : Value → Bool) (ops : List Value) :
    ∀ (m k : Nat),
    (List.range' k m).filterMap (fun i => (ops[i]?).filter p)
      = ((ops.drop k).take m).filter p := by
  intro m
  induction m with
  | zero => intro k; simp
  | succ m ih =>
    intro k
    rw [List.range'_succ, List.filterMap_cons, ih (k + 1)]
    rcases Nat.lt_or_ge k ops.length with hk | hk
    · rw [List.getElem?_eq_getElem hk, List.drop_eq_getElem_cons hk]
      simp only [Option.filter, List.take_succ_cons, List.filter_cons]
      by_cases hp : p ops[k] = true <;> simp [hp]
    · rw [List.getElem?_eq_none hk, List.drop_eq_nil_of_le hk,
        List.drop_eq_nil_of_le (Nat.le_succ_of_le hk)]
      simp [Option.filter]

theorem scanfOperands_inputVariables (all : List Instruction) (line : Nat)
    (CI : Instruction) : ∀ (idx : List Nat) (st : InputState),
    (scanfOperands all line CI st idx).inputVariables
      = st.inputVariables
        ++ idx.filterMap (fun i => (CI.getOperands[i]?).filter (fun o => o.isPointerTy)) := by
  intro idx
  induction idx with
  | nil => intro st; simp [scanfOperands]
  | cons i rest ih =>
    intro st
    simp only [scanfOperands, ih, List.filterMap_cons, scanfOperand]
    cases h : CI.getOperands[i]? with
    | none => simp [Option.filter]
    | some o =>
      by_cases hp : o.isPointerTy = true <;> simp [Option.filter, hp]

theorem ptrMapFind_set_self (k : ValueRef) (v : Nat) : ∀ m : List (ValueRef × Nat),
    ptrMapFind k (ptrMapSet k v m) = some v := by
  intro m
  induction m with
  | nil => simp [ptrMapSet, ptrMapFind]
  | cons kv rest ih =>
    obtain ⟨k1, v1⟩ := kv
    unfold ptrMapSet
    by_cases h : k = k1
    · simp [h, ptrMapFind]
    · simp [h, ptrMapFind, ih]

theorem ptrMapFind_set_keep (r k : ValueRef) (v : Nat) : ∀ m : List (ValueRef × Nat),
    ptrMapFind r m = some v → ptrMapFind r (ptrMapSet k v m) = some v := by
  intro m
  induction m with
  | nil => intro h; simp [ptrMapFind] at h
  | cons kv rest ih =>
    obtain ⟨k1, v1⟩ := kv
    intro h
    unfold ptrMapSet
    by_cases hk : k = k1
    · subst hk
      by_cases hr : r = k
      · simp [ptrMapFind, hr]
      · simp only [if_true, ptrMapFind, hr, if_false]
        simpa [ptrMapFind, hr] using h
    · simp only [hk, if_false, ptrMapFind]
      by_cases hr : r = k1
      · simpa [ptrMapFind, hr] using h
      · simp only [hr, if_false]
        apply ih
        simpa [ptrMapFind, hr] using h

theorem scanfOperands_inputVarLines (all : List Instruction) (line : Nat)
    (CI : Instruction) (r : ValueRef) : ∀ (idx : List Nat) (st : InputState),
    (ptrMapFind r st.inputVarLines = some line ∨
      ∃ i ∈ idx, ∃ o, CI.getOperands[i]? = some o ∧ o.isPointerTy = true ∧ o.ref = r) →
    ptrMapFind r (scanfOperands all line CI st idx).inputVarLines = some line := by
  intro idx
  induction idx with
  | nil =>
    intro st h
    rcases h with h | ⟨i, hi, _⟩
    · exact h
    · cases hi
  | cons i rest ih =>
    intro st h
    simp only [scanfOperands]
    apply ih
    rcases h with h | ⟨j, hj, o, ho, hp, hr⟩
    · left
      unfold scanfOperand
      cases CI.getOperands[i]? with
      | none => exact h
      | some o =>
        by_cases hp : o.isPointerTy = true
        · simp only [hp, if_true]
          exact ptrMapFind_set_keep r o.ref line _ h
        · simp only [hp]
          exact h
    · rcases List.mem_cons.1 hj with hji | hji
      · left
        subst hji
        unfold scanfOperand
        simp only [ho, hp, if_true]
        rw [← hr]
        exact ptrMapFind_set_self _ _ _
      · exact Or.inr ⟨j, hji, o, ho, hp, hr⟩

theorem scanInstruction_scanf (all : List Instruction) (F : Function) (st : InputState)
    (I : Instruction) (callee : Value) (hop : I.op = .call (some "scanf") callee) :
    scanInstruction all F st I
      = scanfOperands all (getLine I.loc) I
          { st with errs := st.errs
              ++ ["\nFound I/O call at line: " ++ to_string (getLine I.loc) ++ "\n\n"] }
          (List.range' 1 (I.getNumOperands - 1 - 1)) := by
  unfold scanInstruction
  rw [hop]
  simp only []
  rw [if_pos (by decide), if_neg (by decide)]
  simp only [if_true]

theorem scanInstruction_mono (all : List Instruction) (F : Function) (st : InputState)
    (I : Instruction) (v : Value) (hv : v ∈ st.inputVariables) :
    v ∈ (scanInstruction all F st I).inputVariables := by
  unfold scanInstruction
  split
  · simp only []
    split_ifs
    all_goals first
      | exact hv
      | exact List.mem_append_left _ hv
      | (rw [scanfOperands_inputVariables]; exact List.mem_append_left _ hv)
  · exact hv

theorem scanInstructions_mono (all : List Instruction) (F : Function) (v : Value) :
    ∀ (insts : List Instruction) (st : InputState), v ∈ st.inputVariables →
    v ∈ (scanInstructions all F st insts).inputVariables := by
  intro insts
  induction insts with
  | nil => intro st hv; exact hv
  | cons I rest ih =>
    intro st hv
    exact ih _ (scanInstruction_mono all F st I v hv)

theorem scanInstruction_scanf_inputVariables (all : List Instruction) (F : Function)
    (st : InputState) (I : Instruction) (callee : Value)
    (hop : I.op = .call (some "scanf") callee) :
    (scanInstruction all F st I).inputVariables
      = st.inputVariables
        ++ ((I.getOperands.drop 1).take (I.getNumOperands - 2)).filter
            (fun o => o.isPointerTy) := by
  rw [scanInstruction_scanf all F st I callee hop, scanfOperands_inputVariables,
    filterMap_range'_getElem?]
  rfl

theorem scanInstructions_records (all : List Instruction) (F : Function) (I : Instruction)
    (callee : Value) (hop : I.op = .call (some "scanf") callee) (v : Value)
    (hv : v ∈ ((I.getOperands.drop 1).take (I.getNumOperands - 2)).filter
      (fun o => o.isPointerTy)) :
    ∀ (insts : List Instruction) (st : InputState), I ∈ insts →
    v ∈ (scanInstructions all F st insts).inputVariables := by
  intro insts
  induction insts with
  | nil => intro st h; cases h
  | cons J rest ih =>
    intro st h
    rcases List.mem_cons.1 h with h1 | h1
    · subst h1
      show v ∈ (scanInstructions all F (scanInstruction all F st I) rest).inputVariables
      apply scanInstructions_mono
      rw [scanInstruction_scanf_inputVariables all F st I callee hop]
      exact List.mem_append_right _ hv
    · exact ih _ h1

theorem scanInstruction_getc_inputVariables (all : List Instruction) (F : Function)
    (st : InputState) (I : Instruction) (callee : Value) (name : String)
    (hop : I.op = .call (some name) callee) (hn : name = "getc" ∨ name = "fclose")
    (v : Value) (h0 : I.getOperands[0]? = some v) (hp : v.isPointerTy = true) :
    (scanInstruction all F st I).inputVariables = st.inputVariables ++ [v] := by
  have hv : (match I.operands with
      | [] => callee
      | a :: _ => a) = v := by
    unfold Instruction.getOperands at h0
    rw [hop] at h0
    cases hops : I.operands with
    | nil => simpa [hops] using h0
    | cons a rest => simpa [hops] using h0
  unfold scanInstruction
  rw [hop]
  simp only []
  rw [hv]
  rcases hn with hn | hn <;> subst hn
  · rw [if_pos (by decide), if_neg (by decide), if_neg (by decide), if_pos (by decide),
      if_pos hp]
  · rw [if_pos (by decide), if_neg (by decide), if_neg (by decide), if_pos (by decide),
      if_pos hp]

theorem scanInstructions_records_getc (all : List Instruction) (F : Function)
    (I : Instruction) (callee : Value) (name : String)
    (hop : I.op = .call (some name) callee) (hn : name = "getc" ∨ name = "fclose")
    (v : Value) (h0 : I.getOperands[0]? = some v) (hp : v.isPointerTy = true) :
    ∀ (insts : List Instruction) (st : InputState), I ∈ insts →
    v ∈ (scanInstructions all F st insts).inputVariables := by
  intro insts
  induction insts with
  | nil => intro st h; cases h
  | cons J rest ih =>
    intro st h
    rcases List.mem_cons.1 h with h1 | h1
    · subst h1
      show v ∈ (scanInstructions all F (scanInstruction all F st I) rest).inputVariables
      apply scanInstructions_mono
      rw [scanInstruction_getc_inputVariables all F st I callee name hop hn v h0 hp]
      simp
    · exact ih _ h1

/-- C8 (as amended): every pointer-typed operand of a `scanf` call at the
positions 1 .. n-2, and a pointer-typed operand 0 of a `getc` or `fclose` call,
is recorded in `inputVariables`; and a recorded variable none of whose direct
users (the call that reads it included) has its line in `keyPointLines` is not
in `keyPointInfluencers`. -/
theorem C8_unflagged_without_key_line_use (keyPointLines : List Nat)
    (all : List Instruction) (F : Function) :
    (∀ (I : Instruction) (callee v : Value), I ∈ instructions F.blocks →
      I.op = .call (some "scanf") callee →
      v ∈ ((I.getOperands.drop 1).take (I.getNumOperands - 2)).filter
        (fun o => o.isPointerTy) →
      v ∈ (findInputVariables keyPointLines all F).inputVariables) ∧
    (∀ (I : Instruction) (callee v : Value) (name : String), I ∈ instructions F.blocks →
      I.op = .call (some name) callee → name = "getc" ∨ name = "fclose" →
      I.getOperands[0]? = some v → v.isPointerTy = true →
      v ∈ (findInputVariables keyPointLines all F).inputVariables) ∧
    (∀ v ∈ (findInputVariables keyPointLines all F).inputVariables,
      (∀ u ∈ users v.ref all, getLine u.loc ∉ keyPointLines) →
      v.ref ∉ (findInputVariables keyPointLines all F).keyPointInfluencers) := by
  refine ⟨?_, ?_, ?_⟩
  · intro I callee v hI hop hv
    unfold findInputVariables
    exact scanInstructions_records all F I callee hop v hv _ _ hI
  · intro I callee v name hI hop hn h0 hp
    unfold findInputVariables
    exact scanInstructions_records_getc all F I callee name hop hn v h0 hp _ _ hI
  · intro v hv hno hmem
    obtain ⟨u, hu, hl⟩ := (influencer_iff keyPointLines all F v hv).1 hmem
    exact hno u hu hl

theorem C8_unflagged_without_key_line_use_witness :
    varX ∈ (findInputVariables [7] (moduleInstructions scenarioC.functions)
        scenarioCMain).inputVariables ∧
    varX.ref ∉ (findInputVariables [7] (moduleInstructions scenarioC.functions)
        scenarioCMain).keyPointInfluencers :=
  ⟨(C8_unflagged_without_key_line_use [7] (moduleInstructions scenarioC.functions)
      scenarioCMain).1 scanfIntoX scanfCallee varX (by decide) rfl (by decide),
   (C8_unflagged_without_key_line_use [7] (moduleInstructions scenarioC.functions)
      scenarioCMain).2.2 varX (by decide) (by decide)⟩

/-- C8 (counterexample): in `scenarioC` the variable `x` is read by `scanf` at
line 5 and has no other user than that call, the only catalogued branch tests
an unrelated value, and yet `run` records `x` and flags it, because the call
itself is a user of `x` on line 5, which is a condition line. -/
theorem C8_counterexample :
    (run SkeletonPass.fresh scenarioC).map
        (fun r => (r.pass.keyPointLines,
          users varX.ref (moduleInstructions r.module.functions),
          r.reports.map (fun p => (p.inputVariables, p.keyPointInfluencers))))
      = some ([5], [scanfIntoX], [([varX], [varX.ref])]) := by
  rfl

/-- C9: a `scanf` call with n operands (the callee last) appends to
`inputVariables` exactly the pointer-typed operands at the positions 1 .. n-2,
in position order; each of them gets the line of the call as its entry of
`inputVarLines`; with n at most 2 nothing is recorded. -/
theorem C9_scanf_operands (all : List Instruction) (F : Function) (st : InputState)
    (I : Instruction) (callee : Value) (hop : I.op = .call (some "scanf") callee) :
    (scanInstruction all F st I).inputVariables
      = st.inputVariables
        ++ ((I.getOperands.drop 1).take (I.getNumOperands - 2)).filter
            (fun o => o.isPointerTy) ∧
    (∀ v ∈ ((I.getOperands.drop 1).take (I.getNumOperands - 2)).filter
        (fun o => o.isPointerTy),
      ptrMapFind v.ref (scanInstruction all F st I).inputVarLines = some (getLine I.loc)) ∧
    (I.getNumOperands ≤ 2 →
      (scanInstruction all F st I).inputVariables = st.inputVariables) := by
  have hiv := scanInstruction_scanf_inputVariables all F st I callee hop
  refine ⟨hiv, ?_, ?_⟩
  · intro v hv
    rw [scanInstruction_scanf all F st I callee hop]
    apply scanfOperands_inputVarLines
    right
    have hv2 : v ∈ (List.range' 1 (I.getNumOperands - 1 - 1)).filterMap
        (fun i => (I.getOperands[i]?).filter (fun o => o.isPointerTy)) := by
      rw [filterMap_range'_getElem?]
      exact hv
    obtain ⟨i, hi, hsome⟩ := List.mem_filterMap.1 hv2
    cases ho : I.getOperands[i]? with
    | none => simp [ho, Option.filter] at hsome
    | some o =>
      by_cases hp : o.isPointerTy = true
      · simp only [ho, Option.filter, hp, if_true, Option.some.injEq] at hsome
        exact ⟨i, hi, o, ho, hp, by rw [hsome]⟩
      · simp [ho, Option.filter, hp] at hsome
  · intro hn
    rw [hiv]
    have : I.getNumOperands - 2 = 0 := by omega
    simp [this]

theorem C9_scanf_operands_witness :
    scanfIntoX.op = .call (some "scanf") scanfCallee ∧
    ((scanInstruction [scanfIntoX] scenarioCMain
        { inputVariables := [], inputVarLines := [], filePointerInitLines := [], errs := [] }
        scanfIntoX).inputVariables
      = [] ++ ((scanfIntoX.getOperands.drop 1).take (scanfIntoX.getNumOperands - 2)).filter
            (fun o => o.isPointerTy) ∧
    (∀ v ∈ ((scanfIntoX.getOperands.drop 1).take (scanfIntoX.getNumOperands - 2)).filter
        (fun o => o.isPointerTy),
      ptrMapFind v.ref (scanInstruction [scanfIntoX] scenarioCMain
        { inputVariables := [], inputVarLines := [], filePointerInitLines := [], errs := [] }
        scanfIntoX).inputVarLines = some (getLine scanfIntoX.loc)) ∧
    (scanfIntoX.getNumOperands ≤ 2 →
      (scanInstruction [scanfIntoX] scenarioCMain
        { inputVariables := [], inputVarLines := [], filePointerInitLines := [], errs := [] }
        scanfIntoX).inputVariables = [])) :=
  ⟨rfl, C9_scanf_operands [scanfIntoX] scenarioCMain
    { inputVariables := [], inputVarLines := [], filePointerInitLines := [], errs := [] }
    scanfIntoX scanfCallee rfl⟩

/-- C10 (the code at the failing input): for the call `getc()` without
argument, operand 0 is the callee; it is pointer typed, so `findInputVariables`
records it as an input variable with the line of the call, where the
specification has nothing recorded.  The `scanf` call with only a format string records
nothing. -/
theorem C10_getc_without_argument_records_callee :
    getcNoArg.getOperands = [getcCallee] ∧
    (findInputVariables [] (instructions getcFunction.blocks) getcFunction).inputVariables
      = [getcCallee] ∧
    (findInputVariables [] (instructions getcFunction.blocks) getcFunction).inputVarLines
      = [(getcCallee.ref, 4)] ∧
    (scanInstruction [] getcFunction
        { inputVariables := [], inputVarLines := [], filePointerInitLines := [], errs := [] }
        scanfFormatOnly).inputVariables = [] := by
  decide

/-! ### The pass object across invocations -/

/-- C12 (the code at the failing input): the member `keyPointLines` is never
cleared.  After a run on `scenarioA` (a branch at line 10) the same pass object
is run on `noBranchModule`, which has no branch at all: its dictionary is empty,
yet line 10 is still a key-point line and `x`, read and used at line 10 only,
is flagged; a fresh pass object does not flag it. -/
theorem C12_keyPointLines_survive :
    ((run SkeletonPass.fresh scenarioA).bind
        (fun r1 => (run r1.pass noBranchModule).map
          (fun r2 => (r2.branchDictionary, r2.pass.keyPointLines,
            r2.reports.map (fun p => (p.inputVariables, p.keyPointInfluencers)))))
      = some ([], [10], [([varX], [varX.ref])])) ∧
    ((run SkeletonPass.fresh noBranchModule).map
        (fun r2 => (r2.branchDictionary, r2.pass.keyPointLines,
          r2.reports.map (fun p => (p.inputVariables, p.keyPointInfluencers))))
      = some ([], [], [([varX], [])])) := by
  constructor <;> rfl

/-! ### The `fopen` family -/

/-- C16 (the code at the failing input): a call to a function named `@_fopen`
is recognized as an I/O call (the name is in `ioFunctions`) but the test of
line 41 does not list it, so only the I/O-call diagnostic is written and no
file pointer is recorded; for `fopen`, `_fopen` and `\x01_fopen` the result of
the call is recorded with the line of the call and the file-pointer diagnostic
is written, and nothing is added to `inputVariables`. -/
theorem C16_at_fopen_variant_not_recorded :
    scanInstruction [] scenarioCMain InputState.empty (fopenCall "@_fopen")
      = { inputVariables := [], inputVarLines := [], filePointerInitLines := [],
          errs := ["\nFound I/O call at line: 8\n\n"] } ∧
    (∀ name ∈ ["fopen", "_fopen", "\x01_fopen"],
      scanInstruction [] scenarioCMain InputState.empty (fopenCall name)
        = { inputVariables := [], inputVarLines := [],
            filePointerInitLines := [(ValueRef.val 40, 8)],
            errs := ["\nFound I/O call at line: 8\n\n",
              "File pointer initialized at line: 8\n"] }) := by
  refine ⟨rfl, ?_⟩
  intro name hname
  simp only [List.mem_cons, List.mem_singleton, List.not_mem_nil, or_false] at hname
  rcases hname with h | h | h <;> subst h <;> rfl

/-! ### Terminators that are not branch instructions -/

/-- C17 (counterexample): a three-way switch with a source location produces no
record at all and leaves the counter at 0. -/
theorem C17_counterexample :
    (run SkeletonPass.fresh switchModule).map
        (fun r => (r.branchDictionary, r.branchNumber, r.module.functions.map
          (fun F => F.blocks)))
      = some ([], 0, [switchBlocks, []]) := by
  rfl

/-- C17 (as amended): only a conditional `BranchInst` is catalogued.  Reached
with counter value `n`, one that carries a source location stores exactly two
records, one per successor index, under the distinct ids `br_n` and `br_(n+1)`;
a switch-style transfer, whatever its number of successors, stores nothing and
leaves the state as it was. -/
theorem C17_only_branch_instructions (fileName : String) (st : CatalogState)
    (i : Instruction) :
    (∀ ss, i.op = .switch ss →
      visitInstruction fileName st i = some st ∧ edgesOfInst i = []) ∧
    (∀ s0 s1 L, i.op = .condBr s0 s1 → i.loc = some L →
      targetOK st.blocks s0 = true → targetOK st.blocks s1 = true →
      i.getNumSuccessors = 2 ∧
      "br_" ++ to_string st.branchNumber ≠ "br_" ++ to_string (st.branchNumber + 1) ∧
      ∃ st1, visitInstruction fileName st i = some st1 ∧
        st1.branchNumber = st.branchNumber + 2 ∧
        st1.branchDictionary
          = mapInsert ("br_" ++ to_string (st.branchNumber + 1))
              (fileName, L, targetLineOf st.blocks s1)
              (mapInsert ("br_" ++ to_string st.branchNumber)
                (fileName, L, targetLineOf st.blocks s0) st.branchDictionary)) := by
  constructor
  · intro ss hop
    obtain ⟨op, loc, ref, ops⟩ := i
    simp only at hop
    subst hop
    cases loc <;> exact ⟨rfl, rfl⟩
  · intro s0 s1 L hop hloc h0 h1
    refine ⟨by simp [Instruction.getNumSuccessors, Instruction.successors, hop], ?_,
      visitInstruction_condBr fileName st i s0 s1 L hop hloc h0 h1⟩
    intro h
    have := branchIDOf_injective (a := st.branchNumber) (b := st.branchNumber + 1) h
    omega

theorem C17_only_branch_instructions_witness :
    (visitInstruction "s.c"
        { blocks := switchBlocks, branchDictionary := [], branchNumber := 0, flag := false }
        switchInst
      = some
        { blocks := switchBlocks, branchDictionary := [], branchNumber := 0,
          flag := false }) ∧
    (∃ st1, visitInstruction "a.c"
        { blocks := [⟨[plainInst 9]⟩, ⟨[plainInst 11]⟩, ⟨[plainInst 20]⟩],
          branchDictionary := [], branchNumber := 0, flag := false }
        { op := .condBr 1 2, loc := some 10, ref := .val 1, operands := [] } = some st1 ∧
      st1.branchNumber = 2 ∧
      st1.branchDictionary = [("br_0", ("a.c", 10, 11)), ("br_1", ("a.c", 10, 20))]) :=
  ⟨((C17_only_branch_instructions "s.c" _ _).1 [1, 2, 3] rfl).1,
   ((C17_only_branch_instructions "a.c"
      { blocks := [⟨[plainInst 9]⟩, ⟨[plainInst 11]⟩, ⟨[plainInst 20]⟩],
        branchDictionary := [], branchNumber := 0, flag := false }
      { op := .condBr 1 2, loc := some 10, ref := .val 1, operands := [] }).2
      1 2 10 rfl rfl rfl rfl).2.2⟩

/-! ### Several edges into one block -/

theorem moduleRecords_split_edge (fileName : String) (Fpre Fpost : List Function)
    (F : Function) (epre epost : List (Nat × Nat)) (e : Nat × Nat)
    (he : functionEdges F = epre ++ e :: epost) :
    ∃ A B, moduleRecords fileName 0 (Fpre ++ F :: Fpost)
        = A ++ (branchIDOf A.length, (fileName, e.1, targetLineOf F.blocks e.2)) :: B
      ∧ A.length = successorSum (moduleInstructions Fpre) + epre.length := by
  have he2 : edgesOfInsts (instructions F.blocks) = epre ++ e :: epost := he
  refine ⟨moduleRecords fileName 0 Fpre
      ++ recordsFrom fileName F.blocks (moduleRecords fileName 0 Fpre).length epre,
    recordsFrom fileName F.blocks
        ((moduleRecords fileName 0 Fpre).length + epre.length + 1) epost
      ++ moduleRecords fileName
          ((moduleRecords fileName 0 Fpre).length
            + (edgesOfInsts (instructions F.blocks)).length) Fpost, ?_, ?_⟩
  · rw [moduleRecords_append]
    simp only [moduleRecords, Nat.zero_add, he2, recordsFrom_append, recordsFrom,
      List.length_append, length_recordsFrom, List.append_assoc, List.cons_append]
  · simp [length_recordsFrom, length_moduleRecords]

theorem catalogueEdge_targetLineOf (fileName : String) (l s : Nat) (st st1 : CatalogState)
    (h : catalogueEdge fileName brOpcodeName l st s = some st1) (t : Nat) :
    targetLineOf st1.blocks t = targetLineOf st.blocks t := by
  obtain ⟨blk, first, hb, hf⟩ := catalogueEdge_some_inv _ _ _ _ _ h
  rw [catalogueEdge_eq fileName l s st blk first hb hf] at h
  rw [← Option.some.inj h]
  exact targetLineOf_congr (sig_set_insert st.blocks s _ blk first hb hf) t

theorem dict_entry_iff (P : SkeletonPass) (M : Module) (hwf : M.wellFormed = true)
    (Fpre Fpost : List Function) (F : Function) (epre epost : List (Nat × Nat))
    (e : Nat × Nat) (hF : M.functions = Fpre ++ F :: Fpost)
    (he : functionEdges F = epre ++ e :: epost) :
    ∃ r, run P M = some r ∧ ∀ rec : BranchRecord,
      ("br_" ++ to_string (successorSum (moduleInstructions Fpre) + epre.length), rec)
          ∈ r.branchDictionary
        ↔ rec = (M.sourceFileName, e.1, targetLineOf F.blocks e.2) := by
  obtain ⟨r, hr, hd, _⟩ := run_of_catalogue P M _ (catalogue_spec M hwf)
  refine ⟨r, hr, ?_⟩
  obtain ⟨A, B, hsplit, hA⟩ :=
    moduleRecords_split_edge M.sourceFileName Fpre Fpost F epre epost e he
  rw [← hF, hA, branchIDOf_eq] at hsplit
  have hd2 : r.branchDictionary
      = insertAll [] (moduleRecords M.sourceFileName 0 M.functions) := hd
  have hperm := catalogue_dict_perm M
  have hnd := dict_keys_nodup M
  rw [← hd2] at hperm hnd
  have hm : ("br_" ++ to_string (successorSum (moduleInstructions Fpre) + epre.length),
      ((M.sourceFileName, e.1, targetLineOf F.blocks e.2) : BranchRecord))
      ∈ r.branchDictionary := by
    rw [hperm.mem_iff, hsplit]; simp
  intro rec
  constructor
  · intro hmem
    exact eq_of_nodup_keys _ _ _ _ hnd hmem hm
  · intro h
    rw [h]
    exact hm

/-- C18: when two catalogued edges of a function lead to the same block, the
records of both carry the line of the first non-phi instruction of that block
in the input graph (0 without location) as target line; and the body of the
successor loop leaves the target line of every block as it was, so the call
inserted for an earlier edge does not change what a later edge records. -/
theorem C18_shared_successor (P : SkeletonPass) (M : Module) (hwf : M.wellFormed = true)
    (Fpre Fpost : List Function) (F : Function) (epre emid epost : List (Nat × Nat))
    (e1 e2 : Nat × Nat) (hF : M.functions = Fpre ++ F :: Fpost)
    (he : functionEdges F = epre ++ e1 :: (emid ++ e2 :: epost)) (hs : e1.2 = e2.2) :
    (∃ r, run P M = some r ∧ ∀ rec : BranchRecord,
      (("br_" ++ to_string (successorSum (moduleInstructions Fpre) + epre.length), rec)
          ∈ r.branchDictionary
        ↔ rec = (M.sourceFileName, e1.1, targetLineOf F.blocks e1.2)) ∧
      (("br_" ++ to_string
            (successorSum (moduleInstructions Fpre) + (epre.length + 1 + emid.length)), rec)
          ∈ r.branchDictionary
        ↔ rec = (M.sourceFileName, e2.1, targetLineOf F.blocks e1.2))) ∧
    (∀ (l s : Nat) (st st1 : CatalogState),
      catalogueEdge M.sourceFileName brOpcodeName l st s = some st1 →
      ∀ t, targetLineOf st1.blocks t = targetLineOf st.blocks t) := by
  refine ⟨?_, fun l s st st1 h t => catalogueEdge_targetLineOf _ l s st st1 h t⟩
  obtain ⟨r, hr, h1⟩ := dict_entry_iff P M hwf Fpre Fpost F epre _ e1 hF he
  have he2 : functionEdges F = (epre ++ e1 :: emid) ++ e2 :: epost := by
    rw [he]; simp
  obtain ⟨r2, hr2, h2⟩ := dict_entry_iff P M hwf Fpre Fpost F _ epost e2 hF he2
  have hrr : r2 = r := Option.some.inj (hr2.symm.trans hr)
  subst hrr
  refine ⟨r2, hr, fun rec => ⟨h1 rec, ?_⟩⟩
  have h3 := h2 rec
  simp only [List.length_append, List.length_cons] at h3
  have hlen : epre.length + (emid.length + 1) = epre.length + 1 + emid.length := by omega
  rw [hlen] at h3
  rw [hs]
  exact h3

theorem C18_shared_successor_witness :
    sharedModule.wellFormed = true ∧
    ∃ r, run SkeletonPass.fresh sharedModule = some r ∧ ∀ rec : BranchRecord,
      (("br_0", rec) ∈ r.branchDictionary ↔ rec = ("x.c", 10, 11)) ∧
      (("br_1", rec) ∈ r.branchDictionary ↔ rec = ("x.c", 10, 11)) :=
  ⟨rfl, (C18_shared_successor SkeletonPass.fresh sharedModule rfl [] []
    { name := "main", addr := "0x1",
      blocks :=
        [ ⟨[{ op := .condBr 1 1, loc := some 10, ref := .val 1, operands := [otherCond] }]⟩,
          ⟨[plainInst 11]⟩ ] }
    [] [] [] (10, 1) (10, 1) rfl rfl rfl).1⟩

/-! ### The order of the dictionary and the branch table -/

theorem char_toNat_inj {a b : Char} (h : a.toNat = b.toNat) : a = b :=
  Char.le_antisymm (Nat.le_of_eq h) (Nat.le_of_eq h.symm)

theorem strLt_trans : ∀ (a b c : List Char),
    strLt a b = true → strLt b c = true → strLt a c = true := by
  intro a
  induction a with
  | nil =>
    intro b c hab hbc
    cases b with
    | nil => simp [strLt] at hab
    | cons y ys =>
      cases c with
      | nil => simp [strLt] at hbc
      | cons z zs => simp [strLt]
  | cons x xs ih =>
    intro b c hab hbc
    cases b with
    | nil => simp [strLt] at hab
    | cons y ys =>
      cases c with
      | nil => simp [strLt] at hbc
      | cons z zs =>
        simp only [strLt] at hab hbc ⊢
        by_cases h1 : x.toNat < y.toNat
        · by_cases h2 : y.toNat < z.toNat
          · have : x.toNat < z.toNat := by omega
            simp [this]
          · by_cases h3 : y.toNat = z.toNat
            · have : x.toNat < z.toNat := by omega
              simp [this]
            · simp [h2, h3] at hbc
        · by_cases h1e : x.toNat = y.toNat
          · have hab2 : strLt xs ys = true := by
              rw [if_neg h1, if_pos h1e] at hab
              exact hab
            by_cases h2 : y.toNat < z.toNat
            · have : x.toNat < z.toNat := by omega
              simp [this]
            · by_cases h3 : y.toNat = z.toNat
              · have hbc2 : strLt ys zs = true := by
                  rw [if_neg h2, if_pos h3] at hbc
                  exact hbc
                have hlt : ¬ x.toNat < z.toNat := by omega
                have heq : x.toNat = z.toNat := by omega
                rw [if_neg hlt, if_pos heq]
                exact ih ys zs hab2 hbc2
              · simp [h2, h3] at hbc
          · simp [h1, h1e] at hab

theorem strLt_total : ∀ (a b : List Char), a ≠ b → strLt a b = false → strLt b a = true := by
  intro a
  induction a with
  | nil =>
    intro b hne h
    cases b with
    | nil => exact absurd rfl hne
    | cons y ys => simp [strLt] at h
  | cons x xs ih =>
    intro b hne h
    cases b with
    | nil => simp [strLt]
    | cons y ys =>
      simp only [strLt] at h ⊢
      by_cases h1 : x.toNat < y.toNat
      · simp [h1] at h
      · by_cases h1e : x.toNat = y.toNat
        · have hxy : x = y := char_toNat_inj h1e
          subst hxy
          simp only [Nat.lt_irrefl, if_false, if_true] at h ⊢
          exact ih ys (fun hh => hne (by rw [hh])) h
        · have : y.toNat < x.toNat := by omega
          simp [this]

theorem mapInsert_keysAscending {V : Type} (k : String) (v : V) :
    ∀ d : List (String × V), keysAscending d → keysAscending (mapInsert k v d) := by
  intro d
  induction d with
  | nil => intro _; simp [mapInsert, keysAscending]
  | cons kv rest ih =>
    obtain ⟨k1, v1⟩ := kv
    intro hd
    unfold keysAscending at hd ⊢
    rw [List.pairwise_cons] at hd
    unfold mapInsert
    by_cases h1 : strLt k.data k1.data = true
    · rw [if_pos h1, List.pairwise_cons]
      refine ⟨?_, List.pairwise_cons.2 hd⟩
      intro y hy
      rcases List.mem_cons.1 hy with hy | hy
      · rw [hy]; exact h1
      · exact strLt_trans _ _ _ h1 (hd.1 y hy)
    · by_cases h2 : k = k1
      · rw [if_neg h1, if_pos h2, List.pairwise_cons]
        subst h2
        exact hd
      · rw [if_neg h1, if_neg h2, List.pairwise_cons]
        refine ⟨?_, ih hd.2⟩
        intro y hy
        rcases mem_mapInsert k v y rest hy with hy | hy
        · rw [hy]
          apply strLt_total
          · intro hdata
            exact h2 (String.ext hdata)
          · simpa using h1
        · exact hd.1 y hy

theorem insertAll_keysAscending {V : Type} : ∀ (recs d : List (String × V)),
    keysAscending d → keysAscending (insertAll d recs) := by
  intro recs
  induction recs with
  | nil => intro d h; exact h
  | cons kv rest ih =>
    intro d h
    exact ih _ (mapInsert_keysAscending kv.1 kv.2 d h)

theorem branchTable_eq_map (d : List (String × BranchRecord)) :
    branchTable d = d.map tableLine := by
  induction d with
  | nil => rfl
  | cons e rest ih =>
    obtain ⟨k, r⟩ := e
    simp only [branchTable, List.map_cons, ih]
    rfl

theorem run_errs (P : SkeletonPass) (M : Module) (r : RunResult) (h : run P M = some r) :
    ∃ pre, r.errs = pre ++ ["\nBranch Dictionary:\n"] ++ branchTable r.branchDictionary := by
  unfold run at h
  cases hc : catalogue M with
  | none => rw [hc] at h; cases h
  | some sw =>
    rw [hc] at h
    have h2 := Option.some.inj h
    rw [← h2]
    exact ⟨_, rfl⟩

/-- C13: the diagnostic stream of `run` ends with the header of the branch table
followed by exactly one line per entry of `branchDictionary`, of the form
`<id>: <sourceFile>, <conditionLine>, <targetLine>`, in the order of the
entries, and the entries are in strictly ascending lexicographic order of their
ids (which is not the insertion order once there are more than ten). -/
theorem C13_branch_table (P : SkeletonPass) (M : Module) (hwf : M.wellFormed = true) :
    ∃ r pre, run P M = some r ∧
      r.errs = pre ++ ["\nBranch Dictionary:\n"]
        ++ r.branchDictionary.map
            (fun e => e.1 ++ ": " ++ e.2.sourceFile ++ ", " ++ to_string e.2.conditionLine
              ++ ", " ++ to_string e.2.targetLine ++ "\n") ∧
      r.branchDictionary.Pairwise (fun x y => strLt x.1.data y.1.data = true) := by
  obtain ⟨r, hr, hd, _⟩ := run_of_catalogue P M _ (catalogue_spec M hwf)
  obtain ⟨pre, hpre⟩ := run_errs P M r hr
  refine ⟨r, pre, hr, ?_, ?_⟩
  · rw [hpre, branchTable_eq_map]
    rfl
  · rw [hd]
    exact insertAll_keysAscending _ [] List.Pairwise.nil

theorem C13_branch_table_witness :
    sixBranches.wellFormed = true ∧
    (∃ r pre, run SkeletonPass.fresh sixBranches = some r ∧
      r.errs = pre ++ ["\nBranch Dictionary:\n"]
        ++ r.branchDictionary.map
            (fun e => e.1 ++ ": " ++ e.2.sourceFile ++ ", " ++ to_string e.2.conditionLine
              ++ ", " ++ to_string e.2.targetLine ++ "\n") ∧
      r.branchDictionary.Pairwise (fun x y => strLt x.1.data y.1.data = true)) ∧
    (run SkeletonPass.fresh sixBranches).map
        (fun r => (r.branchDictionary.map Prod.fst, r.errs.drop 2))
      = some
        (["br_0", "br_1", "br_10", "br_11", "br_2", "br_3", "br_4", "br_5", "br_6", "br_7",
          "br_8", "br_9"],
         ["br_0: t.c, 1, 20\n", "br_1: t.c, 1, 30\n", "br_10: t.c, 6, 20\n",
          "br_11: t.c, 6, 30\n", "br_2: t.c, 2, 20\n", "br_3: t.c, 2, 30\n",
          "br_4: t.c, 3, 20\n", "br_5: t.c, 3, 30\n", "br_6: t.c, 4, 20\n",
          "br_7: t.c, 4, 30\n", "br_8: t.c, 5, 20\n", "br_9: t.c, 5, 30\n"]) :=
  ⟨rfl, C13_branch_table SkeletonPass.fresh sixBranches rfl, rfl⟩

/-! ### Running the pass on its own output -/

theorem edges_congr : ∀ (bs1 bs2 : List BasicBlock),
    bs1.map blockSig = bs2.map blockSig →
    edgesOfInsts (instructions bs1) = edgesOfInsts (instructions bs2) := by
  intro bs1
  induction bs1 with
  | nil =>
    intro bs2 h
    cases bs2 with
    | nil => rfl
    | cons b rest => simp at h
  | cons a rest ih =>
    intro bs2 h
    cases bs2 with
    | nil => simp at h
    | cons b rest2 =>
      simp only [List.map_cons, List.cons.injEq] at h
      simp only [instructions, edgesOfInsts_append, ih rest2 h.2]
      have := congrArg Prod.fst h.1
      simp only [blockSig] at this
      rw [this]

theorem instrumentedBlocks_sig (n : Nat) (es : List (Nat × Nat)) (blocks : List BasicBlock)
    (hok : es.all (fun e => targetOK blocks e.2) = true) :
    (instrumentedBlocks n es 0 blocks).map blockSig = blocks.map blockSig := by
  have h := runEdges_spec "" es
    { blocks := blocks, branchDictionary := [], branchNumber := n, flag := false } hok
  exact runEdges_sig "" es _ _ h

theorem wellFormed_of_sig (F G : Function)
    (h : G.blocks.map blockSig = F.blocks.map blockSig) : G.wellFormed = F.wellFormed := by
  unfold Function.wellFormed
  rw [edges_congr _ _ h]
  congr 1
  funext e
  exact targetOK_congr h e.2

theorem moduleRecords_instrumented (fileName : String) : ∀ (fs : List Function) (n m : Nat),
    fs.all (fun F => F.wellFormed) = true →
    moduleRecords fileName m (instrumentedFunctions n fs) = moduleRecords fileName m fs := by
  intro fs
  induction fs with
  | nil => intro n m _; rfl
  | cons F rest ih =>
    intro n m hwf
    simp only [List.all_cons, Bool.and_eq_true] at hwf
    have hsig := instrumentedBlocks_sig n (functionEdges F) F.blocks hwf.1
    simp only [instrumentedFunctions, moduleRecords, edges_congr _ _ hsig,
      recordsFrom_congr fileName hsig, ih _ _ hwf.2]

theorem wellFormed_instrumented : ∀ (fs : List Function) (n : Nat),
    fs.all (fun F => F.wellFormed) = true →
    (instrumentedFunctions n fs).all (fun F => F.wellFormed) = true := by
  intro fs
  induction fs with
  | nil => intro n _; rfl
  | cons F rest ih =>
    intro n hwf
    simp only [List.all_cons, Bool.and_eq_true] at hwf
    have hsig := instrumentedBlocks_sig n (functionEdges F) F.blocks hwf.1
    simp only [instrumentedFunctions, List.all_cons, Bool.and_eq_true]
    refine ⟨?_, ih _ hwf.2⟩
    rw [← hwf.1]
    exact wellFormed_of_sig F _ hsig

theorem names_instrumented : ∀ (fs : List Function) (n : Nat),
    (instrumentedFunctions n fs).map (fun F => F.name) = fs.map (fun F => F.name) := by
  intro fs
  induction fs with
  | nil => intro n; rfl
  | cons F rest ih => intro n; simp [instrumentedFunctions, ih]

theorem any_logPrint_congr (fs gs : List Function)
    (h : gs.map (fun F => F.name) = fs.map (fun F => F.name)) :
    gs.any (fun F => decide (F.name = "logPrint"))
      = fs.any (fun F => decide (F.name = "logPrint")) := by
  have h1 : ∀ l : List Function, l.any (fun F => decide (F.name = "logPrint"))
      = (l.map (fun F => F.name)).any (fun s => decide (s = "logPrint")) := by
    intro l
    induction l with
    | nil => rfl
    | cons a rest ih => simp [ih]
  rw [h1 gs, h1 fs, h]

theorem any_logPrint_getOrInsert (fs : List Function) :
    (getOrInsertLogPrint fs).any (fun F => decide (F.name = "logPrint")) = true := by
  unfold getOrInsertLogPrint
  by_cases h : fs.any (fun F => decide (F.name = "logPrint")) = true
  · rw [if_pos h]; exact h
  · rw [if_neg h]; simp

theorem traversed_instrumented (M : Module) (n : Nat) :
    traversedFunctions { M with functions := instrumentedFunctions n (traversedFunctions M) }
      = instrumentedFunctions n (traversedFunctions M) := by
  cases hfs : M.functions with
  | nil => simp [traversedFunctions, hfs, instrumentedFunctions]
  | cons F rest =>
    have htr : traversedFunctions M = getOrInsertLogPrint (F :: rest) := by
      simp [traversedFunctions, hfs]
    have hany := any_logPrint_getOrInsert (F :: rest)
    rw [← htr] at hany
    have hany2 := (any_logPrint_congr _ _ (names_instrumented (traversedFunctions M) n)).trans
      hany
    generalize hG : instrumentedFunctions n (traversedFunctions M) = G at hany2 ⊢
    cases G with
    | nil => simp at hany2
    | cons G0 Grest =>
      simp only [traversedFunctions, getOrInsertLogPrint]
      rw [if_pos hany2]

theorem logPrintCalls_append (l1 l2 : List Instruction) :
    logPrintCalls (l1 ++ l2) = logPrintCalls l1 + logPrintCalls l2 := by
  induction l1 with
  | nil => simp [logPrintCalls]
  | cons i rest ih => simp [logPrintCalls, ih, Nat.add_assoc]

theorem logPrintCalls_callsInto (loc : Option Nat) (b : Nat) :
    ∀ (es : List (Nat × Nat)) (n : Nat),
    logPrintCalls (callsInto loc b n es) = es.countP (fun e => decide (e.2 = b)) := by
  intro es
  induction es with
  | nil => intro n; rfl
  | cons e rest ih =>
    intro n
    simp only [callsInto, logPrintCalls_append, ih, List.countP_cons]
    by_cases h : e.2 = b
    · simp only [h, if_true, decide_True]
      rfl
    · simp [h, logPrintCalls]

theorem logPrintCalls_instrumentedBlock (n : Nat) (es : List (Nat × Nat)) (b : Nat)
    (blk : BasicBlock) :
    logPrintCalls (instrumentedBlock n es b blk).insts
      = logPrintCalls blk.insts + es.countP (fun e => decide (e.2 = b)) := by
  have h := congrArg logPrintCalls (phisOf_append_bodyOf blk.insts)
  simp only [logPrintCalls_append] at h
  simp only [instrumentedBlock, logPrintCalls_append, logPrintCalls_callsInto]
  omega

theorem logPrintCalls_instrumentedBlocks (n : Nat) (es : List (Nat × Nat)) :
    ∀ (l : List BasicBlock) (k : Nat),
    logPrintCalls (instructions (instrumentedBlocks n es k l))
      = logPrintCalls (instructions l)
        + es.countP (fun e => decide (k ≤ e.2 ∧ e.2 < k + l.length)) := by
  intro l
  induction l with
  | nil =>
    intro k
    have : es.countP (fun e => decide (k ≤ e.2 ∧ e.2 < k + 0)) = 0 := by
      rw [List.countP_eq_zero]
      intro e _
      simp
    show 0 = 0 + es.countP (fun e => decide (k ≤ e.2 ∧ e.2 < k + 0))
    rw [this]
  | cons blk rest ih =>
    intro k
    simp only [instrumentedBlocks, instructions, logPrintCalls_append, List.length_cons,
      logPrintCalls_instrumentedBlock, ih, countP_window_succ]
    omega

theorem logPrintCalls_instrumented (n : Nat) (F : Function) (hwf : F.wellFormed = true) :
    logPrintCalls (instructions (instrumentedBlocks n (functionEdges F) 0 F.blocks))
      = logPrintCalls (instructions F.blocks) + (functionEdges F).length := by
  rw [logPrintCalls_instrumentedBlocks]
  congr 1
  rw [List.countP_eq_length]
  intro e he
  have hall : (functionEdges F).all (fun e => targetOK F.blocks e.2) = true := hwf
  rw [List.all_eq_true] at hall
  have := targetOK_lt F.blocks e.2 (hall e he)
  simp
  omega

theorem logPrintCalls_moduleInstructions_instrumented : ∀ (fs : List Function) (n : Nat),
    fs.all (fun F => F.wellFormed) = true →
    logPrintCalls (moduleInstructions (instrumentedFunctions n fs))
      = logPrintCalls (moduleInstructions fs) + successorSum (moduleInstructions fs) := by
  intro fs
  induction fs with
  | nil => intro n _; rfl
  | cons F rest ih =>
    intro n hwf
    simp only [List.all_cons, Bool.and_eq_true] at hwf
    have h1 := logPrintCalls_instrumented n F hwf.1
    simp only [functionEdges, length_edgesOfInsts] at h1
    simp only [instrumentedFunctions, moduleInstructions, logPrintCalls_append,
      ih _ hwf.2, successorSum_append, functionEdges]
    omega

theorem module_eq_mk (m : Module) (s : String) (fs : List Function)
    (h1 : m.functions = fs) (h2 : m.sourceFileName = s) :
    m = { sourceFileName := s, functions := fs } := by
  cases m
  simp only at h1 h2
  rw [h1, h2]

/-- C11 (as amended): a second run on the module left by the first run starts
its counter at zero again and builds the same dictionary (same ids, same
records, same final counter), and it inserts one further logging call per
record: the number of `logPrint` calls after a run is the number before it plus
the number of records.  With at least one record the second run changes the
module; the number after the second run is twice the number after the first
when the input module had no `logPrint` call. -/
theorem C11_second_run (P P2 : SkeletonPass) (M : Module) (hwf : M.wellFormed = true) :
    ∃ r1 r2, run P M = some r1 ∧ run P2 r1.module = some r2 ∧
      r2.branchNumber = r1.branchNumber ∧
      r2.branchDictionary = r1.branchDictionary ∧
      logPrintCalls (moduleInstructions r1.module.functions)
        = logPrintCalls (moduleInstructions M.functions) + r1.branchDictionary.length ∧
      logPrintCalls (moduleInstructions r2.module.functions)
        = logPrintCalls (moduleInstructions r1.module.functions)
          + r1.branchDictionary.length ∧
      (0 < r1.branchDictionary.length → r2.module ≠ r1.module) ∧
      (logPrintCalls (moduleInstructions M.functions) = 0 →
        logPrintCalls (moduleInstructions r2.module.functions)
          = 2 * logPrintCalls (moduleInstructions r1.module.functions)) := by
  obtain ⟨r1, hr1, hd1, hn1, hm1, hf1, _⟩ := run_of_catalogue P M _ (catalogue_spec M hwf)
  have hd1' : r1.branchDictionary
      = insertAll [] (moduleRecords M.sourceFileName 0 M.functions) := hd1
  have hn1' : r1.branchNumber = (moduleRecords M.sourceFileName 0 M.functions).length := hn1
  have hm1' : r1.module.functions = instrumentedFunctions 0 (traversedFunctions M) := hm1
  have hmod : r1.module = { M with functions := instrumentedFunctions 0 (traversedFunctions M) } :=
    module_eq_mk _ _ _ hm1' hf1
  have hwft : (traversedFunctions M).all (fun F => F.wellFormed) = true := by
    rw [wellFormed_traversed]; exact hwf
  have hwf2 : r1.module.wellFormed = true := by
    unfold Module.wellFormed
    rw [hm1']
    exact wellFormed_instrumented _ 0 hwft
  have hrec : moduleRecords r1.module.sourceFileName 0 r1.module.functions
      = moduleRecords M.sourceFileName 0 M.functions := by
    rw [hf1, hm1', moduleRecords_instrumented _ _ 0 0 hwft, moduleRecords_traversed]
  obtain ⟨r2, hr2, hd2, hn2, hm2, _⟩ := run_of_catalogue P2 r1.module _ (catalogue_spec _ hwf2)
  have hd2' : r2.branchDictionary
      = insertAll [] (moduleRecords r1.module.sourceFileName 0 r1.module.functions) := hd2
  have hn2' : r2.branchNumber
      = (moduleRecords r1.module.sourceFileName 0 r1.module.functions).length := hn2
  have hm2' : r2.module.functions = instrumentedFunctions 0 (traversedFunctions r1.module) := hm2
  have hlen : r1.branchDictionary.length = successorSum (moduleInstructions M.functions) := by
    rw [hd1', (catalogue_dict_perm M).length_eq, length_moduleRecords]
  have hc1 : logPrintCalls (moduleInstructions r1.module.functions)
      = logPrintCalls (moduleInstructions M.functions) + r1.branchDictionary.length := by
    rw [hm1', logPrintCalls_moduleInstructions_instrumented _ 0 hwft,
      moduleInstructions_traversed, hlen]
  have hc2 : logPrintCalls (moduleInstructions r2.module.functions)
      = logPrintCalls (moduleInstructions r1.module.functions)
        + r1.branchDictionary.length := by
    have htr : traversedFunctions r1.module = r1.module.functions := by
      rw [hmod]
      exact traversed_instrumented M 0
    have hwf3 : r1.module.functions.all (fun F => F.wellFormed) = true := hwf2
    rw [hm2', htr, logPrintCalls_moduleInstructions_instrumented _ 0 hwf3]
    congr 1
    rw [← length_moduleRecords r1.module.sourceFileName r1.module.functions 0, hrec,
      length_moduleRecords, hlen]
  refine ⟨r1, r2, hr1, hr2, ?_, ?_, hc1, hc2, ?_, ?_⟩
  · rw [hn2', hn1', hrec]
  · rw [hd2', hd1', hrec]
  · intro hpos heq
    rw [heq] at hc2
    omega
  · intro h0
    rw [hc2, hc1, h0]
    omega

theorem C11_second_run_witness :
    scenarioA.wellFormed = true ∧
    ∃ r1 r2, run SkeletonPass.fresh scenarioA = some r1 ∧
      run SkeletonPass.fresh r1.module = some r2 ∧
      r2.branchNumber = r1.branchNumber ∧
      r2.branchDictionary = r1.branchDictionary ∧
      logPrintCalls (moduleInstructions r1.module.functions)
        = logPrintCalls (moduleInstructions scenarioA.functions)
          + r1.branchDictionary.length ∧
      logPrintCalls (moduleInstructions r2.module.functions)
        = logPrintCalls (moduleInstructions r1.module.functions)
          + r1.branchDictionary.length ∧
      (0 < r1.branchDictionary.length → r2.module ≠ r1.module) ∧
      (logPrintCalls (moduleInstructions scenarioA.functions) = 0 →
        logPrintCalls (moduleInstructions r2.module.functions)
          = 2 * logPrintCalls (moduleInstructions r1.module.functions)) :=
  ⟨rfl, C11_second_run SkeletonPass.fresh SkeletonPass.fresh scenarioA rfl⟩

/-- C11 (counterexample): `preLoggedModule` calls `logPrint` once before the
pass runs and has one conditional branch; the module holds 3 calls of
`logPrint` after the first run and 5, not 6, after the second. -/
theorem C11_counterexample :
    (run SkeletonPass.fresh preLoggedModule).bind
        (fun r1 => (run r1.pass r1.module).map
          (fun r2 => (r1.branchDictionary.length,
            logPrintCalls (moduleInstructions r1.module.functions),
            logPrintCalls (moduleInstructions r2.module.functions))))
      = some (2, 3, 5) := by
  rfl

/-! ### Dependence on the IR graph only -/

theorem graph_cons_inv {F G : Function} {fs gs : List Function}
    (h : (F :: fs).map Function.graph = (G :: gs).map Function.graph) :
    F.name = G.name ∧ F.blocks = G.blocks ∧ fs.map Function.graph = gs.map Function.graph := by
  simp only [List.map_cons, List.cons.injEq, Function.graph, Prod.mk.injEq] at h
  exact ⟨h.1.1, h.1.2, h.2⟩

theorem moduleRecords_graph (fileName : String) : ∀ (fs gs : List Function) (n : Nat),
    fs.map Function.graph = gs.map Function.graph →
    moduleRecords fileName n fs = moduleRecords fileName n gs := by
  intro fs
  induction fs with
  | nil =>
    intro gs n h
    cases gs with
    | nil => rfl
    | cons G rest => simp at h
  | cons F rest ih =>
    intro gs n h
    cases gs with
    | nil => simp at h
    | cons G grest =>
      obtain ⟨_, hb, hrest⟩ := graph_cons_inv h
      simp only [moduleRecords, hb, ih grest _ hrest]

theorem wellFormed_graph : ∀ (fs gs : List Function),
    fs.map Function.graph = gs.map Function.graph →
    fs.all (fun F => F.wellFormed) = gs.all (fun F => F.wellFormed) := by
  intro fs
  induction fs with
  | nil =>
    intro gs h
    cases gs with
    | nil => rfl
    | cons G rest => simp at h
  | cons F rest ih =>
    intro gs h
    cases gs with
    | nil => simp at h
    | cons G grest =>
      obtain ⟨_, hb, hrest⟩ := graph_cons_inv h
      have hF : F.wellFormed = G.wellFormed := by
        unfold Function.wellFormed
        rw [hb]
      rw [List.all_cons, List.all_cons, hF, ih grest hrest]

theorem moduleInstructions_graph : ∀ (fs gs : List Function),
    fs.map Function.graph = gs.map Function.graph →
    moduleInstructions fs = moduleInstructions gs := by
  intro fs
  induction fs with
  | nil =>
    intro gs h
    cases gs with
    | nil => rfl
    | cons G rest => simp at h
  | cons F rest ih =>
    intro gs h
    cases gs with
    | nil => simp at h
    | cons G grest =>
      obtain ⟨_, hb, hrest⟩ := graph_cons_inv h
      simp only [moduleInstructions, hb, ih grest hrest]

theorem instrumentedFunctions_graph : ∀ (fs gs : List Function) (n : Nat),
    fs.map Function.graph = gs.map Function.graph →
    (instrumentedFunctions n fs).map Function.graph
      = (instrumentedFunctions n gs).map Function.graph := by
  intro fs
  induction fs with
  | nil =>
    intro gs n h
    cases gs with
    | nil => rfl
    | cons G rest => simp at h
  | cons F rest ih =>
    intro gs n h
    cases gs with
    | nil => simp at h
    | cons G grest =>
      obtain ⟨hn, hb, hrest⟩ := graph_cons_inv h
      simp only [instrumentedFunctions, List.map_cons, Function.graph, functionEdges, hn, hb,
        List.cons.injEq, true_and]
      exact ih grest _ hrest

theorem scanInstruction_graph (all : List Instruction) (F G : Function)
    (hb : F.blocks = G.blocks) (st : InputState) (I : Instruction) :
    scanInstruction all F st I = scanInstruction all G st I := by
  unfold scanInstruction
  rw [hb]

theorem scanInstructions_graph (all : List Instruction) (F G : Function)
    (hb : F.blocks = G.blocks) : ∀ (insts : List Instruction) (st : InputState),
    scanInstructions all F st insts = scanInstructions all G st insts := by
  intro insts
  induction insts with
  | nil => intro st; rfl
  | cons I rest ih =>
    intro st
    simp only [scanInstructions, scanInstruction_graph all F G hb, ih]

theorem findInputVariables_graph (kp : List Nat) (all : List Instruction) (F G : Function)
    (hb : F.blocks = G.blocks) :
    findInputVariables kp all F = findInputVariables kp all G := by
  unfold findInputVariables
  rw [scanInstructions_graph all F G hb, hb]

theorem sweepInputs_graph (kp : List Nat) (all : List Instruction) :
    ∀ (fs gs : List Function), fs.map Function.graph = gs.map Function.graph →
    sweepInputs kp all fs = sweepInputs kp all gs := by
  intro fs
  induction fs with
  | nil =>
    intro gs h
    cases gs with
    | nil => rfl
    | cons G rest => simp at h
  | cons F rest ih =>
    intro gs h
    cases gs with
    | nil => simp at h
    | cons G grest =>
      obtain ⟨_, hb, hrest⟩ := graph_cons_inv h
      simp only [sweepInputs, Function.isDeclaration, hb, ih grest hrest,
        findInputVariables_graph kp all F G hb]

theorem traversedFunctions_graph (M1 M2 : Module)
    (h : M1.functions.map Function.graph = M2.functions.map Function.graph) :
    (traversedFunctions M1).map Function.graph
      = (traversedFunctions M2).map Function.graph := by
  have hnames : M1.functions.map (fun F => F.name) = M2.functions.map (fun F => F.name) := by
    have := congrArg (List.map Prod.fst) h
    simpa [List.map_map, Function.graph, Function.comp] using this
  have hany := any_logPrint_congr _ _ hnames
  unfold traversedFunctions
  cases h1 : M1.functions with
  | nil =>
    rw [h1] at h
    cases h2 : M2.functions with
    | nil => rfl
    | cons G rest => rw [h2] at h; simp at h
  | cons F rest =>
    cases h2 : M2.functions with
    | nil => rw [h1, h2] at h; simp at h
    | cons G grest =>
      rw [h1, h2] at h hany
      simp only [getOrInsertLogPrint]
      by_cases ha : (G :: grest).any (fun F => decide (F.name = "logPrint")) = true
      · rw [if_pos ha, if_pos (hany.trans ha)]
        exact h
      · have ha1 : ¬ (F :: rest).any (fun F => decide (F.name = "logPrint")) = true := by
          rw [hany]; exact ha
        rw [if_neg ha, if_neg ha1, List.map_append, List.map_append, h]

theorem run_errs_of_catalogue (P : SkeletonPass) (M : Module) (sw : SweepState)
    (r : RunResult) (h : catalogue M = some sw) (hr : run P M = some r) :
    r.errs = sw.errs ++ (reportErrs r.reports ++ ["\nBranch Dictionary:\n"]
      ++ branchTable r.branchDictionary) := by
  unfold run at hr
  rw [h] at hr
  rw [← Option.some.inj hr]
  simp

/-- C14 (as amended): two runs, each from a fresh pass, on modules with the
same IR graph end with the same branch counter, the same dictionary (ids and
records) and the same reports of the second sweep, and their diagnostic streams
agree in everything that follows the per-function lines; the per-function
lines themselves (`functionDiagnostics`) carry the address of the function
object and agree only as far as these addresses do. -/
theorem C14_same_graph_same_results (M1 M2 : Module) (hg : M1.graph = M2.graph)
    (hwf : M1.wellFormed = true) :
    ∃ r1 r2 rest, run SkeletonPass.fresh M1 = some r1 ∧ run SkeletonPass.fresh M2 = some r2 ∧
      r1.branchNumber = r2.branchNumber ∧
      r1.branchDictionary = r2.branchDictionary ∧
      r1.reports = r2.reports ∧
      r1.errs = functionDiagnostics M1.functions ++ rest ∧
      r2.errs = functionDiagnostics M2.functions ++ rest := by
  have hfile : M1.sourceFileName = M2.sourceFileName := congrArg Prod.fst hg
  have hfs : M1.functions.map Function.graph = M2.functions.map Function.graph :=
    congrArg Prod.snd hg
  have hwf2 : M2.wellFormed = true := by
    unfold Module.wellFormed at hwf ⊢
    rw [← wellFormed_graph _ _ hfs]
    exact hwf
  have hc1 := catalogue_spec M1 hwf
  have hc2 := catalogue_spec M2 hwf2
  obtain ⟨r1, hr1, hd1, hn1, hm1, _, hk1, hrep1⟩ :=
    run_of_catalogue SkeletonPass.fresh M1 _ hc1
  obtain ⟨r2, hr2, hd2, hn2, hm2, _, hk2, hrep2⟩ :=
    run_of_catalogue SkeletonPass.fresh M2 _ hc2
  have he1 := run_errs_of_catalogue SkeletonPass.fresh M1 _ r1 hc1 hr1
  have he2 := run_errs_of_catalogue SkeletonPass.fresh M2 _ r2 hc2 hr2
  have hrec : moduleRecords M1.sourceFileName 0 M1.functions
      = moduleRecords M2.sourceFileName 0 M2.functions := by
    rw [hfile, moduleRecords_graph _ _ _ 0 hfs]
  have hdict : r1.branchDictionary = r2.branchDictionary := by
    rw [hd1, hd2]
    show insertAll [] (moduleRecords M1.sourceFileName 0 M1.functions)
      = insertAll [] (moduleRecords M2.sourceFileName 0 M2.functions)
    rw [hrec]
  have hnum : r1.branchNumber = r2.branchNumber := by
    rw [hn1, hn2]
    show (moduleRecords M1.sourceFileName 0 M1.functions).length
      = (moduleRecords M2.sourceFileName 0 M2.functions).length
    rw [hrec]
  have hkp : r1.pass.keyPointLines = r2.pass.keyPointLines := by
    rw [hk1, hk2]
    show collectKeyPointLines _ (insertAll [] (moduleRecords M1.sourceFileName 0 M1.functions))
      = collectKeyPointLines _ (insertAll [] (moduleRecords M2.sourceFileName 0 M2.functions))
    rw [hrec]
  have hig := instrumentedFunctions_graph _ _ 0 (traversedFunctions_graph M1 M2 hfs)
  have hreports : r1.reports = r2.reports := by
    rw [hrep1, hrep2, hkp]
    show sweepInputs _ (moduleInstructions (instrumentedFunctions 0 (traversedFunctions M1)))
        (instrumentedFunctions 0 (traversedFunctions M1))
      = sweepInputs _ (moduleInstructions (instrumentedFunctions 0 (traversedFunctions M2)))
        (instrumentedFunctions 0 (traversedFunctions M2))
    rw [moduleInstructions_graph _ _ hig, sweepInputs_graph _ _ _ _ hig]
  refine ⟨r1, r2, _, hr1, hr2, hnum, hdict, hreports, he1, ?_⟩
  rw [he2, hreports, hdict]

theorem C14_same_graph_same_results_witness :
    scenarioA.graph = scenarioAMoved.graph ∧ scenarioA.wellFormed = true ∧
    ∃ r1 r2 rest, run SkeletonPass.fresh scenarioA = some r1 ∧
      run SkeletonPass.fresh scenarioAMoved = some r2 ∧
      r1.branchNumber = r2.branchNumber ∧
      r1.branchDictionary = r2.branchDictionary ∧
      r1.reports = r2.reports ∧
      r1.errs = functionDiagnostics scenarioA.functions ++ rest ∧
      r2.errs = functionDiagnostics scenarioAMoved.functions ++ rest :=
  ⟨rfl, rfl, C14_same_graph_same_results scenarioA scenarioAMoved rfl rfl⟩

/-- C14 (counterexample): `scenarioA` and `scenarioAMoved` are the same IR graph,
the function object lying at another address; the diagnostic streams of the two
runs differ in the per-function line. -/
theorem C14_counterexample :
    scenarioA.graph = scenarioAMoved.graph ∧
    (run SkeletonPass.fresh scenarioA).map (fun r => r.errs)
      = some ["main: func_0x1\n", "\nBranch Dictionary:\n", "br_0: a.c, 10, 11\n",
          "br_1: a.c, 10, 20\n"] ∧
    (run SkeletonPass.fresh scenarioAMoved).map (fun r => r.errs)
      = some ["main: func_0x7f00\n", "\nBranch Dictionary:\n", "br_0: a.c, 10, 11\n",
          "br_1: a.c, 10, 20\n"] ∧
    (run SkeletonPass.fresh scenarioA).map (fun r => r.errs)
      ≠ (run SkeletonPass.fresh scenarioAMoved).map (fun r => r.errs) := by
  refine ⟨rfl, rfl, rfl, ?_⟩
  decide

/-! ### Sweep 2 on the instrumented module -/

theorem scanInstruction_logPrintCall (all : List Instruction) (F : Function)
    (st : InputState) (id : String) (loc : Option Nat) :
    scanInstruction all F st (logPrintCall id loc) = st := by
  unfold scanInstruction logPrintCall
  simp only []
  rw [if_neg (by decide)]

theorem scanInstructions_append (all : List Instruction) (F : Function)
    (l2 : List Instruction) : ∀ (l1 : List Instruction) (st : InputState),
    scanInstructions all F st (l1 ++ l2)
      = scanInstructions all F (scanInstructions all F st l1) l2 := by
  intro l1
  induction l1 with
  | nil => intro st; rfl
  | cons I rest ih =>
    intro st
    show scanInstructions all F (scanInstruction all F st I) (rest ++ l2)
      = scanInstructions all F (scanInstructions all F (scanInstruction all F st I) rest) l2
    exact ih _

theorem scanInstructions_callsInto (all : List Instruction) (F : Function)
    (st : InputState) (loc : Option Nat) (b : Nat) : ∀ (es : List (Nat × Nat)) (n : Nat),
    scanInstructions all F st (callsInto loc b n es) = st := by
  intro es
  induction es with
  | nil => intro n; rfl
  | cons e rest ih =>
    intro n
    simp only [callsInto, scanInstructions_append, ih]
    by_cases h : e.2 = b
    · simp only [h, if_true, scanInstructions, scanInstruction_logPrintCall]
    · simp only [h, if_false, scanInstructions]

theorem scanInstructions_instrumentedBlocks (all : List Instruction) (F : Function)
    (n : Nat) (es : List (Nat × Nat)) : ∀ (l : List BasicBlock) (k : Nat) (st : InputState),
    scanInstructions all F st (instructions (instrumentedBlocks n es k l))
      = scanInstructions all F st (instructions l) := by
  intro l
  induction l with
  | nil => intro k st; rfl
  | cons blk rest ih =>
    intro k st
    simp only [instrumentedBlocks, instructions, scanInstructions_append, ih]
    congr 1
    simp only [instrumentedBlock, scanInstructions_append, scanInstructions_callsInto]
    rw [← scanInstructions_append, phisOf_append_bodyOf]

theorem textualScan_append (name : String) (l1 l2 : List Instruction) :
    textualScan name (l1 ++ l2) = textualScan name l1 ++ textualScan name l2 := by
  induction l1 with
  | nil => rfl
  | cons I rest ih => simp [textualScan, ih]

theorem textualScan_callsInto (name : String) (loc : Option Nat) (b : Nat) :
    ∀ (es : List (Nat × Nat)) (n : Nat), textualScan name (callsInto loc b n es) = [] := by
  intro es
  induction es with
  | nil => intro n; rfl
  | cons e rest ih =>
    intro n
    simp only [callsInto, textualScan_append, ih]
    by_cases h : e.2 = b
    · simp only [h, if_true, List.nil_append]
      rfl
    · simp only [h, if_false, List.nil_append]
      rfl

theorem textualScan_instrumentedBlocks (name : String) (n : Nat) (es : List (Nat × Nat)) :
    ∀ (l : List BasicBlock) (k : Nat),
    textualScan name (instructions (instrumentedBlocks n es k l))
      = textualScan name (instructions l) := by
  intro l
  induction l with
  | nil => intro k; rfl
  | cons blk rest ih =>
    intro k
    simp only [instrumentedBlocks, instructions, textualScan_append, ih]
    congr 1
    simp only [instrumentedBlock, textualScan_append, textualScan_callsInto,
      List.append_nil]
    rw [← textualScan_append, phisOf_append_bodyOf]

theorem users_append (r : ValueRef) (l1 l2 : List Instruction) :
    users r (l1 ++ l2) = users r l1 ++ users r l2 := by
  induction l1 with
  | nil => rfl
  | cons I rest ih => simp [users, ih]

theorem users_logPrintCall (r : ValueRef) (hr : r.isLogRef = false) (id : String)
    (loc : Option Nat) : users r [logPrintCall id loc] = [] := by
  cases r with
  | val k => rfl
  | logCall s => rfl
  | logStr s => simp [ValueRef.isLogRef] at hr
  | func name =>
    have hn : name ≠ "logPrint" := by simpa [ValueRef.isLogRef] using hr
    have h1 : (ValueRef.logStr id = ValueRef.func name) = False := by simp
    have h2 : (ValueRef.func "logPrint" = ValueRef.func name) = False := by
      simp only [ValueRef.func.injEq, eq_iff_iff, iff_false]
      exact fun h => hn h.symm
    simp only [users, logPrintCall, Instruction.getOperands, List.cons_append,
      List.nil_append, usesIn, h1, h2, if_false, List.append_nil]

theorem users_callsInto (r : ValueRef) (hr : r.isLogRef = false) (loc : Option Nat)
    (b : Nat) : ∀ (es : List (Nat × Nat)) (n : Nat), users r (callsInto loc b n es) = [] := by
  intro es
  induction es with
  | nil => intro n; rfl
  | cons e rest ih =>
    intro n
    simp only [callsInto, users_append, ih, List.nil_append]
    by_cases h : e.2 = b
    · simp only [h, if_true]
      exact users_logPrintCall r hr _ _
    · simp only [h, if_false]
      rfl

theorem users_instrumentedBlocks (r : ValueRef) (hr : r.isLogRef = false) (n : Nat)
    (es : List (Nat × Nat)) : ∀ (l : List BasicBlock) (k : Nat),
    users r (instructions (instrumentedBlocks n es k l)) = users r (instructions l) := by
  intro l
  induction l with
  | nil => intro k; rfl
  | cons blk rest ih =>
    intro k
    simp only [instrumentedBlocks, instructions, users_append, ih]
    congr 1
    simp only [instrumentedBlock, users_append, users_callsInto r hr, List.append_nil]
    rw [← users_append, phisOf_append_bodyOf]

theorem users_instrumentedFunctions (r : ValueRef) (hr : r.isLogRef = false) :
    ∀ (fs : List Function) (n : Nat),
    users r (moduleInstructions (instrumentedFunctions n fs))
      = users r (moduleInstructions fs) := by
  intro fs
  induction fs with
  | nil => intro n; rfl
  | cons F rest ih =>
    intro n
    simp only [instrumentedFunctions, moduleInstructions, users_append, ih,
      users_instrumentedBlocks r hr]

theorem scanInstruction_inputVariables (all : List Instruction) (F : Function)
    (st : InputState) (I : Instruction) :
    (scanInstruction all F st I).inputVariables = st.inputVariables ++ recordedBy I := by
  unfold scanInstruction recordedBy
  split
  · simp only []
    split_ifs
    all_goals first
      | (rw [scanfOperands_inputVariables, filterMap_range'_getElem?]; rfl)
      | simp
  · simp

theorem scanInstructions_inputVariables_mem (all : List Instruction) (F : Function)
    (v : Value) : ∀ (insts : List Instruction) (st : InputState),
    v ∈ (scanInstructions all F st insts).inputVariables →
    v ∈ st.inputVariables ∨ ∃ I ∈ insts, v ∈ recordedBy I := by
  intro insts
  induction insts with
  | nil => intro st h; exact Or.inl h
  | cons I rest ih =>
    intro st h
    rcases ih _ h with h1 | ⟨J, hJ, hv⟩
    · rw [scanInstruction_inputVariables, List.mem_append] at h1
      rcases h1 with h1 | h1
      · exact Or.inl h1
      · exact Or.inr ⟨I, List.mem_cons_self _ _, h1⟩
    · exact Or.inr ⟨J, List.mem_cons_of_mem _ hJ, hv⟩

theorem scanfOperands_congr (all1 all2 : List Instruction) (line : Nat) (CI : Instruction) :
    ∀ (idx : List Nat) (st : InputState),
    (∀ i ∈ idx, ∀ o, CI.getOperands[i]? = some o → o.isPointerTy = true →
      users o.ref all1 = users o.ref all2) →
    scanfOperands all1 line CI st idx = scanfOperands all2 line CI st idx := by
  intro idx
  induction idx with
  | nil => intro st _; rfl
  | cons i rest ih =>
    intro st h
    have hstep : scanfOperand all1 line CI st i = scanfOperand all2 line CI st i := by
      unfold scanfOperand
      cases ho : CI.getOperands[i]? with
      | none => rfl
      | some o =>
        by_cases hp : o.isPointerTy = true
        · simp only [hp, if_true]
          rw [h i (List.mem_cons_self _ _) o ho hp]
        · simp [hp]
    simp only [scanfOperands, hstep]
    exact ih _ (fun j hj => h j (List.mem_cons_of_mem _ hj))

theorem scanInstruction_congr (all1 all2 : List Instruction) (F1 F2 : Function)
    (st : InputState) (I : Instruction)
    (hu : ∀ v ∈ recordedBy I, users v.ref all1 = users v.ref all2)
    (ht : ∀ name, textualScan name (instructions F1.blocks)
      = textualScan name (instructions F2.blocks)) :
    scanInstruction all1 F1 st I = scanInstruction all2 F2 st I := by
  unfold scanInstruction
  unfold recordedBy at hu
  split
  · rename_i name callee hop
    rw [hop] at hu
    simp only [] at hu ⊢
    by_cases h1 : name ∈ ioFunctions
    · rw [if_pos h1, if_pos h1]
      rw [if_pos h1] at hu
      by_cases h2 : name = "\x01_fopen" ∨ name = "fopen" ∨ name = "_fopen"
      · rw [if_pos h2, if_pos h2]
      · rw [if_neg h2, if_neg h2]
        rw [if_neg h2] at hu
        by_cases h3 : name = "scanf"
        · rw [if_pos h3, if_pos h3]
          rw [if_pos h3] at hu
          apply scanfOperands_congr
          intro i hi o ho hp
          apply hu
          have hmem : o ∈ (List.range' 1 (I.getNumOperands - 1 - 1)).filterMap
              (fun i => (I.getOperands[i]?).filter (fun o => o.isPointerTy)) :=
            List.mem_filterMap.2 ⟨i, hi, by simp [ho, Option.filter, hp]⟩
          rw [filterMap_range'_getElem?] at hmem
          exact hmem
        · rw [if_neg h3, if_neg h3]
          rw [if_neg h3] at hu
          by_cases h4 : name = "getc" ∨ name = "fclose"
          · rw [if_pos h4, if_pos h4, ht]
          · rw [if_neg h4, if_neg h4]
    · rw [if_neg h1, if_neg h1]
  · rfl

theorem scanInstructions_congr (all1 all2 : List Instruction) (F1 F2 : Function)
    (ht : ∀ name, textualScan name (instructions F1.blocks)
      = textualScan name (instructions F2.blocks)) :
    ∀ (insts : List Instruction) (st : InputState),
    (∀ I ∈ insts, ∀ v ∈ recordedBy I, users v.ref all1 = users v.ref all2) →
    scanInstructions all1 F1 st insts = scanInstructions all2 F2 st insts := by
  intro insts
  induction insts with
  | nil => intro st _; rfl
  | cons I rest ih =>
    intro st h
    simp only [scanInstructions,
      scanInstruction_congr all1 all2 F1 F2 st I (h I (List.mem_cons_self _ _)) ht]
    exact ih _ (fun J hJ => h J (List.mem_cons_of_mem _ hJ))

theorem resolveInfluence_congr (kp : List Nat) (all1 all2 : List Instruction) :
    ∀ (vs : List Value) (acc : List ValueRef × List String),
    (∀ v ∈ vs, users v.ref all1 = users v.ref all2) →
    resolveInfluence kp all1 acc vs = resolveInfluence kp all2 acc vs := by
  intro vs
  induction vs with
  | nil => intro acc _; rfl
  | cons v rest ih =>
    intro acc h
    obtain ⟨infl, out⟩ := acc
    have hv := h v (List.mem_cons_self _ _)
    have hrest : ∀ w ∈ rest, users w.ref all1 = users w.ref all2 :=
      fun w hw => h w (List.mem_cons_of_mem _ hw)
    unfold resolveInfluence
    rw [hv]
    cases firstKeyPointUse kp (users v.ref all2) with
    | none => exact ih _ hrest
    | some l => exact ih _ hrest

theorem findInputVariables_instrumented (kp : List Nat) (all1 all2 : List Instruction)
    (hU : ∀ r : ValueRef, r.isLogRef = false → users r all1 = users r all2)
    (F : Function) (n : Nat) (es : List (Nat × Nat))
    (hrec : ∀ I ∈ instructions F.blocks, ∀ v ∈ recordedBy I, v.ref.isLogRef = false) :
    findInputVariables kp all1 { F with blocks := instrumentedBlocks n es 0 F.blocks }
      = findInputVariables kp all2 F := by
  have hscan : scanInstructions all1 { F with blocks := instrumentedBlocks n es 0 F.blocks }
        { inputVariables := [], inputVarLines := [], filePointerInitLines := [], errs := [] }
        (instructions (instrumentedBlocks n es 0 F.blocks))
      = scanInstructions all2 F
        { inputVariables := [], inputVarLines := [], filePointerInitLines := [], errs := [] }
        (instructions F.blocks) := by
    rw [scanInstructions_instrumentedBlocks]
    exact scanInstructions_congr all1 all2 _ F
      (fun name => textualScan_instrumentedBlocks name n es F.blocks 0) _ _
      (fun I hI v hv => hU _ (hrec I hI v hv))
  unfold findInputVariables
  simp only [hscan]
  have hres := resolveInfluence_congr kp all1 all2
    (scanInstructions all2 F
      { inputVariables := [], inputVarLines := [], filePointerInitLines := [], errs := [] }
      (instructions F.blocks)).inputVariables
    ([], (scanInstructions all2 F
      { inputVariables := [], inputVarLines := [], filePointerInitLines := [], errs := [] }
      (instructions F.blocks)).errs)
    (by
      intro v hv
      rcases scanInstructions_inputVariables_mem all2 F v _ _ hv with h | ⟨I, hI, hvI⟩
      · cases h
      · exact hU _ (hrec I hI v hvI))
  rw [hres]

theorem isEmpty_instrumentedBlocks (n : Nat) (es : List (Nat × Nat)) (k : Nat)
    (l : List BasicBlock) : (instrumentedBlocks n es k l).isEmpty = l.isEmpty := by
  cases l <;> rfl

theorem sweepInputs_instrumented (kp : List Nat) (all1 all2 : List Instruction)
    (hU : ∀ r : ValueRef, r.isLogRef = false → users r all1 = users r all2) :
    ∀ (fs : List Function) (n : Nat),
    (∀ I ∈ moduleInstructions fs, ∀ v ∈ recordedBy I, v.ref.isLogRef = false) →
    sweepInputs kp all1 (instrumentedFunctions n fs) = sweepInputs kp all2 fs := by
  intro fs
  induction fs with
  | nil => intro n _; rfl
  | cons F rest ih =>
    intro n h
    have hF : ∀ I ∈ instructions F.blocks, ∀ v ∈ recordedBy I, v.ref.isLogRef = false :=
      fun I hI => h I (by simp only [moduleInstructions, List.mem_append]; exact Or.inl hI)
    have hrest : ∀ I ∈ moduleInstructions rest, ∀ v ∈ recordedBy I, v.ref.isLogRef = false :=
      fun I hI => h I (by simp only [moduleInstructions, List.mem_append]; exact Or.inr hI)
    simp only [instrumentedFunctions, sweepInputs, Function.isDeclaration,
      isEmpty_instrumentedBlocks, ih _ hrest,
      findInputVariables_instrumented kp all1 all2 hU F n (functionEdges F) hF]

theorem sweepInputs_append (kp : List Nat) (all : List Instruction) (fs2 : List Function) :
    ∀ fs1 : List Function,
    sweepInputs kp all (fs1 ++ fs2) = sweepInputs kp all fs1 ++ sweepInputs kp all fs2 := by
  intro fs1
  induction fs1 with
  | nil => rfl
  | cons F rest ih =>
    show sweepInputs kp all (F :: (rest ++ fs2))
      = sweepInputs kp all (F :: rest) ++ sweepInputs kp all fs2
    have e1 : sweepInputs kp all (F :: (rest ++ fs2))
        = if F.isDeclaration = true then sweepInputs kp all (rest ++ fs2)
          else findInputVariables kp all F :: sweepInputs kp all (rest ++ fs2) := rfl
    have e2 : sweepInputs kp all (F :: rest)
        = if F.isDeclaration = true then sweepInputs kp all rest
          else findInputVariables kp all F :: sweepInputs kp all rest := rfl
    rw [e1, e2, ih]
    by_cases h : F.isDeclaration = true
    · rw [if_pos h, if_pos h]
    · rw [if_neg h, if_neg h]
      rfl

theorem sweepInputs_traversed (kp : List Nat) (all : List Instruction) (M : Module) :
    sweepInputs kp all (traversedFunctions M) = sweepInputs kp all M.functions := by
  unfold traversedFunctions
  cases hfs : M.functions with
  | nil => rfl
  | cons F rest =>
    simp only [getOrInsertLogPrint]
    split
    · rfl
    · rw [sweepInputs_append]
      simp [sweepInputs, Function.isDeclaration]

/-- C15 (as amended): when no input variable recorded on the module is the
function `logPrint` (or a string constant of a logging call), the second sweep
gives, for every `keyPointLines`, the same reports on the module after
instrumentation as on the module before it: same recorded variables and lines,
same diagnostics, same influencers.  An inserted call is never recognized as
an I/O call and never matches the textual scan. -/
theorem C15_sweep2_unchanged (P : SkeletonPass) (M : Module) (hwf : M.wellFormed = true)
    (hlog : ∀ I ∈ moduleInstructions M.functions, ∀ v ∈ recordedBy I,
      v.ref.isLogRef = false) :
    (∃ r, run P M = some r ∧ ∀ kp : List Nat,
      sweepInputs kp (moduleInstructions r.module.functions) r.module.functions
        = sweepInputs kp (moduleInstructions M.functions) M.functions) ∧
    (∀ (all : List Instruction) (F : Function) (st : InputState) (id : String)
      (loc : Option Nat), scanInstruction all F st (logPrintCall id loc) = st) ∧
    (∀ (name id : String) (loc : Option Nat), textualScan name [logPrintCall id loc] = []) := by
  refine ⟨?_, scanInstruction_logPrintCall, fun name id loc => rfl⟩
  obtain ⟨r, hr, _, _, hm, _⟩ := run_of_catalogue P M _ (catalogue_spec M hwf)
  have hm2 : r.module.functions = instrumentedFunctions 0 (traversedFunctions M) := hm
  refine ⟨r, hr, fun kp => ?_⟩
  have hU : ∀ ref : ValueRef, ref.isLogRef = false →
      users ref (moduleInstructions (instrumentedFunctions 0 (traversedFunctions M)))
        = users ref (moduleInstructions M.functions) := by
    intro ref href
    rw [users_instrumentedFunctions ref href, moduleInstructions_traversed]
  have hlog2 : ∀ I ∈ moduleInstructions (traversedFunctions M), ∀ v ∈ recordedBy I,
      v.ref.isLogRef = false := by
    rw [moduleInstructions_traversed]
    exact hlog
  rw [hm2, sweepInputs_instrumented kp _ _ hU (traversedFunctions M) 0 hlog2,
    sweepInputs_traversed]

theorem C15_sweep2_unchanged_witness :
    scenarioB.wellFormed = true ∧
    ∃ r, run SkeletonPass.fresh scenarioB = some r ∧ ∀ kp : List Nat,
      sweepInputs kp (moduleInstructions r.module.functions) r.module.functions
        = sweepInputs kp (moduleInstructions scenarioB.functions) scenarioB.functions :=
  ⟨rfl, (C15_sweep2_unchanged SkeletonPass.fresh scenarioB rfl (by decide)).1⟩

/-- C15 (counterexample): `logPrintAsInput` passes the function `logPrint` to
`scanf`, so `logPrint` is a recorded input variable.  With `keyPointLines`
fixed to the single line 5, its only user before instrumentation is the `scanf`
call at line 3 and it is not flagged; after instrumentation the inserted calls
are users of it, one of them on line 5, and it is flagged. -/
theorem C15_counterexample :
    (sweepInputs [5] (moduleInstructions logPrintAsInput.functions)
        logPrintAsInput.functions).map
        (fun p => (p.inputVariables, p.keyPointInfluencers))
      = [([logPrintFn], [])] ∧
    (run SkeletonPass.fresh logPrintAsInput).map
        (fun r => (sweepInputs [5] (moduleInstructions r.module.functions)
          r.module.functions).map (fun p => (p.inputVariables, p.keyPointInfluencers)))
      = some [([logPrintFn], [logPrintFn.ref])] := by
  constructor <;> rfl

/-! ### What the inserted calls are -/

theorem logPrintArg_logPrintCall (branchID : String) (loc : Option Nat) :
    logPrintArg (logPrintCall branchID loc) = some branchID := by
  simp [logPrintArg, logPrintCall, Instruction.getOperands]

theorem callsInto_mem (loc : Option Nat) (b : Nat) : ∀ (es : List (Nat × Nat)) (n : Nat)
    (c : Instruction), c ∈ callsInto loc b n es →
    ∃ j e, es[j]? = some e ∧ e.2 = b ∧ c = logPrintCall (branchIDOf (n + j)) loc := by
  intro es
  induction es with
  | nil => intro n c h; simp [callsInto] at h
  | cons e0 rest ih =>
    intro n c h
    simp only [callsInto, List.mem_append] at h
    rcases h with h | h
    · obtain ⟨j, e, hj, he, hc⟩ := ih (n + 1) c h
      refine ⟨j + 1, e, by simpa using hj, he, ?_⟩
      rw [hc]
      congr 2
      omega
    · by_cases hb : e0.2 = b
      · rw [if_pos hb] at h
        simp only [List.mem_singleton] at h
        exact ⟨0, e0, by simp, hb, by simpa using h⟩
      · rw [if_neg hb] at h
        simp at h

theorem callsInto_countP (loc : Option Nat) (b : Nat) : ∀ (es : List (Nat × Nat))
    (n j : Nat) (e : Nat × Nat), es[j]? = some e →
    (callsInto loc b n es).countP
        (fun c => decide (logPrintArg c = some (branchIDOf (n + j))))
      = if e.2 = b then 1 else 0 := by
  intro es
  induction es with
  | nil => intro n j e h; simp at h
  | cons e0 rest ih =>
    intro n j e h
    simp only [callsInto, List.countP_append]
    cases j with
    | zero =>
      have he : e0 = e := by simpa using h
      subst he
      have h0 : (callsInto loc b (n + 1) rest).countP
          (fun c => decide (logPrintArg c = some (branchIDOf (n + 0)))) = 0 := by
        rw [List.countP_eq_zero]
        intro c hc
        obtain ⟨j, e, _, _, hce⟩ := callsInto_mem loc b rest (n + 1) c hc
        rw [hce, logPrintArg_logPrintCall]
        simp only [Option.some.injEq, decide_eq_true_eq]
        intro hid
        have := branchIDOf_injective hid
        omega
      rw [h0]
      by_cases hb : e0.2 = b
      · simp [hb, logPrintArg_logPrintCall]
      · simp [hb]
    | succ j =>
      have hj : rest[j]? = some e := by simpa using h
      have h1 := ih (n + 1) j e hj
      have hn : n + 1 + j = n + (j + 1) := by omega
      rw [hn] at h1
      rw [h1]
      by_cases hb : e0.2 = b
      · rw [if_pos hb]
        have hne : ¬ branchIDOf n = branchIDOf (n + (j + 1)) := by
          intro hid
          have := branchIDOf_injective hid
          omega
        simp [logPrintArg_logPrintCall, hne]
      · simp [hb]

theorem instrumentedBlocks_getElem (n : Nat) (es : List (Nat × Nat)) :
    ∀ (blocks : List BasicBlock) (k b : Nat) (blk : BasicBlock), blocks[b]? = some blk →
    (instrumentedBlocks n es k blocks)[b]? = some (instrumentedBlock n es (k + b) blk) := by
  intro blocks
  induction blocks with
  | nil => intro k b blk h; simp at h
  | cons b0 rest ih =>
    intro k b blk h
    cases b with
    | zero =>
      have hb : b0 = blk := by simpa using h
      simp [instrumentedBlocks, hb]
    | succ b =>
      have hb : rest[b]? = some blk := by simpa using h
      have h1 := ih (k + 1) b blk hb
      have hk : k + 1 + b = k + (b + 1) := by omega
      rw [hk] at h1
      simpa [instrumentedBlocks] using h1

theorem instrumentedFunctions_getElem (F : Function) (post : List Function) :
    ∀ (pre : List Function) (n : Nat),
    (instrumentedFunctions n (pre ++ F :: post))[pre.length]?
      = some { F with blocks := (instrumentedBlocks
          (n + successorSum (moduleInstructions pre)) (functionEdges F) 0 F.blocks) } := by
  intro pre
  induction pre with
  | nil => intro n; simp [instrumentedFunctions, moduleInstructions, successorSum]
  | cons F0 rest ih =>
    intro n
    have h1 := ih (n + (functionEdges F0).length)
    have h2 : n + (functionEdges F0).length + successorSum (moduleInstructions rest)
        = n + successorSum (moduleInstructions (F0 :: rest)) := by
      simp only [moduleInstructions, successorSum_append, functionEdges, length_edgesOfInsts]
      omega
    rw [h2] at h1
    simpa [instrumentedFunctions] using h1

theorem traversedFunctions_split (M : Module) (pre post : List Function) (F : Function)
    (h : M.functions = pre ++ F :: post) :
    ∃ tl, traversedFunctions M = pre ++ F :: (post ++ tl) := by
  unfold traversedFunctions
  cases hfs : M.functions with
  | nil => rw [hfs] at h; simp at h
  | cons F0 rest =>
    rw [hfs] at h
    simp only [getOrInsertLogPrint]
    split
    · exact ⟨[], by simpa using h⟩
    · exact ⟨[{ name := "logPrint", addr := "", blocks := [] }], by rw [h]; simp⟩

theorem getElem_split {α : Type} : ∀ (l : List α) (j : Nat) (e : α), l[j]? = some e →
    ∃ l1 l2, l = l1 ++ e :: l2 ∧ l1.length = j := by
  intro l
  induction l with
  | nil => intro j e h; simp at h
  | cons a rest ih =>
    intro j e h
    cases j with
    | zero =>
      have ha : a = e := by simpa using h
      exact ⟨[], rest, by simp [ha], rfl⟩
    | succ j =>
      have hj : rest[j]? = some e := by simpa using h
      obtain ⟨l1, l2, hl, hlen⟩ := ih j e hj
      exact ⟨a :: l1, l2, by simp [hl], by simp [hlen]⟩

theorem dict_mem_of_edge (M : Module) (pre post : List Function) (F : Function)
    (hF : M.functions = pre ++ F :: post) (j : Nat) (e : Nat × Nat)
    (he : (functionEdges F)[j]? = some e) :
    (branchIDOf (successorSum (moduleInstructions pre) + j),
        ((M.sourceFileName, e.1, targetLineOf F.blocks e.2) : BranchRecord))
      ∈ insertAll [] (moduleRecords M.sourceFileName 0 M.functions) := by
  obtain ⟨epre, epost, hsplit, hlen⟩ := getElem_split _ j e he
  obtain ⟨A, B, hrec, hA⟩ :=
    moduleRecords_split_edge M.sourceFileName pre post F epre epost e hsplit
  rw [(catalogue_dict_perm M).mem_iff, hF, hrec, hA, hlen]
  simp

/-- C6: `run` returns, and its module is the traversed function list with every
block rebuilt as phis, inserted calls, original non-phi instructions
(`instrumentedFunctions`); the instruction count grows by exactly the number of
records.  For every function `F` of the input, preceded by the functions `pre`,
the function `G` at the same position after the run has the name, address and
number of blocks of `F`, and every record of `F` (edge number `j`, id
`br_(k + j)` with `k` the number of records of `pre`) is in the dictionary.  For
every block `b` of `F` the block of `G` is the phis of the original block, then
the inserted instructions `calls`, then the original non-phi instructions, the
original block being its phis followed by its non-phi instructions; every
inserted instruction is a direct call of `logPrint` whose single argument is the
constant string holding the id of a record whose successor block is `b`; and for
every record of `F` the number of inserted calls in `b` that pass its id is one
when `b` is the successor block of the record and zero otherwise. -/
theorem C6_instrumentation (P : SkeletonPass) (M : Module) (hwf : M.wellFormed = true) :
    ∃ r, run P M = some r ∧
      r.module.functions = instrumentedFunctions 0 (traversedFunctions M) ∧
      (moduleInstructions r.module.functions).length
        = (moduleInstructions M.functions).length + r.branchDictionary.length ∧
      ∀ (pre post : List Function) (F : Function), M.functions = pre ++ F :: post →
        ∃ G, r.module.functions[pre.length]? = some G ∧
          G.name = F.name ∧ G.addr = F.addr ∧ G.blocks.length = F.blocks.length ∧
          (∀ (j : Nat) (e : Nat × Nat), (functionEdges F)[j]? = some e →
            (branchIDOf (successorSum (moduleInstructions pre) + j),
                ((M.sourceFileName, e.1, targetLineOf F.blocks e.2) : BranchRecord))
              ∈ r.branchDictionary) ∧
          ∀ (b : Nat) (blk : BasicBlock), F.blocks[b]? = some blk →
            ∃ calls, G.blocks[b]? = some ⟨phisOf blk.insts ++ calls ++ bodyOf blk.insts⟩ ∧
              blk.insts = phisOf blk.insts ++ bodyOf blk.insts ∧
              (∀ c ∈ calls, ∃ j e, (functionEdges F)[j]? = some e ∧ e.2 = b ∧
                logPrintArg c
                  = some (branchIDOf (successorSum (moduleInstructions pre) + j))) ∧
              ∀ (j : Nat) (e : Nat × Nat), (functionEdges F)[j]? = some e →
                calls.countP (fun c => decide (logPrintArg c
                    = some (branchIDOf (successorSum (moduleInstructions pre) + j))))
                  = if e.2 = b then 1 else 0 := by
  obtain ⟨r, hr, hd, _, hm, _⟩ := run_of_catalogue P M _ (catalogue_spec M hwf)
  have hd2 : r.branchDictionary
      = insertAll [] (moduleRecords M.sourceFileName 0 M.functions) := hd
  have hm2 : r.module.functions = instrumentedFunctions 0 (traversedFunctions M) := hm
  refine ⟨r, hr, hm2, ?_, ?_⟩
  · rw [hm2, hd2]
    have h := length_moduleInstructions_instrumented (traversedFunctions M) 0
      (by rw [wellFormed_traversed]; exact hwf)
    rw [moduleInstructions_traversed] at h
    have h2 : (insertAll [] (moduleRecords M.sourceFileName 0 M.functions)).length
        = successorSum (moduleInstructions M.functions) := by
      rw [(catalogue_dict_perm M).length_eq, length_moduleRecords]
    exact h.trans (by rw [← h2])
  · intro pre post F hF
    obtain ⟨tl, htl⟩ := traversedFunctions_split M pre post F hF
    have hG := instrumentedFunctions_getElem F (post ++ tl) pre 0
    rw [← htl, ← hm2, Nat.zero_add] at hG
    refine ⟨_, hG, rfl, rfl, length_instrumentedBlocks _ _ _ _, ?_, ?_⟩
    · intro j e he
      rw [hd2]
      exact dict_mem_of_edge M pre post F hF j e he
    · intro b blk hb
      refine ⟨callsInto (headLoc blk.insts) b (successorSum (moduleInstructions pre))
        (functionEdges F), ?_, (phisOf_append_bodyOf blk.insts).symm, ?_, ?_⟩
      · have h := instrumentedBlocks_getElem (successorSum (moduleInstructions pre))
          (functionEdges F) F.blocks 0 b blk hb
        rw [Nat.zero_add] at h
        exact h
      · intro c hc
        obtain ⟨j, e, hj, he, hce⟩ := callsInto_mem _ _ _ _ c hc
        exact ⟨j, e, hj, he, by rw [hce, logPrintArg_logPrintCall]⟩
      · intro j e he
        exact callsInto_countP _ _ _ _ j e he

theorem C6_instrumentation_witness :
    scenarioA.wellFormed = true ∧
    (∃ r, run SkeletonPass.fresh scenarioA = some r ∧
      r.module.functions = instrumentedFunctions 0 (traversedFunctions scenarioA) ∧
      (moduleInstructions r.module.functions).length
        = (moduleInstructions scenarioA.functions).length + r.branchDictionary.length ∧
      ∀ (pre post : List Function) (F : Function), scenarioA.functions = pre ++ F :: post →
        ∃ G, r.module.functions[pre.length]? = some G ∧
          G.name = F.name ∧ G.addr = F.addr ∧ G.blocks.length = F.blocks.length ∧
          (∀ (j : Nat) (e : Nat × Nat), (functionEdges F)[j]? = some e →
            (branchIDOf (successorSum (moduleInstructions pre) + j),
                ((scenarioA.sourceFileName, e.1, targetLineOf F.blocks e.2) : BranchRecord))
              ∈ r.branchDictionary) ∧
          ∀ (b : Nat) (blk : BasicBlock), F.blocks[b]? = some blk →
            ∃ calls, G.blocks[b]? = some ⟨phisOf blk.insts ++ calls ++ bodyOf blk.insts⟩ ∧
              blk.insts = phisOf blk.insts ++ bodyOf blk.insts ∧
              (∀ c ∈ calls, ∃ j e, (functionEdges F)[j]? = some e ∧ e.2 = b ∧
                logPrintArg c
                  = some (branchIDOf (successorSum (moduleInstructions pre) + j))) ∧
              ∀ (j : Nat) (e : Nat × Nat), (functionEdges F)[j]? = some e →
                calls.countP (fun c => decide (logPrintArg c
                    = some (branchIDOf (successorSum (moduleInstructions pre) + j))))
                  = if e.2 = b then 1 else 0) ∧
    (run SkeletonPass.fresh scenarioA).map (fun r =>
        (r.branchDictionary.map (fun kv => kv.1),
          r.module.functions.map (fun F =>
            (F.name, F.blocks.map (fun blk => blk.insts.map logPrintArg)))))
      = some (["br_0", "br_1"],
          [("main", [[none, none], [some "br_0", none, none], [some "br_1", none]]),
           ("logPrint", [])]) :=
  ⟨rfl, C6_instrumentation SkeletonPass.fresh scenarioA rfl, rfl⟩

end Skeleton
